import Mathlib

/-!
# Verification development for `server/utils.go`

A shallow embedding of the helper functions of `server/utils.go` and theorems about
them.  Conventions of the embedding:

* a Go `string` is a finite sequence of bytes; it is modelled as `GoString = List Nat`
  (a byte is a natural number below 256; where a result is narrowed to a byte the
  model takes it `% 256`);
* a Go `(T, error)` result is modelled as a pair whose second component is an
  `Option` holding the error;
* the functions of the Go standard library that the file calls (`strings.HasPrefix`,
  `strings.HasSuffix`, `strings.TrimRight`, `strings.Repeat`, `encoding/base64`,
  `regexp`, `os.ReadDir`) are modelled after their library definitions, each next to
  the function that uses it.
-/

namespace EsmUtils

/-! ## Strings -/

/-- A Go string: a sequence of bytes. -/
abbrev GoString := List Nat

/-- The bytes of an ASCII string literal of the source. -/
def str (s : String) : GoString := s.toList.map Char.toNat

/-- Every element is a byte. -/
def IsBytes (s : GoString) : Prop := ∀ b ∈ s, b < 256

/-- Go `strings.HasPrefix`: `len(s) >= len(prefix) && s[:len(prefix)] == prefix`. -/
def hasPrefix (s pre : GoString) : Bool :=
  decide (pre.length ≤ s.length) && (s.take pre.length == pre)

/-- Go `strings.HasSuffix`: `len(s) >= len(suffix) && s[len(s)-len(suffix):] == suffix`. -/
def hasSuffix (s suf : GoString) : Bool :=
  decide (suf.length ≤ s.length) && (s.drop (s.length - suf.length) == suf)

/-! ## Specifier classification -/

/-- Source `isHttpSepcifier`: the import path is a remote URL. -/
def isHttpSepcifier (importPath : GoString) : Bool :=
  hasPrefix importPath (str "https://") || hasPrefix importPath (str "http://")

/-- Source `isLocalSpecifier`: the import path is a local path. -/
def isLocalSpecifier (importPath : GoString) : Bool :=
  hasPrefix importPath (str "file://") || hasPrefix importPath (str "/")
    || hasPrefix importPath (str "./") || hasPrefix importPath (str "../")
    || (importPath == str ".") || (importPath == str "..")

/-! ## Small helpers -/

/-- Source `esExts`. -/
def esExts : List GoString :=
  [str ".mjs", str ".js", str ".jsx", str ".mts", str ".ts", str ".tsx", str ".cjs"]

/-- The loop of `stripModuleExt` over the remaining extensions: return on the first
extension that is a suffix of `s`, and `s` itself when the list is exhausted. -/
def stripModuleExtLoop (s : GoString) : List GoString → GoString
  | [] => s
  | ext :: rest =>
    if hasSuffix s ext then s.take (s.length - ext.length) else stripModuleExtLoop s rest

/-- Source `stripModuleExt`. -/
def stripModuleExt (s : GoString) : GoString := stripModuleExtLoop s esExts

/-- Source `removeHttpPrefix`: the result string and the error (its message), if any. -/
def removeHttpPrefix (s : GoString) : GoString × Option GoString :=
  if hasPrefix s (str "http://") then (s.drop 7, none)
  else if hasPrefix s (str "https://") then (s.drop 8, none)
  else ([], some (str "not a http/https url: " ++ s))

/-! ## URL-safe base64 codec -/

/-- Go `strings.Repeat` for a one-byte string: `count` copies of the byte. -/
def strRepeat (c : Nat) (count : Nat) : GoString := List.replicate count c

/-- Go `strings.TrimRight(s, cutset)`: `s` with all trailing bytes contained in
`cutset` removed. -/
def trimRight (s cutset : GoString) : GoString := s.rdropWhile (fun c => cutset.contains c)

/-- The alphabet of Go `base64.URLEncoding` (`encodeURL`). -/
def encodeURL : GoString :=
  str "ABCDEFGHIJKLMNOPQRSTUVWXYZabcdefghijklmnopqrstuvwxyz0123456789-_"

/-- The padding character `=` (`base64.StdPadding`) of `base64.URLEncoding`. -/
def padChar : Nat := 61

/-- The table `enc.encode` of `base64.URLEncoding`: the character of a 6-bit value. -/
def encChar (v : Nat) : Nat := encodeURL.getD v 0

/-- The table `enc.decodeMap` of `base64.URLEncoding`: the 6-bit value of an alphabet
character, `0xff` for every other byte. -/
def decodeMap (c : Nat) : Nat :=
  if encodeURL.indexOf c < 64 then encodeURL.indexOf c else 0xff

/-- Go `base64.URLEncoding.EncodeToString`: every 3 source bytes give 4 characters; a
remaining block of 1 or 2 bytes gives 2 or 3 characters followed by padding. -/
def encodeToString : GoString → GoString
  | [] => []
  | [a] =>
    let val := a <<< 16
    [encChar ((val >>> 18) &&& 0x3F), encChar ((val >>> 12) &&& 0x3F), padChar, padChar]
  | [a, b] =>
    let val := (a <<< 16) ||| (b <<< 8)
    [encChar ((val >>> 18) &&& 0x3F), encChar ((val >>> 12) &&& 0x3F),
      encChar ((val >>> 6) &&& 0x3F), padChar]
  | a :: b :: c :: rest =>
    let val := (a <<< 16) ||| (b <<< 8) ||| c
    encChar ((val >>> 18) &&& 0x3F) :: encChar ((val >>> 12) &&& 0x3F)
      :: encChar ((val >>> 6) &&& 0x3F) :: encChar (val &&& 0x3F) :: encodeToString rest

/-- Source `btoaUrl`. -/
def btoaUrl (s : GoString) : GoString := trimRight (encodeToString s) (str "=")

/-- A line break, which the Go decoder skips. -/
def isNewline (c : Nat) : Bool := c == 10 || c == 13

/-- The result of one call of Go `decodeQuantum`: the unread input `src[si:]`, the new
index `si`, the bytes written to `dst` and the error (a `CorruptInputError` offset). -/
structure Quantum where
  rest : GoString
  si : Nat
  out : GoString
  err : Option Nat
  deriving DecidableEq, Repr

/-- The end of Go `decodeQuantum`: the 6-bit values collected in `dbuf` (missing ones
are 0) are packed into 3 bytes of which the first `dlen - 1` are written. -/
def quantumBytes (dbuf : List Nat) (dlen : Nat) : GoString :=
  let val := (dbuf.getD 0 0 <<< 18) ||| (dbuf.getD 1 0 <<< 12) ||| (dbuf.getD 2 0 <<< 6)
    ||| dbuf.getD 3 0
  [(val >>> 16) % 256, (val >>> 8) % 256, val % 256].take (dlen - 1)

/-- The part of Go `decodeQuantum` that follows the first padding character read at
position `j` of the quantum (`rest` and `si` are already past that character). -/
def decodePadding (srcLen : Nat) (rest : GoString) (si j : Nat) (dbuf : List Nat) : Quantum :=
  if j < 2 then ⟨rest, si, [], some (si - 1)⟩
  else
    let tail1 := rest.dropWhile isNewline
    let si1 := si + (rest.length - tail1.length)
    let fin (tl : GoString) (i : Nat) : Quantum :=
      let tail2 := tl.dropWhile isNewline
      let si2 := i + (tl.length - tail2.length)
      ⟨tail2, si2, quantumBytes dbuf j, if tail2 = [] then none else some si2⟩
    if j = 2 then
      match tail1 with
      | [] => ⟨[], si1, [], some srcLen⟩
      | c :: tail =>
        if c ≠ padChar then ⟨c :: tail, si1, [], some (si1 - 1)⟩
        else fin tail (si1 + 1)
    else fin rest si

/-- Go `decodeQuantum`, as a loop over the unread input `src[si:]` with the loop
variable `j` and the values `dbuf[0..j)` read so far. -/
def decodeQuantumLoop (srcLen : Nat) : GoString → Nat → Nat → List Nat → Quantum
  | [], si, j, dbuf =>
    if 4 ≤ j then ⟨[], si, quantumBytes dbuf 4, none⟩
    else if j = 0 then ⟨[], si, [], none⟩
    else ⟨[], si, [], some (si - j)⟩
  | c :: rest, si, j, dbuf =>
    if 4 ≤ j then ⟨c :: rest, si, quantumBytes dbuf 4, none⟩
    else if decodeMap c ≠ 0xff then
      decodeQuantumLoop srcLen rest (si + 1) (j + 1) (dbuf ++ [decodeMap c])
    else if isNewline c then decodeQuantumLoop srcLen rest (si + 1) j dbuf
    else if c ≠ padChar then ⟨rest, si + 1, [], some si⟩
    else decodePadding srcLen rest (si + 1) j dbuf

/-- Go `decodeQuantum(dst, src, si)`. -/
def decodeQuantum (srcLen : Nat) (rest : GoString) (si : Nat) : Quantum :=
  decodeQuantumLoop srcLen rest si 0 []

/-- The loop `for si < len(src)` of Go `Encoding.Decode`, which calls `decodeQuantum`
until the input is used up or an error is met.  (The fast paths of `Decode` for 8 and 4
valid characters compute what `decodeQuantum` computes and are left out.)  Every call
of `decodeQuantum` on a non-empty input reads at least one byte, so `fuel = len(src)`
iterations are enough. -/
def decodeLoop (srcLen : Nat) : Nat → GoString → Nat → GoString → GoString × Option Nat
  | 0, _, _, acc => (acc, none)
  | fuel + 1, rest, si, acc =>
    if rest = [] then (acc, none)
    else
      let q := decodeQuantum srcLen rest si
      match q.err with
      | some e => (acc ++ q.out, some e)
      | none => decodeLoop srcLen fuel q.rest q.si (acc ++ q.out)

/-- Go `base64.URLEncoding.DecodeString`: the decoded bytes `dbuf[:n]` and the error. -/
def decodeString (s : GoString) : GoString × Option Nat :=
  decodeLoop s.length s.length s 0 []

/-- Source `atobUrl`: the result string and the error, if any. -/
def atobUrl (s : GoString) : GoString × Option Nat :=
  let l := s.length % 4
  let s := if l > 0 then s ++ strRepeat padChar (4 - l) else s
  match decodeString s with
  | (_, some e) => ([], some e)
  | (data, none) => (data, none)

/-- The byte is a character of the URL-safe base64 alphabet: `A-Z`, `a-z`, `0-9`, `-`
or `_`. -/
def isURLSafe (c : Nat) : Bool :=
  (decide (65 ≤ c) && decide (c ≤ 90)) || (decide (97 ≤ c) && decide (c ≤ 122))
    || (decide (48 ≤ c) && decide (c ≤ 57)) || c == 45 || c == 95

/-! ## Directory scan -/

/-- A file-system object as the scan sees it.  `file` is any directory entry whose
`IsDir()` is false; `dir` is a readable directory with its entries in the order in
which `os.ReadDir` returns them; `unreadable` is a directory whose `os.ReadDir` fails
with the given error. -/
inductive Node where
  | file : Node
  | dir : List (GoString × Node) → Node
  | unreadable : Nat → Node
  deriving Repr

/-- The error of `os.ReadDir` on something that is not a directory (`ENOTDIR`). -/
def ENOTDIR : Nat := 20

/-- Go `entry.IsDir()`. -/
def Node.isDir : Node → Bool
  | .file => false
  | _ => true

/-- Go builtin `copy(dst, src)`: the first `min(len(dst), len(src))` elements of `dst`
are overwritten with those of `src`. -/
def goCopy (dst src : List GoString) : List GoString :=
  src.take (min dst.length src.length) ++ dst.drop (min dst.length src.length)

/-- The statements of `findFiles` that merge the result of a sub-directory:
`n := len(files); files = make([]string, n+len(subFiles));`
`for i, f := range subFiles { files[i+n] = f }; copy(files, subFiles)`. -/
def mergeSubFiles (files subFiles : List GoString) : List GoString :=
  let n := files.length
  let fresh : List GoString := List.replicate (n + subFiles.length) []
  let filled := subFiles.enum.foldl (fun acc p => acc.set (p.1 + n) p.2) fresh
  goCopy filled subFiles

/-- The path of an entry: `name`, or `dir + "/" + name` when `dir != ""`. -/
def entryPath (dir name : GoString) : GoString :=
  if dir ≠ [] then dir ++ str "/" ++ name else name

mutual
/-- Source `findFiles`.  `absErr` is the outcome of `filepath.Abs(root)` (an error, or
none), `root` the object found at the root path. -/
def findFiles (absErr : Option Nat) (root : Node) (dir : GoString) (fn : GoString → Bool) :
    List GoString × Option Nat :=
  match absErr with
  | some e => ([], some e)
  | none =>
    match root with
    | .file => ([], some ENOTDIR)
    | .unreadable e => ([], some e)
    | .dir entries => findFilesLoop entries dir fn []
/-- The loop of `findFiles` over the remaining entries, `files` being the list collected
so far.  In the recursive call the root is `filepath.Join(rootDir, name)`, an absolute
path, for which `filepath.Abs` cannot fail. -/
def findFilesLoop (entries : List (GoString × Node)) (dir : GoString) (fn : GoString → Bool)
    (files : List GoString) : List GoString × Option Nat :=
  match entries with
  | [] => (files, none)
  | (name, .file) :: rest =>
    if fn (entryPath dir name) then findFilesLoop rest dir fn (files ++ [entryPath dir name])
    else findFilesLoop rest dir fn files
  | (name, entry) :: rest =>
    if name = str "node_modules" then findFilesLoop rest dir fn files
    else
      match findFiles none entry (entryPath dir name) fn with
      | (_, some e) => ([], some e)
      | (subFiles, none) => findFilesLoop rest dir fn (mergeSubFiles files subFiles)
end

mutual
/-- The root-relative paths of the entries that are not directories and lie outside
every directory named `node_modules`, in directory-read order: what the scan is
specified to enumerate.  `d` is the path of the node itself. -/
def filePaths (root : Node) (d : GoString) : List GoString :=
  match root with
  | .file => []
  | .unreadable _ => []
  | .dir entries => filePathsList entries d
/-- The same for a list of entries of the directory with path `d`. -/
def filePathsList (entries : List (GoString × Node)) (d : GoString) : List GoString :=
  match entries with
  | [] => []
  | (name, .file) :: rest => entryPath d name :: filePathsList rest d
  | (name, entry) :: rest =>
    if name = str "node_modules" then filePathsList rest d
    else filePaths entry (entryPath d name) ++ filePathsList rest d
end

mutual
/-- The root is a directory, and it and every directory that the scan reaches (every
directory outside the directories named `node_modules`) can be read. -/
def readable (root : Node) : Bool :=
  match root with
  | .file => false
  | .unreadable _ => false
  | .dir entries => readableList entries
/-- The same for a list of entries. -/
def readableList (entries : List (GoString × Node)) : Bool :=
  match entries with
  | [] => true
  | (_, .file) :: rest => readableList rest
  | (name, entry) :: rest =>
    if name = str "node_modules" then readableList rest
    else readable entry && readableList rest
end

mutual
/-- No entry name of the tree contains the separator `/`. -/
def namesOk (root : Node) : Bool :=
  match root with
  | .file => true
  | .unreadable _ => true
  | .dir entries => namesOkList entries
/-- The same for a list of entries. -/
def namesOkList (entries : List (GoString × Node)) : Bool :=
  match entries with
  | [] => true
  | (name, entry) :: rest => !name.contains 47 && namesOk entry && namesOkList rest
end

mutual
/-- The names of the entries of one directory are pairwise distinct, in every
directory of the tree. -/
def distinctNames (root : Node) : Bool :=
  match root with
  | .file => true
  | .unreadable _ => true
  | .dir entries => decide (entries.map Prod.fst).Nodup && distinctNamesList entries
/-- The same inside every entry of a list. -/
def distinctNamesList (entries : List (GoString × Node)) : Bool :=
  match entries with
  | [] => true
  | (_, entry) :: rest => distinctNames entry && distinctNamesList rest
end

/-- The `/`-separated components of a path. -/
def splitPath : GoString → List GoString
  | [] => [[]]
  | c :: rest =>
    if c = 47 then [] :: splitPath rest
    else
      match splitPath rest with
      | [] => [[c]]
      | comp :: comps => (c :: comp) :: comps

/-- The directory components of a path: all components but the last. -/
def dirComponents (p : GoString) : List GoString := (splitPath p).dropLast

/-- The path has no directory component named `node_modules`. -/
def NoNodeModules (p : GoString) : Prop := str "node_modules" ∉ dirComponents p

/-- The path of a directory of the scan: empty (the root) or without a component
named `node_modules`. -/
def DirOk (d : GoString) : Prop := d = [] ∨ str "node_modules" ∉ splitPath d

/-- A second tree: the file `a.ts` and the directory `lib` holding `b.ts`. -/
def smallTree : Node :=
  .dir [(str "a.ts", .file), (str "lib", .dir [(str "b.ts", .file)])]

/-- The tree of the scan example: `src/a.ts`, `node_modules/dep/index.js` and
`src/nested/b.ts`, every directory listed in the order of `os.ReadDir` (sorted by
file name). -/
def exampleTree : Node :=
  .dir [(str "node_modules", .dir [(str "dep", .dir [(str "index.js", .file)])]),
        (str "src", .dir [(str "a.ts", .file), (str "nested", .dir [(str "b.ts", .file)])])]

/-- The predicate "ends with .ts". -/
def endsWithTs (p : GoString) : Bool := hasSuffix p (str ".ts")

/-! ## Regular expressions

The patterns of the source use character classes of ASCII characters, greedy
repetition, alternation, capturing groups and the end-of-text assertion.  Go matches
them with leftmost-first (backtracking-order) semantics; the model is a backtracking
matcher that returns the list of all ways to match, in the order of preference.  The
patterns are matched byte by byte: every class of the patterns holds ASCII characters
only, and no byte of a multi-byte UTF-8 sequence is an ASCII character. -/

/-- The syntax of the regular expressions of the source. -/
inductive Regex where
  /-- A character class: a list of inclusive ranges. -/
  | cls : List (Nat × Nat) → Regex
  /-- The empty expression. -/
  | eps : Regex
  /-- Beginning of text. -/
  | bot : Regex
  /-- End of text. -/
  | eot : Regex
  /-- Concatenation. -/
  | cat : Regex → Regex → Regex
  /-- Alternation, the left side preferred. -/
  | alt : Regex → Regex → Regex
  /-- Greedy repetition, zero or more times. -/
  | star : Regex → Regex
  /-- Capturing group with its number. -/
  | group : Nat → Regex → Regex
  deriving Repr

/-- A state of the matcher: the position in the text, the unread text and the
positions of the capturing groups. -/
structure MState where
  pos : Nat
  rest : GoString
  caps : List (Option (Nat × Nat))
  deriving DecidableEq, Repr

/-- Membership of a byte in a character class. -/
def inClass (ranges : List (Nat × Nat)) (c : Nat) : Bool :=
  ranges.any (fun r => decide (r.1 ≤ c) && decide (c ≤ r.2))

/-- Greedy repetition of the matcher `f`: one more round (which must read something)
is preferred to stopping.  `fuel` bounds the number of rounds; the length of the
unread text is enough. -/
def starRun (f : MState → List MState) : Nat → MState → List MState
  | 0, s => [s]
  | fuel + 1, s =>
    (((f s).filter (fun t => decide (t.rest.length < s.rest.length))).flatMap
      (starRun f fuel)) ++ [s]

/-- All ways in which the expression matches at the state, the preferred one first. -/
def Regex.run : Regex → MState → List MState
  | .cls ranges, s =>
    match s.rest with
    | [] => []
    | c :: rest => if inClass ranges c then [⟨s.pos + 1, rest, s.caps⟩] else []
  | .eps, s => [s]
  | .bot, s => if s.pos = 0 then [s] else []
  | .eot, s => if s.rest = [] then [s] else []
  | .cat r q, s => (Regex.run r s).flatMap (Regex.run q)
  | .alt r q, s => Regex.run r s ++ Regex.run q s
  | .star r, s => starRun (Regex.run r) s.rest.length s
  | .group i r, s =>
    (Regex.run r s).map (fun t => { t with caps := t.caps.set i (some (s.pos, t.pos)) })

/-- The expression `x+`. -/
def Regex.plus (r : Regex) : Regex := .cat r (.star r)

/-- The expression `x?`. -/
def Regex.opt (r : Regex) : Regex := .alt r .eps

/-- The expression `x{n}`. -/
def Regex.rep (r : Regex) : Nat → Regex
  | 0 => .eps
  | n + 1 => .cat r (Regex.rep r n)

/-- A single character. -/
def Regex.chr (c : Char) : Regex := .cls [(c.toNat, c.toNat)]

/-- The first match that starts at one of the positions `pos`, `pos + 1`, ... of the
text, the leftmost start preferred: the position where it starts and the final state.
`groups` is the number of capturing groups, group 0 (the whole match) included. -/
def Regex.findFrom (r : Regex) (groups : Nat) : Nat → GoString → Option (Nat × MState)
  | pos, [] =>
    match Regex.run r ⟨pos, [], List.replicate groups none⟩ with
    | [] => none
    | t :: _ => some (pos, t)
  | pos, c :: rest =>
    match Regex.run r ⟨pos, c :: rest, List.replicate groups none⟩ with
    | [] => Regex.findFrom r groups (pos + 1) rest
    | t :: _ => some (pos, t)

/-- Go `(*Regexp).MatchString`: the expression matches somewhere in the text. -/
def Regex.matchString (r : Regex) (s : GoString) : Bool :=
  (Regex.findFrom r 1 0 s).isSome

/-- The text between two positions. -/
def slice (s : GoString) (b e : Nat) : GoString := (s.take e).drop b

/-- Go `(*Regexp).FindStringSubmatch` for an expression with `groups - 1` capturing
groups: the text of the leftmost match and of its groups (the empty string for a group
that did not take part), or none when there is no match. -/
def Regex.findStringSubmatch (r : Regex) (groups : Nat) (s : GoString) :
    Option (List GoString) :=
  match Regex.findFrom r groups 0 s with
  | none => none
  | some (start, t) =>
    some (slice s start t.pos ::
      (t.caps.drop 1).map (fun c =>
        match c with
        | none => []
        | some (b, e) => slice s b e))

/-- The class `\d`. -/
def clsDigit : List (Nat × Nat) := [(48, 57)]

/-- The class `\w`: `[0-9A-Za-z_]`. -/
def clsWord : List (Nat × Nat) := [(48, 57), (65, 90), (95, 95), (97, 122)]

/-- The class `[\w\.\+\-]`. -/
def clsVersionTail : List (Nat × Nat) := clsWord ++ [(46, 46), (43, 43), (45, 45)]

/-- The class `[\*\~\^\w\.\+\-]`. -/
def clsRange : List (Nat × Nat) :=
  [(42, 42), (126, 126), (94, 94)] ++ clsWord ++ [(46, 46), (43, 43), (45, 45)]

/-- The class `[0-9a-f]`. -/
def clsHex : List (Nat × Nat) := [(48, 57), (97, 102)]

/-- The expression `\d+\.\d+\.\d+[\w\.\+\-]*`, shared by the version patterns. -/
def reVersionCore : Regex :=
  .cat (Regex.plus (.cls clsDigit)) (.cat (Regex.chr '.') (.cat (Regex.plus (.cls clsDigit))
    (.cat (Regex.chr '.') (.cat (Regex.plus (.cls clsDigit)) (.star (.cls clsVersionTail))))))

/-- Source `regexpFullVersion`: `^\d+\.\d+\.\d+[\w\.\+\-]*$`. -/
def regexpFullVersion : Regex := .cat .bot (.cat reVersionCore .eot)

/-- Source `regexpFullVersionPath`:
`(\w)@(v?\d+\.\d+\.\d+[\w\.\+\-]*|[0-9a-f]{10})(/|$)`. -/
def regexpFullVersionPath : Regex :=
  .cat (.group 1 (.cls clsWord)) (.cat (Regex.chr '@')
    (.cat (.group 2 (.alt (.cat (Regex.opt (Regex.chr 'v')) reVersionCore)
        (Regex.rep (.cls clsHex) 10)))
      (.group 3 (.alt (Regex.chr '/') .eot))))

/-- Source `regexpPathWithVersion`: `\w@[\*\~\^\w\.\+\-]+(/|$|&)`. -/
def regexpPathWithVersion : Regex :=
  .cat (.cls clsWord) (.cat (Regex.chr '@')
    (.cat (Regex.plus (.cls clsRange))
      (.group 1 (.alt (Regex.chr '/') (.alt .eot (Regex.chr '&'))))))

mutual
/-- The error of the first directory read that fails when the tree is scanned in
directory-read order, the directories named `node_modules` being left out; none when
every read succeeds.  Reading a root that is not a directory fails with `ENOTDIR`. -/
def firstReadError (root : Node) : Option Nat :=
  match root with
  | .file => some ENOTDIR
  | .unreadable e => some e
  | .dir entries => firstReadErrorList entries
/-- The same for the sub-directories among a list of entries. -/
def firstReadErrorList (entries : List (GoString × Node)) : Option Nat :=
  match entries with
  | [] => none
  | (_, .file) :: rest => firstReadErrorList rest
  | (name, entry) :: rest =>
    if name = str "node_modules" then firstReadErrorList rest
    else
      match firstReadError entry with
      | some e => some e
      | none => firstReadErrorList rest
end

/-- A tree with an unreadable directory: the file `a.ts`, then the directory `lib`
whose read fails with error 13, then the file `z.ts`. -/
def brokenTree : Node :=
  .dir [(str "a.ts", .file), (str "lib", .unreadable 13), (str "z.ts", .file)]

/-- A directory that holds only files and directories named `node_modules`. -/
def flatTree : Node :=
  .dir [(str "a.ts", .file), (str "node_modules", .unreadable 13), (str "b.js", .file),
        (str "c.ts", .file)]

/-- The entries are files or directories named `node_modules`. -/
def flatEntries (entries : List (GoString × Node)) : Prop :=
  ∀ e ∈ entries, e.2 = Node.file ∨ (e.2.isDir = true ∧ e.1 = str "node_modules")

/-- The names of the entries that are not directories, in directory-read order. -/
def fileNames (entries : List (GoString × Node)) : List GoString :=
  (entries.filter (fun e => !e.2.isDir)).map Prod.fst

/-- The memory on which `filter` works: the slice `a` of the caller, the new slice `b`
and the index `i`. -/
structure FilterMem where
  a : List GoString
  b : List GoString
  i : Nat
  deriving DecidableEq, Repr

/-- One round of the loop of `filter`, for the element of `a` at index `k`:
`if fn(v) { b[i] = v; i++ }`. -/
def filterStep (fn : GoString → Bool) (m : FilterMem) (k : Nat) : FilterMem :=
  if fn (m.a.getD k []) then { m with b := m.b.set m.i (m.a.getD k []), i := m.i + 1 } else m

/-- The memory after the loop of `filter` over the `l = len(a)` elements of `a`, started
with `b := make([]string, l)` and `i := 0`. -/
def filterMem (a : List GoString) (fn : GoString → Bool) : FilterMem :=
  (List.range a.length).foldl (filterStep fn) ⟨a, List.replicate a.length [], 0⟩

/-- Source `filter`: nil when `a` is empty, else `b[:i]` after the loop. -/
def filter (a : List GoString) (fn : GoString → Bool) : List GoString :=
  if a.length = 0 then [] else (filterMem a fn).b.take (filterMem a fn).i

/-- The string that `atobUrl` hands to the decoder: `s` followed by `4 - len(s) % 4`
padding characters when `len(s) % 4 != 0`. -/
def repad (s : GoString) : GoString :=
  if s.length % 4 > 0 then s ++ strRepeat padChar (4 - s.length % 4) else s

/-- Every character class of the expression holds only bytes that satisfy `K`. -/
def Regex.within (K : Nat → Prop) : Regex → Prop
  | .cls ranges => ∀ c, inClass ranges c = true → K c
  | .eps => True
  | .bot => True
  | .eot => True
  | .cat r q => Regex.within K r ∧ Regex.within K q
  | .alt r q => Regex.within K r ∧ Regex.within K q
  | .star r => Regex.within K r
  | .group _ r => Regex.within K r

/-- The expression has a match in the text `s` that starts at the position `i`. -/
def Regex.matchesAt (r : Regex) (s : GoString) (i : Nat) : Bool :=
  decide (i ≤ s.length) && !(Regex.run r ⟨i, s.drop i, List.replicate 1 none⟩).isEmpty

/-! ## Semantic versions

`semverLessThan` calls `MustParse` and `LessThan` of the package
`github.com/Masterminds/semver/v3`.  The model follows the package (version 3.2):
`MustParse` is `NewVersion`, the lenient parser, with a panic in place of the error;
`NewVersion` matches the text against `versionRegex` and reads the three numbers with
`strconv.ParseUint(_, 10, 64)`.  The checks of the pre-release and metadata parts and the
precedence between two pre-releases are parameters of the model. -/

/-- The parts of the package that deal with pre-release and build metadata:
`validatePrerelease`, `validateMetadata` (true when the part is accepted) and
`comparePrerelease`. -/
structure PreRules where
  validatePrerelease : GoString → Bool
  validateMetadata : GoString → Bool
  comparePrerelease : GoString → GoString → Int

/-- The class `[0-9A-Za-z\-]`. -/
def clsIdent : List (Nat × Nat) := [(48, 57), (65, 90), (97, 122), (45, 45)]

/-- The expression `[0-9A-Za-z\-]+(\.[0-9A-Za-z\-]+)*`, the inner group having the
number `g`. -/
def reDotted (g : Nat) : Regex :=
  .cat (Regex.plus (.cls clsIdent))
    (.star (.group g (.cat (Regex.chr '.') (Regex.plus (.cls clsIdent)))))

/-- The expression `versionRegex` of the package, `^` + `semVerRegex` + `$`, where
`semVerRegex` is `v?([0-9]+)(\.[0-9]+)?(\.[0-9]+)?` followed by
`(-([0-9A-Za-z\-]+(\.[0-9A-Za-z\-]+)*))?` and `(\+([0-9A-Za-z\-]+(\.[0-9A-Za-z\-]+)*))?`. -/
def versionRegex : Regex :=
  .cat .bot (.cat (Regex.opt (Regex.chr 'v'))
    (.cat (.group 1 (Regex.plus (.cls clsDigit)))
      (.cat (Regex.opt (.group 2 (.cat (Regex.chr '.') (Regex.plus (.cls clsDigit)))))
        (.cat (Regex.opt (.group 3 (.cat (Regex.chr '.') (Regex.plus (.cls clsDigit)))))
          (.cat (Regex.opt (.group 4 (.cat (Regex.chr '-') (.group 5 (reDotted 6)))))
            (.cat (Regex.opt (.group 7 (.cat (Regex.chr '+') (.group 8 (reDotted 9)))))
              .eot))))))

/-- The value of a string of decimal digits. -/
def decVal (s : GoString) : Nat := s.foldl (fun n c => n * 10 + (c - 48)) 0

/-- Go `strconv.ParseUint(s, 10, 64)`: the value of a non-empty string of decimal digits,
an error when the string is empty, holds another byte or the value exceeds `2^64 - 1`. -/
def parseUint (s : GoString) : Option Nat :=
  if s = [] then none
  else if s.all (inClass clsDigit) then
    (if decVal s < 2 ^ 64 then some (decVal s) else none)
  else none

/-- Go `strings.TrimPrefix`. -/
def trimPrefix (s pre : GoString) : GoString :=
  if hasPrefix s pre then s.drop pre.length else s

/-- The type `Version` of the package (without the field `original`). -/
structure Version where
  major : Nat
  minor : Nat
  patch : Nat
  pre : GoString
  metadata : GoString
  deriving DecidableEq, Repr

/-- The function `NewVersion` of the package; none stands for an error. -/
def newVersion (L : PreRules) (v : GoString) : Option Version :=
  match versionRegex.findStringSubmatch 10 v with
  | none => none
  | some m =>
    match parseUint (m.getD 1 []) with
    | none => none
    | some major =>
      match (if m.getD 2 [] ≠ [] then parseUint (trimPrefix (m.getD 2 []) (str ".")) else some 0)
      with
      | none => none
      | some minor =>
        match (if m.getD 3 [] ≠ [] then parseUint (trimPrefix (m.getD 3 []) (str "."))
          else some 0) with
        | none => none
        | some patch =>
          if m.getD 5 [] ≠ [] ∧ L.validatePrerelease (m.getD 5 []) = false then none
          else if m.getD 8 [] ≠ [] ∧ L.validateMetadata (m.getD 8 []) = false then none
          else some ⟨major, minor, patch, m.getD 5 [], m.getD 8 []⟩

/-- The function `compareSegment` of the package. -/
def compareSegment (v o : Nat) : Int :=
  if v < o then -1 else if v > o then 1 else 0

/-- The method `Compare` of the package. -/
def Version.compare (L : PreRules) (v o : Version) : Int :=
  if compareSegment v.major o.major ≠ 0 then compareSegment v.major o.major
  else if compareSegment v.minor o.minor ≠ 0 then compareSegment v.minor o.minor
  else if compareSegment v.patch o.patch ≠ 0 then compareSegment v.patch o.patch
  else if v.pre = [] ∧ o.pre = [] then 0
  else if v.pre = [] then 1
  else if o.pre = [] then -1
  else L.comparePrerelease v.pre o.pre

/-- The method `LessThan` of the package: `v.Compare(o) < 0`. -/
def Version.lessThan (L : PreRules) (v o : Version) : Bool :=
  decide (Version.compare L v o < 0)

/-- Source `semverLessThan`: `semver.MustParse(a).LessThan(semver.MustParse(b))`; none
stands for the panic of `MustParse`. -/
def semverLessThan (L : PreRules) (a b : GoString) : Option Bool :=
  match newVersion L a with
  | none => none
  | some va =>
    match newVersion L b with
    | none => none
    | some vb => some (Version.lessThan L va vb)

/-- The text of the version with the three numbers written as the digit strings `d1`,
`d2` and `d3`. -/
def versionText (d1 d2 d3 : GoString) : GoString := d1 ++ str "." ++ d2 ++ str "." ++ d3

/-- The string is a decimal number: a non-empty string of decimal digits. -/
def IsDecimal (d : GoString) : Prop := d ≠ [] ∧ ∀ c ∈ d, inClass clsDigit c = true

/-- A choice of the parameters for statements about concrete inputs: every pre-release
and metadata part is accepted and all pre-releases have the same precedence. -/
def sampleRules : PreRules := ⟨fun _ => true, fun _ => true, fun _ _ => 0⟩

/-! ## The versions that the lenient parser accepts

The form of the accepted versions in words, without the regular expression: an optional
`v`, one to three decimal numbers separated by dots, an optional pre-release part after a
`-` and an optional metadata part after a `+`. -/

/-- A byte of an identifier of a pre-release or metadata part: a digit, an ASCII letter
or `-`. -/
def isIdentByte (c : Nat) : Bool :=
  (decide (48 ≤ c) && decide (c ≤ 57)) || (decide (65 ≤ c) && decide (c ≤ 90))
    || (decide (97 ≤ c) && decide (c ≤ 122)) || decide (c = 45)

/-- The string is an identifier: a non-empty string of identifier bytes. -/
def IsIdent (x : GoString) : Prop := x ≠ [] ∧ ∀ c ∈ x, isIdentByte c = true

/-- The string is a list of one or more identifiers separated by dots: an identifier
followed by any number of identifiers with a dot in front of each. -/
def IsDotted (x : GoString) : Prop :=
  ∃ (p : GoString) (ps : List GoString), IsIdent p ∧ (∀ q ∈ ps, IsIdent q)
    ∧ x = p ++ (ps.map (fun q => 46 :: q)).flatten

/-- The parts of the text of a version: whether it begins with `v`, the major number,
and the minor number, the patch number, the pre-release part and the metadata part where
they are present. -/
structure VersionParts where
  v : Bool
  major : GoString
  minor : Option GoString
  patch : Option GoString
  pre : Option GoString
  metadata : Option GoString

/-- The text of an optional part: empty when the part is absent, the part after its
separator otherwise. -/
def optPart (sep : Nat) : Option GoString → GoString
  | none => []
  | some x => sep :: x

/-- The text of the version with the given parts: `[v]MAJOR[.MINOR][.PATCH][-PRE][+META]`. -/
def VersionParts.text (p : VersionParts) : GoString :=
  (if p.v then [118] else []) ++ (p.major ++ (optPart 46 p.minor ++ (optPart 46 p.patch
    ++ (optPart 45 p.pre ++ optPart 43 p.metadata))))

/-- The parts are well formed: the numbers are decimal numbers, a patch number comes only
after a minor number, and the pre-release and metadata parts are identifiers separated
by dots. -/
def VersionParts.WellFormed (p : VersionParts) : Prop :=
  IsDecimal p.major ∧ (∀ x ∈ p.minor, IsDecimal x) ∧ (∀ x ∈ p.patch, IsDecimal x)
    ∧ (p.minor = none → p.patch = none)
    ∧ (∀ x ∈ p.pre, IsDotted x) ∧ (∀ x ∈ p.metadata, IsDotted x)

/-- The numbers of the parts fit in 64 bits. -/
def VersionParts.InRange (p : VersionParts) : Prop :=
  decVal p.major < 2 ^ 64 ∧ (∀ x ∈ p.minor, decVal x < 2 ^ 64)
    ∧ (∀ x ∈ p.patch, decVal x < 2 ^ 64)

/-- The pre-release and metadata parts pass the checks of the package. -/
def VersionParts.Valid (L : PreRules) (p : VersionParts) : Prop :=
  (∀ x ∈ p.pre, L.validatePrerelease x = true)
    ∧ (∀ x ∈ p.metadata, L.validateMetadata x = true)

/-- The string has the lenient form of a version:
`[v]MAJOR[.MINOR[.PATCH]][-PRE][+META]`. -/
def IsLenientVersion (a : GoString) : Prop :=
  ∃ p : VersionParts, p.text = a ∧ p.WellFormed

/-- The string is a version that the lenient parser accepts: it has the lenient form,
its numbers fit in 64 bits and its pre-release and metadata parts pass the checks. -/
def Accepted (L : PreRules) (a : GoString) : Prop :=
  ∃ p : VersionParts, p.text = a ∧ p.WellFormed ∧ p.InRange ∧ p.Valid L

/-- All capturing groups of the expression have a number in `G`. -/
def Regex.groupsIn (G : Nat → Prop) : Regex → Prop
  | .cls _ => True
  | .eps => True
  | .bot => True
  | .eot => True
  | .cat r q => Regex.groupsIn G r ∧ Regex.groupsIn G q
  | .alt r q => Regex.groupsIn G r ∧ Regex.groupsIn G q
  | .star r => Regex.groupsIn G r
  | .group i r => G i ∧ Regex.groupsIn G r

/-- The text of the capturing group `i` in the text `a`: empty when the group did not
take part in the match. -/
def capText (a : GoString) (caps : List (Option (Nat × Nat))) (i : Nat) : GoString :=
  match caps.getD i none with
  | none => []
  | some (b, e) => slice a b e

/-- The expression can read the text `X`: at every state whose unread text begins with
`X` it has a match that reads exactly `X`. -/
def Regex.Consumes (r : Regex) (X : GoString) : Prop :=
  ∀ (s : MState) (Y : GoString), s.rest = X ++ Y → ∃ t, t ∈ r.run s ∧ t.rest = Y

/-- The expression can read the text `X` up to the end of the text. -/
def Regex.Ends (r : Regex) (X : GoString) : Prop :=
  ∀ s : MState, s.rest = X → ∃ t, t ∈ r.run s

/-! ## Lemmas on strings -/

theorem hasPrefix_iff_pre (s pre : GoString) : hasPrefix s pre = true ↔ pre <+: s := by
  unfold hasPrefix
  rw [Bool.and_eq_true, decide_eq_true_eq, beq_iff_eq]
  constructor
  · rintro ⟨-, h⟩
    exact h ▸ List.take_prefix _ _
  · rintro ⟨t, rfl⟩
    simp

theorem hasPrefix_iff (s pre : GoString) : hasPrefix s pre = true ↔ ∃ t, s = pre ++ t := by
  rw [hasPrefix_iff_pre]
  constructor
  · rintro ⟨t, rfl⟩
    exact ⟨t, rfl⟩
  · rintro ⟨t, rfl⟩
    exact ⟨t, rfl⟩

theorem hasPrefix_append (pre t : GoString) : hasPrefix (pre ++ t) pre = true :=
  (hasPrefix_iff _ _).2 ⟨t, rfl⟩

theorem hasSuffix_iff_suf (s suf : GoString) : hasSuffix s suf = true ↔ suf <:+ s := by
  unfold hasSuffix
  rw [Bool.and_eq_true, decide_eq_true_eq, beq_iff_eq]
  constructor
  · rintro ⟨-, h⟩
    exact h ▸ List.drop_suffix _ _
  · rintro ⟨t, rfl⟩
    simp

theorem hasSuffix_iff (s suf : GoString) : hasSuffix s suf = true ↔ ∃ t, s = t ++ suf := by
  rw [hasSuffix_iff_suf]
  constructor
  · rintro ⟨t, rfl⟩
    exact ⟨t, rfl⟩
  · rintro ⟨t, rfl⟩
    exact ⟨t, rfl⟩

theorem hasSuffix_append (t suf : GoString) : hasSuffix (t ++ suf) suf = true :=
  (hasSuffix_iff _ _).2 ⟨t, rfl⟩

theorem hasPrefix_cons_ne (a b : Nat) (s pre : GoString) (h : a ≠ b) :
    hasPrefix (a :: s) (b :: pre) = false := by
  rw [Bool.eq_false_iff, Ne, hasPrefix_iff_pre]
  rintro ⟨t, ht⟩
  exact h (List.cons.inj ht).1.symm

theorem hasPrefix_append_left (a t pre : GoString) (h : pre.length ≤ a.length) :
    hasPrefix (a ++ t) pre = hasPrefix a pre := by
  unfold hasPrefix
  rw [List.take_append_of_le_length h, List.length_append]
  have h1 : decide (pre.length ≤ a.length + t.length) = true := decide_eq_true (by omega)
  have h2 : decide (pre.length ≤ a.length) = true := decide_eq_true h
  rw [h1, h2]

/-! ## Specifier classification: theorems -/

theorem isHttpSepcifier_iff (s : GoString) :
    isHttpSepcifier s = true ↔
      (∃ t, s = str "http://" ++ t) ∨ (∃ t, s = str "https://" ++ t) := by
  unfold isHttpSepcifier
  rw [Bool.or_eq_true, hasPrefix_iff, hasPrefix_iff, or_comm]

theorem isLocalSpecifier_iff (s : GoString) :
    isLocalSpecifier s = true ↔
      (∃ t, s = str "file://" ++ t) ∨ (∃ t, s = str "/" ++ t) ∨ (∃ t, s = str "./" ++ t)
        ∨ (∃ t, s = str "../" ++ t) ∨ s = str "." ∨ s = str ".." := by
  unfold isLocalSpecifier
  simp only [Bool.or_eq_true, hasPrefix_iff, beq_iff_eq, or_assoc]

theorem isLocalSpecifier_of_h (t : GoString) : isLocalSpecifier (104 :: t) = false := by
  unfold isLocalSpecifier
  have h1 : hasPrefix (104 :: t) (str "file://") = false := hasPrefix_cons_ne _ _ _ _ (by decide)
  have h2 : hasPrefix (104 :: t) (str "/") = false := hasPrefix_cons_ne _ _ _ _ (by decide)
  have h3 : hasPrefix (104 :: t) (str "./") = false := hasPrefix_cons_ne _ _ _ _ (by decide)
  have h4 : hasPrefix (104 :: t) (str "../") = false := hasPrefix_cons_ne _ _ _ _ (by decide)
  have h5 : ((104 :: t) == str ".") = false := by
    rw [beq_eq_false_iff_ne]
    intro h
    exact absurd (List.cons.inj h).1 (by decide)
  have h6 : ((104 :: t) == str "..") = false := by
    rw [beq_eq_false_iff_ne]
    intro h
    exact absurd (List.cons.inj h).1 (by decide)
  rw [h1, h2, h3, h4, h5, h6]
  rfl

/-- C7: `isHttpSepcifier s` holds exactly when `s` starts with the bytes `http://` or
`https://` (so an upper-case scheme is not accepted), and then `isLocalSpecifier s`
is false: no string is classified both remote and local. -/
theorem isHttpSepcifier_spec (s : GoString) :
    (isHttpSepcifier s = true ↔
      (∃ t, s = str "http://" ++ t) ∨ (∃ t, s = str "https://" ++ t))
    ∧ (isHttpSepcifier s = true → isLocalSpecifier s = false)
    ∧ (isHttpSepcifier s && isLocalSpecifier s) = false
    ∧ isHttpSepcifier (str "HTTP://x") = false := by
  have key : isHttpSepcifier s = true → isLocalSpecifier s = false := by
    intro h
    rcases (isHttpSepcifier_iff s).1 h with ⟨t, rfl⟩ | ⟨t, rfl⟩
    · exact isLocalSpecifier_of_h _
    · exact isLocalSpecifier_of_h _
  refine ⟨isHttpSepcifier_iff s, key, ?_, by decide⟩
  cases h : isHttpSepcifier s
  · rfl
  · rw [key h]
    rfl

/-- C7 at the input `https://example.com/x`: remote and not local. -/
theorem isHttpSepcifier_spec_witness :
    isHttpSepcifier (str "https://example.com/x") = true
    ∧ isLocalSpecifier (str "https://example.com/x") = false :=
  ⟨by decide, (isHttpSepcifier_spec (str "https://example.com/x")).2.1 (by decide)⟩

/-- C8: `isLocalSpecifier s` holds exactly when `s` starts with `file://`, `/`, `./` or
`../`, or is `.` or `..`; it holds for `.`, `..`, `/x`, `./x`, `../x` and `file://x`,
and both classifiers are false on the empty string. -/
theorem isLocalSpecifier_spec (s : GoString) :
    (isLocalSpecifier s = true ↔
      (∃ t, s = str "file://" ++ t) ∨ (∃ t, s = str "/" ++ t) ∨ (∃ t, s = str "./" ++ t)
        ∨ (∃ t, s = str "../" ++ t) ∨ s = str "." ∨ s = str "..")
    ∧ isLocalSpecifier (str ".") = true ∧ isLocalSpecifier (str "..") = true
    ∧ isLocalSpecifier (str "/x") = true ∧ isLocalSpecifier (str "./x") = true
    ∧ isLocalSpecifier (str "../x") = true ∧ isLocalSpecifier (str "file://x") = true
    ∧ isLocalSpecifier [] = false ∧ isHttpSepcifier [] = false :=
  ⟨isLocalSpecifier_iff s, by decide, by decide, by decide, by decide, by decide, by decide,
    by decide, by decide⟩

/-! ## `removeHttpPrefix` and `stripModuleExt`: theorems -/

theorem removeHttpPrefix_http (t : GoString) :
    removeHttpPrefix (str "http://" ++ t) = (t, none) := by
  unfold removeHttpPrefix
  rw [if_pos (hasPrefix_append _ _)]
  rfl

theorem removeHttpPrefix_https (t : GoString) :
    removeHttpPrefix (str "https://" ++ t) = (t, none) := by
  unfold removeHttpPrefix
  have h : hasPrefix (str "https://" ++ t) (str "http://") = false := by
    rw [hasPrefix_append_left _ _ _ (by decide)]
    decide
  rw [h, if_pos (hasPrefix_append _ _)]
  rfl

theorem removeHttpPrefix_other (s : GoString) (h : isHttpSepcifier s = false) :
    removeHttpPrefix s = ([], some (str "not a http/https url: " ++ s)) := by
  unfold isHttpSepcifier at h
  rw [Bool.or_eq_false_iff] at h
  unfold removeHttpPrefix
  rw [h.1, h.2]
  rfl

/-- C6: `removeHttpPrefix s` succeeds exactly when `s` starts with `http://` or
`https://`, that is when `isHttpSepcifier s`; on success `s` is the scheme prefix
followed by the result; for every other `s` the result is the empty string together
with an error; in no case is it `s` without an error, and the returned string differs
from every non-empty `s`. -/
theorem removeHttpPrefix_spec (s : GoString) :
    ((removeHttpPrefix s).2 = none ↔
      (∃ t, s = str "http://" ++ t) ∨ (∃ t, s = str "https://" ++ t))
    ∧ ((removeHttpPrefix s).2 = none ↔ isHttpSepcifier s = true)
    ∧ ((removeHttpPrefix s).2 = none →
        s = str "http://" ++ (removeHttpPrefix s).1 ∨ s = str "https://" ++ (removeHttpPrefix s).1)
    ∧ (∀ t, removeHttpPrefix (str "http://" ++ t) = (t, none))
    ∧ (∀ t, removeHttpPrefix (str "https://" ++ t) = (t, none))
    ∧ (isHttpSepcifier s = false →
        removeHttpPrefix s = ([], some (str "not a http/https url: " ++ s)))
    ∧ removeHttpPrefix s ≠ (s, none)
    ∧ (s ≠ [] → (removeHttpPrefix s).1 ≠ s)
    ∧ removeHttpPrefix (str "ftp://x") = ([], some (str "not a http/https url: ftp://x")) := by
  have hiff : (removeHttpPrefix s).2 = none ↔ isHttpSepcifier s = true := by
    constructor
    · intro h
      by_contra hc
      rw [Bool.not_eq_true] at hc
      rw [removeHttpPrefix_other s hc] at h
      exact Option.noConfusion h
    · intro h
      rcases (isHttpSepcifier_iff s).1 h with ⟨t, rfl⟩ | ⟨t, rfl⟩
      · rw [removeHttpPrefix_http]
      · rw [removeHttpPrefix_https]
  have hlen : ∀ (pre t : GoString), 0 < pre.length → t ≠ pre ++ t := by
    intro pre t hp h
    have hl := congrArg List.length h
    rw [List.length_append] at hl
    omega
  refine ⟨hiff.trans (isHttpSepcifier_iff s), hiff, ?_, removeHttpPrefix_http,
    removeHttpPrefix_https, removeHttpPrefix_other s, ?_, ?_, by decide⟩
  · intro h
    rcases (isHttpSepcifier_iff s).1 (hiff.1 h) with ⟨t, rfl⟩ | ⟨t, rfl⟩
    · rw [removeHttpPrefix_http]
      exact Or.inl rfl
    · rw [removeHttpPrefix_https]
      exact Or.inr rfl
  · intro h
    have h2 : (removeHttpPrefix s).2 = none := by rw [h]
    rcases (isHttpSepcifier_iff s).1 (hiff.1 h2) with ⟨t, rfl⟩ | ⟨t, rfl⟩
    · rw [removeHttpPrefix_http] at h
      exact hlen _ t (by decide) (Prod.mk.inj h).1
    · rw [removeHttpPrefix_https] at h
      exact hlen _ t (by decide) (Prod.mk.inj h).1
  · intro hne h
    cases hs : isHttpSepcifier s
    · rw [removeHttpPrefix_other s hs] at h
      exact hne h.symm
    · rcases (isHttpSepcifier_iff s).1 hs with ⟨t, rfl⟩ | ⟨t, rfl⟩
      · rw [removeHttpPrefix_http] at h
        exact hlen _ t (by decide) h
      · rw [removeHttpPrefix_https] at h
        exact hlen _ t (by decide) h

/-- C6 at the inputs `https://example.com/x` (success) and `ftp://x` (error with the
empty string). -/
theorem removeHttpPrefix_spec_witness :
    removeHttpPrefix (str "https://example.com/x") = (str "example.com/x", none)
    ∧ isHttpSepcifier (str "ftp://x") = false
    ∧ removeHttpPrefix (str "ftp://x") = ([], some (str "not a http/https url: ftp://x")) :=
  ⟨(removeHttpPrefix_spec []).2.2.2.2.1 (str "example.com/x"), by decide,
    (removeHttpPrefix_spec (str "ftp://x")).2.2.2.2.2.1 (by decide)⟩

theorem stripModuleExtLoop_append (t e : GoString) (l1 l2 : List GoString)
    (h : ∀ x ∈ l1, ¬ x <:+ e ∧ ¬ e <:+ x) :
    stripModuleExtLoop (t ++ e) (l1 ++ e :: l2) = t := by
  induction l1 with
  | nil =>
    rw [List.nil_append, stripModuleExtLoop, if_pos (hasSuffix_append t e), List.length_append,
      Nat.add_sub_cancel, List.take_left]
  | cons x l1 ih =>
    have hx := h x (List.mem_cons_self _ _)
    have hno : hasSuffix (t ++ e) x = false := by
      rw [Bool.eq_false_iff, Ne, hasSuffix_iff_suf]
      intro hs
      rcases List.suffix_or_suffix_of_suffix hs (List.suffix_append t e) with h1 | h1
      · exact hx.1 h1
      · exact hx.2 h1
    rw [List.cons_append, stripModuleExtLoop, hno]
    exact ih (fun y hy => h y (List.mem_cons_of_mem _ hy))

theorem stripModuleExtLoop_none (s : GoString) (l : List GoString)
    (h : ∀ e ∈ l, hasSuffix s e = false) : stripModuleExtLoop s l = s := by
  induction l with
  | nil => rfl
  | cons x l ih =>
    rw [stripModuleExtLoop, h x (List.mem_cons_self _ _)]
    exact ih (fun y hy => h y (List.mem_cons_of_mem _ hy))

theorem stripModuleExt_append (t e : GoString) (he : e ∈ esExts) :
    stripModuleExt (t ++ e) = t := by
  unfold stripModuleExt
  simp only [esExts, List.mem_cons, List.mem_singleton, List.not_mem_nil, or_false] at he
  rcases he with rfl | rfl | rfl | rfl | rfl | rfl | rfl
  · exact stripModuleExtLoop_append t _ [] _ (by decide)
  · exact stripModuleExtLoop_append t _ [str ".mjs"] _ (by decide)
  · exact stripModuleExtLoop_append t _ [str ".mjs", str ".js"] _ (by decide)
  · exact stripModuleExtLoop_append t _ [str ".mjs", str ".js", str ".jsx"] _ (by decide)
  · exact stripModuleExtLoop_append t _ [str ".mjs", str ".js", str ".jsx", str ".mts"] _
      (by decide)
  · exact stripModuleExtLoop_append t _
      [str ".mjs", str ".js", str ".jsx", str ".mts", str ".ts"] _ (by decide)
  · exact stripModuleExtLoop_append t _
      [str ".mjs", str ".js", str ".jsx", str ".mts", str ".ts", str ".tsx"] _ (by decide)

/-- C9: for every string `t` and every extension `e` of the list `.mjs`, `.js`, `.jsx`,
`.mts`, `.ts`, `.tsx`, `.cjs`, `stripModuleExt (t ++ e) = t`; a string that ends with
none of the extensions is returned unchanged; `app.test.tsx` gives `app.test` and
`data.json` is unchanged. -/
theorem stripModuleExt_spec :
    (∀ t e : GoString, e ∈ [str ".mjs", str ".js", str ".jsx", str ".mts", str ".ts",
        str ".tsx", str ".cjs"] → stripModuleExt (t ++ e) = t)
    ∧ (∀ s : GoString, (∀ e ∈ esExts, ¬ ∃ t, s = t ++ e) → stripModuleExt s = s)
    ∧ stripModuleExt (str "app.test.tsx") = str "app.test"
    ∧ stripModuleExt (str "data.json") = str "data.json" := by
  refine ⟨fun t e he => stripModuleExt_append t e he, ?_, by decide, by decide⟩
  intro s h
  refine stripModuleExtLoop_none s esExts (fun e he => ?_)
  rw [Bool.eq_false_iff, Ne, hasSuffix_iff]
  exact h e he

/-- C9 at the inputs `app.test` with the extension `.tsx`, and `data.json`. -/
theorem stripModuleExt_spec_witness :
    stripModuleExt (str "app.test" ++ str ".tsx") = str "app.test"
    ∧ (∀ e ∈ esExts, hasSuffix (str "data.json") e = false)
    ∧ stripModuleExt (str "data.json") = str "data.json" :=
  ⟨stripModuleExt_spec.1 (str "app.test") (str ".tsx") (by decide), by decide,
    stripModuleExt_spec.2.1 (str "data.json") (fun e he => by
      rw [← hasSuffix_iff, Bool.not_eq_true]
      revert e
      decide)⟩

/-! ## Version patterns: theorems -/

/-- C10, as stated, fails: it is not the case that `lib@not-a-version` matches neither
pattern, because `regexpPathWithVersion` matches it. -/
theorem notAVersion_matches_generic :
    ¬ (regexpFullVersionPath.matchString (str "lib@not-a-version") = false
      ∧ regexpPathWithVersion.matchString (str "lib@not-a-version") = false) := by
  decide

/-- C10, amended: `lib@not-a-version` does not match the strict pinned pattern
`regexpFullVersionPath`, and it does match the generic pattern `regexpPathWithVersion`
(at `b@not-a-version`, ended by the end of the text). -/
theorem notAVersion_strict_only :
    regexpFullVersionPath.matchString (str "lib@not-a-version") = false
    ∧ regexpPathWithVersion.matchString (str "lib@not-a-version") = true
    ∧ regexpPathWithVersion.findStringSubmatch 2 (str "lib@not-a-version")
        = some [str "b@not-a-version", []] := by
  decide

/-! ## Directory scan: theorems -/

theorem findFilesLoop_nil (d : GoString) (fn : GoString → Bool) (files : List GoString) :
    findFilesLoop [] d fn files = (files, none) := by
  rw [findFilesLoop]

theorem findFilesLoop_file (name : GoString) (rest : List (GoString × Node)) (d : GoString)
    (fn : GoString → Bool) (files : List GoString) :
    findFilesLoop ((name, .file) :: rest) d fn files =
      if fn (entryPath d name) then findFilesLoop rest d fn (files ++ [entryPath d name])
      else findFilesLoop rest d fn files := by
  rw [findFilesLoop]

theorem findFilesLoop_dir (name : GoString) (entry : Node) (rest : List (GoString × Node))
    (d : GoString) (fn : GoString → Bool) (files : List GoString) (h : entry.isDir = true) :
    findFilesLoop ((name, entry) :: rest) d fn files =
      if name = str "node_modules" then findFilesLoop rest d fn files
      else
        match findFiles none entry (entryPath d name) fn with
        | (_, some e) => ([], some e)
        | (subFiles, none) => findFilesLoop rest d fn (mergeSubFiles files subFiles) := by
  cases entry with
  | file => exact absurd h (by decide)
  | dir es =>
    rw [findFilesLoop]
    intro hc
    exact Node.noConfusion hc
  | unreadable e =>
    rw [findFilesLoop]
    intro hc
    exact Node.noConfusion hc

theorem mergeSubFiles_fill (n : Nat) (sub : List GoString) (k : Nat) (a : List GoString)
    (ha : a.length = n + k) :
    (sub.enumFrom k).foldl (fun acc p => acc.set (p.1 + n) p.2)
      (a ++ List.replicate sub.length []) = a ++ sub := by
  induction sub generalizing k a with
  | nil => simp
  | cons x xs ih =>
    rw [List.enumFrom_cons, List.foldl_cons]
    have hset : (a ++ List.replicate (x :: xs).length ([] : GoString)).set (k + n) x
        = (a ++ [x]) ++ List.replicate xs.length [] := by
      rw [List.set_append_right _ _ (by omega)]
      have : k + n - a.length = 0 := by omega
      rw [this, List.length_cons, List.replicate_succ, List.set_cons_zero]
      simp
    show List.foldl _ ((a ++ List.replicate (x :: xs).length ([] : GoString)).set (k + n) x) _ = _
    rw [hset, ih (k + 1) (a ++ [x]) (by rw [List.length_append, ha]; simp; omega)]
    simp

theorem mergeSubFiles_eq (files sub : List GoString) :
    mergeSubFiles files sub
      = sub ++ (List.replicate files.length ([] : GoString) ++ sub).drop sub.length := by
  unfold mergeSubFiles
  simp only []
  have hfill := mergeSubFiles_fill files.length sub 0 (List.replicate files.length [])
    (by simp)
  rw [List.replicate_add, List.enum, hfill]
  unfold goCopy
  have hmin : min (List.replicate files.length ([] : GoString) ++ sub).length sub.length
      = sub.length := by
    rw [List.length_append]
    omega
  rw [hmin, List.take_length]


theorem mem_mergeSubFiles (files sub : List GoString) (p : GoString)
    (h : p ∈ mergeSubFiles files sub) : p ∈ sub ∨ p = [] := by
  rw [mergeSubFiles_eq, List.mem_append] at h
  rcases h with h | h
  · exact Or.inl h
  · rcases List.mem_append.1 (List.mem_of_mem_drop h) with h1 | h1
    · exact Or.inr (List.eq_of_mem_replicate h1)
    · exact Or.inl h1

theorem splitPath_ne_nil (p : GoString) : splitPath p ≠ [] := by
  cases p with
  | nil => simp [splitPath]
  | cons c rest =>
    rw [splitPath]
    split
    · simp
    · split <;> simp

theorem splitPath_of_not_mem (name : GoString) (h : 47 ∉ name) : splitPath name = [name] := by
  induction name with
  | nil => rfl
  | cons c rest ih =>
    have hc : c ≠ 47 := fun hc => h (hc ▸ List.mem_cons_self _ _)
    rw [splitPath, if_neg hc, ih (fun hm => h (List.mem_cons_of_mem _ hm))]

theorem splitPath_append (a b : GoString) :
    splitPath (a ++ 47 :: b) = splitPath a ++ splitPath b := by
  induction a with
  | nil => simp [splitPath]
  | cons c a ih =>
    rw [List.cons_append, splitPath, ih, splitPath]
    by_cases hc : c = 47
    · rw [if_pos hc, if_pos hc, List.cons_append]
    · rw [if_neg hc, if_neg hc]
      cases hs : splitPath a with
      | nil => exact absurd hs (splitPath_ne_nil a)
      | cons comp comps => rfl

theorem entryPath_nil (name : GoString) : entryPath [] name = name := by
  unfold entryPath
  rw [if_neg (fun h => h rfl)]

theorem entryPath_ne_nil (d name : GoString) (h : d ≠ []) :
    entryPath d name = d ++ 47 :: name := by
  unfold entryPath
  rw [if_pos h]
  show d ++ [47] ++ name = _
  rw [List.append_assoc]
  rfl

theorem noNodeModules_nil : NoNodeModules [] := by
  unfold NoNodeModules dirComponents
  decide

theorem noNodeModules_entryPath (d name : GoString) (hd : DirOk d) (hn : 47 ∉ name) :
    NoNodeModules (entryPath d name) := by
  unfold NoNodeModules dirComponents
  by_cases h : d = []
  · subst h
    rw [entryPath_nil, splitPath_of_not_mem name hn]
    simp
  · rw [entryPath_ne_nil d name h, splitPath_append, splitPath_of_not_mem name hn,
      List.dropLast_concat]
    rcases hd with hd | hd
    · exact absurd hd h
    · exact hd

theorem dirOk_entryPath (d name : GoString) (hd : DirOk d) (hn : 47 ∉ name)
    (hne : name ≠ str "node_modules") : DirOk (entryPath d name) := by
  right
  by_cases h : d = []
  · subst h
    rw [entryPath_nil, splitPath_of_not_mem name hn]
    simpa using Ne.symm hne
  · rw [entryPath_ne_nil d name h, splitPath_append, splitPath_of_not_mem name hn]
    rcases hd with hd | hd
    · exact absurd hd h
    · rw [List.mem_append, not_or]
      exact ⟨hd, by simpa using Ne.symm hne⟩

theorem namesOkList_cons (name : GoString) (entry : Node) (rest : List (GoString × Node))
    (h : namesOkList ((name, entry) :: rest) = true) :
    47 ∉ name ∧ namesOk entry = true ∧ namesOkList rest = true := by
  rw [namesOkList] at h
  simp only [Bool.and_eq_true, Bool.not_eq_true', List.contains_eq_any_beq,
    List.any_eq_false, beq_iff_eq] at h
  refine ⟨fun hm => ?_, h.1.2, h.2⟩
  exact h.1.1 47 hm rfl

mutual
theorem findFiles_noNodeModules (absErr : Option Nat) (root : Node) (d : GoString)
    (fn : GoString → Bool) (hn : namesOk root = true) (hd : DirOk d) :
    ∀ p ∈ (findFiles absErr root d fn).1, NoNodeModules p := by
  cases absErr with
  | some e => intro p hp; simp [findFiles] at hp
  | none =>
    cases root with
    | file => intro p hp; simp [findFiles] at hp
    | unreadable e => intro p hp; simp [findFiles] at hp
    | dir entries =>
      rw [findFiles]
      rw [namesOk] at hn
      exact findFilesLoop_noNodeModules entries d fn [] hn hd (fun p hp => by simp at hp)
theorem findFilesLoop_noNodeModules (entries : List (GoString × Node)) (d : GoString)
    (fn : GoString → Bool) (files : List GoString) (hn : namesOkList entries = true)
    (hd : DirOk d) (hf : ∀ p ∈ files, NoNodeModules p) :
    ∀ p ∈ (findFilesLoop entries d fn files).1, NoNodeModules p := by
  match entries with
  | [] =>
    rw [findFilesLoop_nil]
    exact hf
  | (name, entry) :: rest =>
    obtain ⟨h1, h2, h3⟩ := namesOkList_cons name entry rest hn
    by_cases hdir : entry.isDir = true
    · rw [findFilesLoop_dir _ _ _ _ _ _ hdir]
      by_cases hnm : name = str "node_modules"
      · rw [if_pos hnm]
        exact findFilesLoop_noNodeModules rest d fn files h3 hd hf
      · rw [if_neg hnm]
        have hsub := findFiles_noNodeModules none entry (entryPath d name) fn h2
          (dirOk_entryPath d name hd h1 hnm)
        rcases hr : findFiles none entry (entryPath d name) fn with ⟨subFiles, err⟩
        rw [hr] at hsub
        cases err with
        | some e => intro p hp; simp at hp
        | none =>
          refine findFilesLoop_noNodeModules rest d fn _ h3 hd (fun p hp => ?_)
          rcases mem_mergeSubFiles _ _ _ hp with hp | hp
          · exact hsub p hp
          · rw [hp]
            exact noNodeModules_nil
    · have hfile : entry = .file := by
        cases entry with
        | file => rfl
        | dir es => exact absurd rfl hdir
        | unreadable e => exact absurd rfl hdir
      subst hfile
      rw [findFilesLoop_file]
      split
      · refine findFilesLoop_noNodeModules rest d fn _ h3 hd (fun p hp => ?_)
        rcases List.mem_append.1 hp with hp | hp
        · exact hf p hp
        · rw [List.mem_singleton.1 hp]
          exact noNodeModules_entryPath d name hd h1
      · exact findFilesLoop_noNodeModules rest d fn files h3 hd hf
end

/-- C4: for every tree whose entry names contain no `/`, every predicate and the call
`findFiles(root, "", fn)`, no returned path has `node_modules` among its directory
components (the components before the last one). -/
theorem findFiles_excludes_node_modules (absErr : Option Nat) (root : Node)
    (fn : GoString → Bool) (hn : namesOk root = true) :
    ∀ p ∈ (findFiles absErr root [] fn).1, str "node_modules" ∉ dirComponents p :=
  findFiles_noNodeModules absErr root [] fn hn (Or.inl rfl)

/-- C4 at the example tree with the always-true predicate: the scan returns paths, and
none of them lies under `node_modules`. -/
theorem findFiles_excludes_node_modules_witness :
    namesOk exampleTree = true
    ∧ (findFiles none exampleTree [] (fun _ => true)).1 ≠ []
    ∧ ∀ p ∈ (findFiles none exampleTree [] (fun _ => true)).1,
        str "node_modules" ∉ dirComponents p :=
  ⟨by decide, by decide,
    findFiles_excludes_node_modules none exampleTree (fun _ => true) (by decide)⟩

/-- C2 at the example tree `src/a.ts`, `node_modules/dep/index.js`, `src/nested/b.ts`
with the predicate "ends with .ts": every directory is readable, the files to report
are `src/a.ts` and `src/nested/b.ts`, and the scan returns `src/nested/b.ts` twice and
`src/a.ts` not at all. -/
theorem findFiles_example_loses_file :
    readable exampleTree = true
    ∧ (filePaths exampleTree []).filter endsWithTs = [str "src/a.ts", str "src/nested/b.ts"]
    ∧ findFiles none exampleTree [] endsWithTs
        = ([str "src/nested/b.ts", str "src/nested/b.ts"], none)
    ∧ str "src/a.ts" ∉ (findFiles none exampleTree [] endsWithTs).1 := by
  decide

/-- C3 at the tree with the file `a.ts` and the directory `lib` holding `b.ts`, all
directories readable and all names distinct: the returned list holds `lib/b.ts`
twice. -/
theorem findFiles_small_duplicates :
    readable smallTree = true ∧ distinctNames smallTree = true
    ∧ findFiles none smallTree [] (fun _ => true) = ([str "lib/b.ts", str "lib/b.ts"], none)
    ∧ ¬ (findFiles none smallTree [] (fun _ => true)).1.Nodup := by
  decide

/-! ## URL-safe base64 codec: theorems -/

theorem encChar_safe : ∀ v, v < 64 → isURLSafe (encChar v) = true := by decide

theorem decodeMap_encChar : ∀ v, v < 64 → decodeMap (encChar v) = v := by decide

theorem and_63 (x : Nat) : x &&& 0x3F = x % 64 := Nat.and_pow_two_sub_one_eq_mod x 6

theorem or_shift (x y n : Nat) (h : y < 2 ^ n) : (x <<< n) ||| y = x * 2 ^ n + y := by
  rw [Nat.shiftLeft_eq, Nat.mul_comm x, ← Nat.mul_add_lt_is_or h]

theorem pack3 (a b c : Nat) (hb : b < 256) (hc : c < 256) :
    (a <<< 16) ||| (b <<< 8) ||| c = a * 65536 + b * 256 + c := by
  have h1 : (a <<< 16) ||| (b <<< 8) = (a * 256 + b) <<< 8 := by
    rw [or_shift a (b <<< 8) 16 (by rw [Nat.shiftLeft_eq]; omega), Nat.shiftLeft_eq,
      Nat.shiftLeft_eq]
    omega
  rw [h1, or_shift _ c 8 (by omega)]
  omega

theorem pack2 (a b : Nat) (hb : b < 256) :
    (a <<< 16) ||| (b <<< 8) = a * 65536 + b * 256 := by
  rw [or_shift a (b <<< 8) 16 (by rw [Nat.shiftLeft_eq]; omega), Nat.shiftLeft_eq]
  omega

theorem pack4 (v0 v1 v2 v3 : Nat) (h1 : v1 < 64) (h2 : v2 < 64) (h3 : v3 < 64) :
    (v0 <<< 18) ||| (v1 <<< 12) ||| (v2 <<< 6) ||| v3
      = v0 * 262144 + v1 * 4096 + v2 * 64 + v3 := by
  have e1 : (v0 <<< 18) ||| (v1 <<< 12) = (v0 * 64 + v1) <<< 12 := by
    rw [or_shift v0 (v1 <<< 12) 18 (by rw [Nat.shiftLeft_eq]; omega), Nat.shiftLeft_eq,
      Nat.shiftLeft_eq]
    omega
  have e2 : ((v0 * 64 + v1) <<< 12) ||| (v2 <<< 6) = ((v0 * 64 + v1) * 64 + v2) <<< 6 := by
    rw [or_shift _ (v2 <<< 6) 12 (by rw [Nat.shiftLeft_eq]; omega), Nat.shiftLeft_eq,
      Nat.shiftLeft_eq]
    omega
  rw [e1, e2, or_shift _ v3 6 (by omega)]
  omega


theorem decodeQuantumLoop_valid (srcLen v : Nat) (rest : GoString) (si j : Nat)
    (dbuf : List Nat) (hv : v < 64) (hj : j < 4) :
    decodeQuantumLoop srcLen (encChar v :: rest) si j dbuf
      = decodeQuantumLoop srcLen rest (si + 1) (j + 1) (dbuf ++ [v]) := by
  rw [decodeQuantumLoop, if_neg (by omega), decodeMap_encChar v hv, if_pos (by omega)]

theorem decodeQuantumLoop_done (srcLen : Nat) (rest : GoString) (si : Nat) (dbuf : List Nat) :
    decodeQuantumLoop srcLen rest si 4 dbuf = ⟨rest, si, quantumBytes dbuf 4, none⟩ := by
  cases rest <;> rfl

theorem decodeQuantumLoop_pad2 (srcLen si : Nat) (dbuf : List Nat) :
    decodeQuantumLoop srcLen [padChar, padChar] si 2 dbuf
      = ⟨[], si + 2, quantumBytes dbuf 2, none⟩ := by
  rfl

theorem decodeQuantumLoop_pad1 (srcLen si : Nat) (dbuf : List Nat) :
    decodeQuantumLoop srcLen [padChar] si 3 dbuf
      = ⟨[], si + 1, quantumBytes dbuf 3, none⟩ := by
  rfl

theorem quantumBytes_full (a b c : Nat) (ha : a < 256) (hb : b < 256) (hc : c < 256) :
    quantumBytes
      [(((a <<< 16) ||| (b <<< 8) ||| c) >>> 18) &&& 0x3F,
       (((a <<< 16) ||| (b <<< 8) ||| c) >>> 12) &&& 0x3F,
       (((a <<< 16) ||| (b <<< 8) ||| c) >>> 6) &&& 0x3F,
       ((a <<< 16) ||| (b <<< 8) ||| c) &&& 0x3F] 4 = [a, b, c] := by
  unfold quantumBytes
  simp only [List.getD_cons_zero, List.getD_cons_succ, and_63, pack3 a b c hb hc,
    Nat.shiftRight_eq_div_pow]
  rw [pack4 _ _ _ _ (Nat.mod_lt _ (by decide)) (Nat.mod_lt _ (by decide))
    (Nat.mod_lt _ (by decide))]
  simp only [Nat.reduceSub, List.take_succ_cons, List.take_zero, List.cons.injEq, and_true]
  refine ⟨?_, ?_, ?_⟩ <;> omega

theorem quantumBytes_two (a b : Nat) (ha : a < 256) (hb : b < 256) :
    quantumBytes
      [(((a <<< 16) ||| (b <<< 8)) >>> 18) &&& 0x3F,
       (((a <<< 16) ||| (b <<< 8)) >>> 12) &&& 0x3F,
       (((a <<< 16) ||| (b <<< 8)) >>> 6) &&& 0x3F] 3 = [a, b] := by
  unfold quantumBytes
  simp only [List.getD_cons_zero, List.getD_cons_succ, List.getD_nil, and_63, pack2 a b hb,
    Nat.shiftRight_eq_div_pow]
  rw [pack4 _ _ _ _ (Nat.mod_lt _ (by decide)) (Nat.mod_lt _ (by decide)) (by decide)]
  simp only [Nat.reduceSub, List.take_succ_cons, List.take_zero, List.cons.injEq, and_true]
  refine ⟨?_, ?_⟩ <;> omega

theorem quantumBytes_one (a : Nat) (ha : a < 256) :
    quantumBytes [((a <<< 16) >>> 18) &&& 0x3F, ((a <<< 16) >>> 12) &&& 0x3F] 2 = [a] := by
  have h16 : a <<< 16 = a * 65536 := by rw [Nat.shiftLeft_eq]
  unfold quantumBytes
  simp only [List.getD_cons_zero, List.getD_cons_succ, List.getD_nil, and_63, h16,
    Nat.shiftRight_eq_div_pow]
  rw [pack4 _ _ _ _ (Nat.mod_lt _ (by decide)) (by decide) (by decide)]
  simp only [Nat.reduceSub, List.take_succ_cons, List.take_zero, List.cons.injEq, and_true]
  omega


theorem encChar_and_safe (x : Nat) : isURLSafe (encChar (x &&& 0x3F)) = true :=
  encChar_safe _ (by rw [and_63]; exact Nat.mod_lt _ (by decide))

theorem encodeToString_form (x : GoString) :
    ∃ body k, encodeToString x = body ++ List.replicate k padChar
      ∧ (∀ c ∈ body, isURLSafe c = true) ∧ k ≤ 2 ∧ (body.length + k) % 4 = 0 := by
  induction x using encodeToString.induct with
  | case1 => exact ⟨[], 0, rfl, by simp, by omega, rfl⟩
  | case2 a =>
    refine ⟨[encChar (((a <<< 16) >>> 18) &&& 0x3F), encChar (((a <<< 16) >>> 12) &&& 0x3F)],
      2, rfl, ?_, le_refl _, by simp⟩
    intro c hc
    simp only [List.mem_cons, List.mem_singleton, List.not_mem_nil, or_false] at hc
    rcases hc with rfl | rfl <;> exact encChar_and_safe _
  | case3 a b =>
    refine ⟨[encChar ((((a <<< 16) ||| (b <<< 8)) >>> 18) &&& 0x3F),
      encChar ((((a <<< 16) ||| (b <<< 8)) >>> 12) &&& 0x3F),
      encChar ((((a <<< 16) ||| (b <<< 8)) >>> 6) &&& 0x3F)], 1, rfl, ?_, by omega, by simp⟩
    intro c hc
    simp only [List.mem_cons, List.mem_singleton, List.not_mem_nil, or_false] at hc
    rcases hc with rfl | rfl | rfl <;> exact encChar_and_safe _
  | case4 a b c rest ih =>
    obtain ⟨body, k, he, hs, hk, hl⟩ := ih
    refine ⟨encChar ((((a <<< 16) ||| (b <<< 8) ||| c) >>> 18) &&& 0x3F)
      :: encChar ((((a <<< 16) ||| (b <<< 8) ||| c) >>> 12) &&& 0x3F)
      :: encChar ((((a <<< 16) ||| (b <<< 8) ||| c) >>> 6) &&& 0x3F)
      :: encChar (((a <<< 16) ||| (b <<< 8) ||| c) &&& 0x3F) :: body, k, ?_, ?_, hk, ?_⟩
    · rw [encodeToString, he]
      rfl
    · intro x hx
      simp only [List.mem_cons] at hx
      rcases hx with rfl | rfl | rfl | rfl | hx
      · exact encChar_and_safe _
      · exact encChar_and_safe _
      · exact encChar_and_safe _
      · exact encChar_and_safe _
      · exact hs x hx
    · simp only [List.length_cons]
      omega

theorem trimRight_body (body : GoString) (k : Nat) (h : ∀ c ∈ body, isURLSafe c = true) :
    trimRight (body ++ List.replicate k padChar) (str "=") = body := by
  unfold trimRight
  induction k with
  | zero =>
    rw [List.replicate_zero, List.append_nil, List.rdropWhile_eq_self_iff]
    intro hl hc
    have hs := h _ (List.getLast_mem hl)
    have he : body.getLast hl = 61 := by
      have hm : body.getLast hl ∈ str "=" := List.mem_of_elem_eq_true hc
      exact List.mem_singleton.1 hm
    rw [he] at hs
    exact absurd hs (by decide)
  | succ k ih =>
    rw [List.replicate_succ', ← List.append_assoc, List.rdropWhile_concat_pos _ _ _ (by decide)]
    exact ih

theorem btoaUrl_eq_body (x body : GoString) (k : Nat)
    (he : encodeToString x = body ++ List.replicate k padChar)
    (hs : ∀ c ∈ body, isURLSafe c = true) : btoaUrl x = body := by
  unfold btoaUrl
  rw [he, trimRight_body body k hs]

theorem decodeLoop_nil (srcLen fuel si : Nat) (acc : GoString) :
    decodeLoop srcLen fuel [] si acc = (acc, none) := by
  cases fuel <;> simp [decodeLoop]

theorem decodeLoop_ok (srcLen fuel si : Nat) (c : Nat) (rest acc : GoString)
    (rest1 : GoString) (si1 : Nat) (out : GoString)
    (h : decodeQuantum srcLen (c :: rest) si = ⟨rest1, si1, out, none⟩) :
    decodeLoop srcLen (fuel + 1) (c :: rest) si acc
      = decodeLoop srcLen fuel rest1 si1 (acc ++ out) := by
  rw [decodeLoop, if_neg (List.cons_ne_nil _ _)]
  simp only [h]

theorem decodeQuantum_full (srcLen si v0 v1 v2 v3 : Nat) (rest : GoString)
    (h0 : v0 < 64) (h1 : v1 < 64) (h2 : v2 < 64) (h3 : v3 < 64) :
    decodeQuantum srcLen (encChar v0 :: encChar v1 :: encChar v2 :: encChar v3 :: rest) si
      = ⟨rest, si + 4, quantumBytes [v0, v1, v2, v3] 4, none⟩ := by
  unfold decodeQuantum
  rw [decodeQuantumLoop_valid _ _ _ _ _ _ h0 (by omega),
    decodeQuantumLoop_valid _ _ _ _ _ _ h1 (by omega),
    decodeQuantumLoop_valid _ _ _ _ _ _ h2 (by omega),
    decodeQuantumLoop_valid _ _ _ _ _ _ h3 (by omega), decodeQuantumLoop_done]
  rfl

theorem decodeQuantum_three (srcLen si v0 v1 v2 : Nat)
    (h0 : v0 < 64) (h1 : v1 < 64) (h2 : v2 < 64) :
    decodeQuantum srcLen [encChar v0, encChar v1, encChar v2, padChar] si
      = ⟨[], si + 4, quantumBytes [v0, v1, v2] 3, none⟩ := by
  unfold decodeQuantum
  rw [decodeQuantumLoop_valid _ _ _ _ _ _ h0 (by omega),
    decodeQuantumLoop_valid _ _ _ _ _ _ h1 (by omega),
    decodeQuantumLoop_valid _ _ _ _ _ _ h2 (by omega), decodeQuantumLoop_pad1]
  rfl

theorem decodeQuantum_two (srcLen si v0 v1 : Nat) (h0 : v0 < 64) (h1 : v1 < 64) :
    decodeQuantum srcLen [encChar v0, encChar v1, padChar, padChar] si
      = ⟨[], si + 4, quantumBytes [v0, v1] 2, none⟩ := by
  unfold decodeQuantum
  rw [decodeQuantumLoop_valid _ _ _ _ _ _ h0 (by omega),
    decodeQuantumLoop_valid _ _ _ _ _ _ h1 (by omega), decodeQuantumLoop_pad2]
  rfl

theorem and_63_lt (x : Nat) : x &&& 0x3F < 64 := by
  rw [and_63]
  exact Nat.mod_lt _ (by decide)

theorem decodeLoop_encode (x : GoString) (hx : IsBytes x) :
    ∀ (srcLen fuel si : Nat) (acc : GoString), (encodeToString x).length ≤ fuel →
      decodeLoop srcLen fuel (encodeToString x) si acc = (acc ++ x, none) := by
  induction x using encodeToString.induct with
  | case1 =>
    intro srcLen fuel si acc _
    rw [encodeToString, decodeLoop_nil, List.append_nil]
  | case2 a =>
    intro srcLen fuel si acc hf
    have ha : a < 256 := hx a (List.mem_cons_self _ _)
    rw [encodeToString] at hf ⊢
    obtain ⟨f, rfl⟩ : ∃ f, fuel = f + 1 := ⟨fuel - 1, by simp at hf; omega⟩
    rw [decodeLoop_ok _ _ _ _ _ _ _ _ _
      (decodeQuantum_two srcLen si _ _ (and_63_lt _) (and_63_lt _)), decodeLoop_nil,
      quantumBytes_one a ha]
  | case3 a b =>
    intro srcLen fuel si acc hf
    have ha : a < 256 := hx a (List.mem_cons_self _ _)
    have hb : b < 256 := hx b (List.mem_cons_of_mem _ (List.mem_cons_self _ _))
    rw [encodeToString] at hf ⊢
    obtain ⟨f, rfl⟩ : ∃ f, fuel = f + 1 := ⟨fuel - 1, by simp at hf; omega⟩
    rw [decodeLoop_ok _ _ _ _ _ _ _ _ _
      (decodeQuantum_three srcLen si _ _ _ (and_63_lt _) (and_63_lt _) (and_63_lt _)),
      decodeLoop_nil, quantumBytes_two a b ha hb]
  | case4 a b c rest ih =>
    intro srcLen fuel si acc hf
    have ha : a < 256 := hx a (List.mem_cons_self _ _)
    have hb : b < 256 := hx b (List.mem_cons_of_mem _ (List.mem_cons_self _ _))
    have hc : c < 256 :=
      hx c (List.mem_cons_of_mem _ (List.mem_cons_of_mem _ (List.mem_cons_self _ _)))
    have hr : IsBytes rest := fun y hy =>
      hx y (List.mem_cons_of_mem _ (List.mem_cons_of_mem _ (List.mem_cons_of_mem _ hy)))
    rw [encodeToString] at hf ⊢
    obtain ⟨f, rfl⟩ : ∃ f, fuel = f + 1 := ⟨fuel - 1, by simp at hf; omega⟩
    rw [decodeLoop_ok _ _ _ _ _ _ _ _ _
      (decodeQuantum_full srcLen si _ _ _ _ _ (and_63_lt _) (and_63_lt _) (and_63_lt _)
        (and_63_lt _)), quantumBytes_full a b c ha hb hc,
      ih hr srcLen f (si + 4) _ (by simp at hf; omega)]
    simp

theorem repad_btoaUrl (x body : GoString) (k : Nat)
    (he : encodeToString x = body ++ List.replicate k padChar) (hk : k ≤ 2)
    (hl : (body.length + k) % 4 = 0) :
    (if body.length % 4 > 0 then body ++ strRepeat padChar (4 - body.length % 4) else body)
      = encodeToString x := by
  rw [he]
  unfold strRepeat
  split
  · have h4 : 4 - body.length % 4 = k := by omega
    rw [h4]
  · have h0 : k = 0 := by omega
    rw [h0, List.replicate_zero, List.append_nil]

/-- C1: for every byte string `x` (the empty one and those whose length is not a
multiple of 3 included), `atobUrl (btoaUrl x)` succeeds and returns exactly `x`. -/
theorem atobUrl_btoaUrl (x : GoString) (hx : IsBytes x) :
    atobUrl (btoaUrl x) = (x, none) := by
  obtain ⟨body, k, he, hs, hk, hl⟩ := encodeToString_form x
  rw [btoaUrl_eq_body x body k he hs]
  unfold atobUrl
  simp only [repad_btoaUrl x body k he hk hl]
  unfold decodeString
  rw [decodeLoop_encode x hx _ _ _ _ (le_refl _), List.nil_append]

/-- C1 at the 5-byte string `hello`, whose encoding `aGVsbG8` lost one padding
character. -/
theorem atobUrl_btoaUrl_witness :
    IsBytes (str "hello") ∧ btoaUrl (str "hello") = str "aGVsbG8"
    ∧ atobUrl (btoaUrl (str "hello")) = (str "hello", none) :=
  ⟨by unfold IsBytes; decide, by decide,
    atobUrl_btoaUrl (str "hello") (by unfold IsBytes; decide)⟩

/-- C5: for every byte string `x`, every character of `btoaUrl x` is one of `A-Z`,
`a-z`, `0-9`, `-`, `_`; in particular it is none of `+`, `/` and `=`. -/
theorem btoaUrl_alphabet (x : GoString) :
    ∀ c ∈ btoaUrl x,
      ((65 ≤ c ∧ c ≤ 90) ∨ (97 ≤ c ∧ c ≤ 122) ∨ (48 ≤ c ∧ c ≤ 57) ∨ c = 45 ∨ c = 95)
      ∧ c ≠ 43 ∧ c ≠ 47 ∧ c ≠ 61 := by
  intro c hc
  obtain ⟨body, k, he, hs, -, -⟩ := encodeToString_form x
  rw [btoaUrl_eq_body x body k he hs] at hc
  have h := hs c hc
  unfold isURLSafe at h
  simp only [Bool.or_eq_true, Bool.and_eq_true, decide_eq_true_eq, beq_iff_eq] at h
  omega

/-- C5 at the string `hello`: its encoding is `aGVsbG8`, and the first character `a`
is a letter. -/
theorem btoaUrl_alphabet_witness :
    btoaUrl (str "hello") = str "aGVsbG8"
    ∧ ((65 ≤ 97 ∧ 97 ≤ 90) ∨ (97 ≤ 97 ∧ 97 ≤ 122) ∨ (48 ≤ 97 ∧ 97 ≤ 57) ∨ 97 = 45 ∨ 97 = 95)
      ∧ 97 ≠ 43 ∧ 97 ≠ 47 ∧ 97 ≠ 61 :=
  ⟨by decide, btoaUrl_alphabet (str "hello") 97 (by decide)⟩

/-! ## Directory scan: errors, count and flat directories -/

theorem mergeSubFiles_length (files sub : List GoString) :
    (mergeSubFiles files sub).length = files.length + sub.length := by
  rw [mergeSubFiles_eq]
  simp only [List.length_append, List.length_drop, List.length_replicate]
  omega

theorem node_eq_file_of_not_isDir (entry : Node) (h : ¬ entry.isDir = true) :
    entry = Node.file := by
  cases entry with
  | file => rfl
  | dir es => exact absurd rfl h
  | unreadable e => exact absurd rfl h

theorem firstReadErrorList_file (name : GoString) (rest : List (GoString × Node)) :
    firstReadErrorList ((name, Node.file) :: rest) = firstReadErrorList rest := by
  rw [firstReadErrorList]

theorem firstReadErrorList_dir (name : GoString) (entry : Node)
    (rest : List (GoString × Node)) (h : entry.isDir = true) :
    firstReadErrorList ((name, entry) :: rest) =
      if name = str "node_modules" then firstReadErrorList rest
      else
        match firstReadError entry with
        | some e => some e
        | none => firstReadErrorList rest := by
  cases entry with
  | file => exact absurd h (by decide)
  | dir es =>
    rw [firstReadErrorList]
    intro hc
    exact Node.noConfusion hc
  | unreadable e =>
    rw [firstReadErrorList]
    intro hc
    exact Node.noConfusion hc

mutual
theorem findFiles_error (root : Node) (d : GoString) (fn : GoString → Bool) :
    (findFiles none root d fn).2 = firstReadError root
      ∧ ((findFiles none root d fn).2 ≠ none → (findFiles none root d fn).1 = []) := by
  cases root with
  | file => exact ⟨rfl, fun _ => rfl⟩
  | unreadable e => exact ⟨rfl, fun _ => rfl⟩
  | dir entries =>
    rw [findFiles, firstReadError]
    exact findFilesLoop_error entries d fn []
theorem findFilesLoop_error (entries : List (GoString × Node)) (d : GoString)
    (fn : GoString → Bool) (files : List GoString) :
    (findFilesLoop entries d fn files).2 = firstReadErrorList entries
      ∧ ((findFilesLoop entries d fn files).2 ≠ none →
          (findFilesLoop entries d fn files).1 = []) := by
  match entries with
  | [] =>
    rw [findFilesLoop_nil, firstReadErrorList]
    exact ⟨rfl, fun h => absurd rfl h⟩
  | (name, entry) :: rest =>
    by_cases hdir : entry.isDir = true
    · rw [findFilesLoop_dir _ _ _ _ _ _ hdir, firstReadErrorList_dir _ _ _ hdir]
      by_cases hnm : name = str "node_modules"
      · rw [if_pos hnm, if_pos hnm]
        exact findFilesLoop_error rest d fn files
      · rw [if_neg hnm, if_neg hnm]
        have hsub := findFiles_error entry (entryPath d name) fn
        rcases hr : findFiles none entry (entryPath d name) fn with ⟨subFiles, err⟩
        rw [hr] at hsub
        cases err with
        | some e =>
          rw [← hsub.1]
          exact ⟨rfl, fun _ => rfl⟩
        | none =>
          rw [← hsub.1]
          exact findFilesLoop_error rest d fn _
    · have hfile := node_eq_file_of_not_isDir entry hdir
      subst hfile
      rw [findFilesLoop_file, firstReadErrorList_file]
      split
      · exact findFilesLoop_error rest d fn _
      · exact findFilesLoop_error rest d fn files
end

theorem readableList_file (name : GoString) (rest : List (GoString × Node)) :
    readableList ((name, Node.file) :: rest) = readableList rest := by
  rw [readableList]

theorem readableList_dir (name : GoString) (entry : Node)
    (rest : List (GoString × Node)) (h : entry.isDir = true) :
    readableList ((name, entry) :: rest) =
      if name = str "node_modules" then readableList rest
      else (readable entry && readableList rest) := by
  cases entry with
  | file => exact absurd h (by decide)
  | dir es =>
    rw [readableList]
    intro hc
    exact Node.noConfusion hc
  | unreadable e =>
    rw [readableList]
    intro hc
    exact Node.noConfusion hc

mutual
theorem readable_iff (root : Node) : readable root = true ↔ firstReadError root = none := by
  cases root with
  | file => simp [readable, firstReadError]
  | unreadable e => simp [readable, firstReadError]
  | dir entries =>
    rw [readable, firstReadError]
    exact readableList_iff entries
theorem readableList_iff (entries : List (GoString × Node)) :
    readableList entries = true ↔ firstReadErrorList entries = none := by
  match entries with
  | [] => simp [readableList, firstReadErrorList]
  | (name, entry) :: rest =>
    by_cases hdir : entry.isDir = true
    · rw [readableList_dir _ _ _ hdir, firstReadErrorList_dir _ _ _ hdir]
      by_cases hnm : name = str "node_modules"
      · rw [if_pos hnm, if_pos hnm]
        exact readableList_iff rest
      · rw [if_neg hnm, if_neg hnm, Bool.and_eq_true, readable_iff entry,
          readableList_iff rest]
        cases firstReadError entry with
        | none => simp
        | some e => simp
    · have hfile := node_eq_file_of_not_isDir entry hdir
      subst hfile
      rw [readableList_file, firstReadErrorList_file]
      exact readableList_iff rest
end

/-- C16: a failure of `findFiles` is the failure of resolving the root or of the first
directory read that fails in the scan (the root included, directories under
`node_modules` excluded); the call then returns that error with a nil list, whatever was
collected before, and when every reached directory is readable the call succeeds. -/
theorem findFiles_error_spec (absErr : Option Nat) (root : Node) (d : GoString)
    (fn : GoString → Bool) :
    (∀ e, absErr = some e → findFiles absErr root d fn = ([], some e))
    ∧ (findFiles none root d fn).2 = firstReadError root
    ∧ (∀ e, firstReadError root = some e → findFiles none root d fn = ([], some e))
    ∧ (∀ e, (findFiles absErr root d fn).2 = some e → (findFiles absErr root d fn).1 = [])
    ∧ (readable root = true → (findFiles none root d fn).2 = none)
    ∧ (readable root = false → ∃ e, findFiles none root d fn = ([], some e)) := by
  have herr := findFiles_error root d fn
  refine ⟨?_, herr.1, ?_, ?_, ?_, ?_⟩
  · rintro e rfl
    rw [findFiles]
  · intro e he
    have h2 : (findFiles none root d fn).2 = some e := herr.1.trans he
    have h1 := herr.2 (by rw [h2]; exact Option.noConfusion)
    exact Prod.ext h1 h2
  · intro e he
    cases absErr with
    | some e1 => rw [findFiles]
    | none => exact herr.2 (by rw [he]; exact Option.noConfusion)
  · intro h
    rw [herr.1]
    exact (readable_iff root).1 h
  · intro h
    cases hf : firstReadError root with
    | none =>
      rw [(readable_iff root).2 hf] at h
      exact absurd h (by decide)
    | some e =>
      have h2 : (findFiles none root d fn).2 = some e := herr.1.trans hf
      have h1 := herr.2 (by rw [h2]; exact Option.noConfusion)
      exact ⟨e, Prod.ext h1 h2⟩

/-- C16 at a tree whose directory `lib` cannot be read (error 13) after the file `a.ts`
was collected: the result is the error 13 with a nil list; and at the example tree,
where every reached directory is readable, the call succeeds. -/
theorem findFiles_error_spec_witness :
    firstReadError brokenTree = some 13
    ∧ findFiles none brokenTree [] (fun _ => true) = ([], some 13)
    ∧ findFiles (some 2) exampleTree [] (fun _ => true) = ([], some 2)
    ∧ readable exampleTree = true
    ∧ (findFiles none exampleTree [] (fun _ => true)).2 = none :=
  ⟨by decide,
    (findFiles_error_spec none brokenTree [] (fun _ => true)).2.2.1 13 (by decide),
    (findFiles_error_spec (some 2) exampleTree [] (fun _ => true)).1 2 rfl,
    by decide,
    (findFiles_error_spec none exampleTree [] (fun _ => true)).2.2.2.2.1 (by decide)⟩

theorem filePathsList_file (name : GoString) (rest : List (GoString × Node)) (d : GoString) :
    filePathsList ((name, Node.file) :: rest) d = entryPath d name :: filePathsList rest d := by
  rw [filePathsList]

theorem filePathsList_dir (name : GoString) (entry : Node)
    (rest : List (GoString × Node)) (d : GoString) (h : entry.isDir = true) :
    filePathsList ((name, entry) :: rest) d =
      if name = str "node_modules" then filePathsList rest d
      else filePaths entry (entryPath d name) ++ filePathsList rest d := by
  cases entry with
  | file => exact absurd h (by decide)
  | dir es =>
    rw [filePathsList]
    intro hc
    exact Node.noConfusion hc
  | unreadable e =>
    rw [filePathsList]
    intro hc
    exact Node.noConfusion hc

mutual
theorem findFiles_length (root : Node) (d : GoString) (fn : GoString → Bool)
    (h : readable root = true) :
    (findFiles none root d fn).1.length = ((filePaths root d).filter fn).length := by
  cases root with
  | file => exact absurd h (by decide)
  | unreadable e =>
    rw [readable] at h
    exact absurd h (by decide)
  | dir entries =>
    rw [readable] at h
    rw [findFiles, filePaths, findFilesLoop_length entries d fn [] h]
    simp
theorem findFilesLoop_length (entries : List (GoString × Node)) (d : GoString)
    (fn : GoString → Bool) (files : List GoString) (h : readableList entries = true) :
    (findFilesLoop entries d fn files).1.length
      = files.length + ((filePathsList entries d).filter fn).length := by
  match entries with
  | [] =>
    rw [findFilesLoop_nil, filePathsList]
    simp
  | (name, entry) :: rest =>
    by_cases hdir : entry.isDir = true
    · rw [readableList_dir _ _ _ hdir] at h
      rw [findFilesLoop_dir _ _ _ _ _ _ hdir, filePathsList_dir _ _ _ _ hdir]
      by_cases hnm : name = str "node_modules"
      · rw [if_pos hnm] at h
        rw [if_pos hnm, if_pos hnm]
        exact findFilesLoop_length rest d fn files h
      · rw [if_neg hnm, Bool.and_eq_true] at h
        rw [if_neg hnm, if_neg hnm]
        have hlen := findFiles_length entry (entryPath d name) fn h.1
        have herr := (findFiles_error entry (entryPath d name) fn).1
        rw [(readable_iff entry).1 h.1] at herr
        rcases hr : findFiles none entry (entryPath d name) fn with ⟨subFiles, err⟩
        rw [hr] at hlen herr
        simp only at herr hlen
        subst herr
        simp only
        rw [findFilesLoop_length rest d fn _ h.2, mergeSubFiles_length, hlen,
          List.filter_append, List.length_append]
        omega
    · have hfile := node_eq_file_of_not_isDir entry hdir
      subst hfile
      rw [readableList_file] at h
      rw [findFilesLoop_file, filePathsList_file, List.filter_cons]
      split
      · rw [findFilesLoop_length rest d fn _ h]
        simp only [List.length_append, List.length_cons, List.length_nil]
        omega
      · exact findFilesLoop_length rest d fn files h
end

/-- C18: for every tree whose reached directories are all readable and every predicate,
the list returned by `findFiles` has as many elements as there are files outside every
`node_modules` directory whose root-relative path satisfies the predicate; the merge of
a sub-directory's result gives a list of length `n + len(subFiles)`. -/
theorem findFiles_count (root : Node) (fn : GoString → Bool) (h : readable root = true) :
    (findFiles none root [] fn).2 = none
    ∧ (findFiles none root [] fn).1.length = ((filePaths root []).filter fn).length
    ∧ ∀ files subFiles : List GoString,
        (mergeSubFiles files subFiles).length = files.length + subFiles.length :=
  ⟨by rw [(findFiles_error root [] fn).1]; exact (readable_iff root).1 h,
    findFiles_length root [] fn h, mergeSubFiles_length⟩

/-- C18 at the example tree with the predicate "ends with .ts": two files are to be
reported and the returned list has two elements. -/
theorem findFiles_count_witness :
    readable exampleTree = true
    ∧ ((filePaths exampleTree []).filter endsWithTs).length = 2
    ∧ (findFiles none exampleTree [] endsWithTs).1.length
        = ((filePaths exampleTree []).filter endsWithTs).length :=
  ⟨by decide, by decide, (findFiles_count exampleTree endsWithTs (by decide)).2.1⟩

theorem findFilesLoop_flat (entries : List (GoString × Node)) (d : GoString)
    (fn : GoString → Bool) (files : List GoString) (h : flatEntries entries) :
    findFilesLoop entries d fn files
      = (files ++ ((fileNames entries).map (entryPath d)).filter fn, none) := by
  induction entries generalizing files with
  | nil =>
    rw [findFilesLoop_nil]
    simp [fileNames]
  | cons e rest ih =>
    obtain ⟨name, entry⟩ := e
    have hrest : flatEntries rest := fun x hx => h x (List.mem_cons_of_mem _ hx)
    rcases h (name, entry) (List.mem_cons_self _ _) with hf | ⟨hdir, hnm⟩
    · simp only at hf
      subst hf
      rw [findFilesLoop_file]
      have hn : fileNames ((name, Node.file) :: rest) = name :: fileNames rest := by
        simp [fileNames, Node.isDir]
      rw [hn, List.map_cons, List.filter_cons]
      split
      · rw [ih _ hrest, List.append_assoc]
        rfl
      · exact ih _ hrest
    · simp only at hdir hnm
      rw [findFilesLoop_dir _ _ _ _ _ _ hdir, if_pos hnm, ih _ hrest]
      have hn : fileNames ((name, entry) :: rest) = fileNames rest := by
        simp [fileNames, hdir]
      rw [hn]

/-- C19: for a directory whose entries are only files and directories named
`node_modules`, `findFiles(root, "", fn)` returns exactly the names of the files that
satisfy `fn`, in directory-read order; with a non-empty `dir` argument `d` the returned
paths are `d ++ "/" ++ name` for the files whose prefixed path satisfies `fn`. -/
theorem findFiles_flat (entries : List (GoString × Node)) (fn : GoString → Bool)
    (h : flatEntries entries) :
    findFiles none (.dir entries) [] fn = ((fileNames entries).filter fn, none)
    ∧ ∀ d : GoString, d ≠ [] →
        findFiles none (.dir entries) d fn
          = (((fileNames entries).map (fun name => d ++ str "/" ++ name)).filter fn, none) := by
  constructor
  · rw [findFiles, findFilesLoop_flat entries [] fn [] h, List.nil_append]
    have hm : (fileNames entries).map (entryPath []) = fileNames entries := by
      rw [List.map_congr_left (fun a _ => entryPath_nil a), List.map_id']
    rw [hm]
  · intro d hd
    rw [findFiles, findFilesLoop_flat entries d fn [] h, List.nil_append]
    have hm : (fileNames entries).map (entryPath d)
        = (fileNames entries).map (fun name => d ++ str "/" ++ name) := by
      refine List.map_congr_left (fun a _ => ?_)
      unfold entryPath
      rw [if_pos hd]
    rw [hm]

/-- C19 at a directory with the files `a.ts`, `b.js`, `c.ts` and an unreadable directory
`node_modules`, with the predicate "ends with .ts". -/
theorem findFiles_flat_witness :
    flatEntries [(str "a.ts", .file), (str "node_modules", .unreadable 13),
      (str "b.js", .file), (str "c.ts", .file)]
    ∧ findFiles none flatTree [] endsWithTs = ([str "a.ts", str "c.ts"], none)
    ∧ findFiles none flatTree (str "src") endsWithTs
        = ([str "src/a.ts", str "src/c.ts"], none) := by
  have hflat : flatEntries [(str "a.ts", .file), (str "node_modules", .unreadable 13),
      (str "b.js", .file), (str "c.ts", .file)] := by
    intro e he
    simp only [List.mem_cons, List.mem_singleton, List.not_mem_nil, or_false] at he
    rcases he with rfl | rfl | rfl | rfl
    · exact Or.inl rfl
    · exact Or.inr ⟨rfl, rfl⟩
    · exact Or.inl rfl
    · exact Or.inl rfl
  have h := findFiles_flat _ endsWithTs hflat
  refine ⟨hflat, ?_, ?_⟩
  · rw [flatTree, h.1]
    decide
  · rw [flatTree, h.2 (str "src") (by decide)]
    decide

/-! ## `filter`: theorems -/

theorem filterMem_take (a : List GoString) (fn : GoString → Bool) :
    ∀ k, k ≤ a.length →
      (List.range k).foldl (filterStep fn) ⟨a, List.replicate a.length [], 0⟩
        = ⟨a, (a.take k).filter fn
              ++ List.replicate (a.length - ((a.take k).filter fn).length) [],
            ((a.take k).filter fn).length⟩ := by
  intro k
  induction k with
  | zero => intro _; simp
  | succ k ih =>
    intro hk
    have hlt : k < a.length := by omega
    rw [List.range_succ, List.foldl_append, ih (by omega), List.foldl_cons, List.foldl_nil]
    have hget : a.getD k [] = a[k] := by
      rw [List.getD_eq_getElem?_getD, List.getElem?_eq_getElem hlt]
      rfl
    have htake : a.take (k + 1) = a.take k ++ [a[k]] := by
      rw [List.take_succ, List.getElem?_eq_getElem hlt]
      rfl
    have hcnt : ((a.take k).filter fn).length ≤ k := by
      refine le_trans (List.length_filter_le _ _) ?_
      rw [List.length_take]
      omega
    unfold filterStep
    simp only [hget]
    by_cases hfn : fn a[k] = true
    · rw [if_pos hfn, htake, List.filter_append]
      have hone : List.filter fn [a[k]] = [a[k]] := by simp [hfn]
      rw [hone]
      obtain ⟨m, hm⟩ : ∃ m, a.length - ((a.take k).filter fn).length = m + 1 :=
        ⟨a.length - ((a.take k).filter fn).length - 1, by omega⟩
      simp only [FilterMem.mk.injEq, true_and]
      constructor
      · rw [hm, List.set_append_right _ _ (le_refl _), Nat.sub_self, List.replicate_succ,
          List.set_cons_zero, List.length_append, List.length_singleton]
        have hm2 : a.length - (((a.take k).filter fn).length + 1) = m := by omega
        rw [hm2, List.append_assoc]
        rfl
      · rw [List.length_append, List.length_singleton]
    · rw [if_neg hfn, htake, List.filter_append]
      have hone : List.filter fn [a[k]] = [] := by simp [hfn]
      rw [hone, List.append_nil]

theorem filterMem_eq (a : List GoString) (fn : GoString → Bool) :
    filterMem a fn
      = ⟨a, a.filter fn ++ List.replicate (a.length - (a.filter fn).length) [],
          (a.filter fn).length⟩ := by
  unfold filterMem
  rw [filterMem_take a fn a.length (le_refl _), List.take_length]

theorem filter_eq (a : List GoString) (fn : GoString → Bool) : filter a fn = a.filter fn := by
  unfold filter
  split
  · rename_i h
    rw [List.length_eq_zero.1 h]
    rfl
  · rw [filterMem_eq]
    simp only []
    rw [List.take_left]

/-- C17: `filter a fn` is the list of the elements of `a` that satisfy `fn`, in their
order and with their multiplicities; on an empty (or nil) input the result is empty
(nil); the loop leaves the slice `a` as it was. -/
theorem filter_spec (a : List GoString) (fn : GoString → Bool) :
    filter a fn = a.filter fn
    ∧ filter [] fn = []
    ∧ (filterMem a fn).a = a := by
  refine ⟨filter_eq a fn, rfl, ?_⟩
  rw [filterMem_eq]

/-! ## URL-safe base64 codec: decode errors -/

theorem atobUrl_eq (s : GoString) :
    atobUrl s =
      match decodeString (repad s) with
      | (_, some e) => ([], some e)
      | (data, none) => (data, none) := rfl

theorem isURLSafe_of_decodeMap (c : Nat) (h : decodeMap c ≠ 0xff) : isURLSafe c = true := by
  unfold decodeMap at h
  by_cases hi : List.indexOf c encodeURL < 64
  · have hmem : c ∈ encodeURL := List.indexOf_lt_length.1 hi
    have hall : ∀ x ∈ encodeURL, isURLSafe x = true := by decide
    exact hall c hmem
  · rw [if_neg hi] at h
    exact absurd rfl h

theorem decodePadding_ok (srcLen : Nat) (rest : GoString) (si j : Nat) (dbuf : List Nat)
    (h : (decodePadding srcLen rest si j dbuf).err = none) :
    (decodePadding srcLen rest si j dbuf).rest = []
      ∧ ∀ c ∈ rest, c = padChar ∨ isNewline c = true := by
  unfold decodePadding at h ⊢
  by_cases hj : j < 2
  · rw [if_pos hj] at h
    exact absurd h (by simp)
  · rw [if_neg hj] at h ⊢
    simp only at h ⊢
    by_cases hj2 : j = 2
    · rw [if_pos hj2] at h ⊢
      have hsplit := List.takeWhile_append_dropWhile isNewline rest
      generalize ht : List.dropWhile isNewline rest = tw at h hsplit ⊢
      cases tw with
      | nil => exact absurd h (by simp)
      | cons c tail =>
        simp only at h ⊢
        by_cases hc : c ≠ padChar
        · rw [if_pos hc] at h
          exact absurd h (by simp)
        · rw [if_neg hc] at h ⊢
          rw [not_not] at hc
          simp only at h ⊢
          by_cases ht2 : List.dropWhile isNewline tail = []
          · refine ⟨ht2, fun x hx => ?_⟩
            rw [← hsplit] at hx
            rcases List.mem_append.1 hx with hx | hx
            · exact Or.inr (List.mem_takeWhile_imp hx)
            · rcases List.mem_cons.1 hx with hx | hx
              · exact Or.inl (hx.trans hc)
              · exact Or.inr ((List.dropWhile_eq_nil_iff.1 ht2) x hx)
          · rw [if_neg ht2] at h
            exact absurd h (by simp)
    · rw [if_neg hj2] at h ⊢
      simp only at h ⊢
      by_cases ht2 : List.dropWhile isNewline rest = []
      · exact ⟨ht2, fun x hx => Or.inr ((List.dropWhile_eq_nil_iff.1 ht2) x hx)⟩
      · rw [if_neg ht2] at h
        exact absurd h (by simp)

theorem decodeQuantumLoop_ok (srcLen : Nat) (rest : GoString) :
    ∀ (si j : Nat) (dbuf : List Nat),
      (decodeQuantumLoop srcLen rest si j dbuf).err = none →
      ∃ A B, rest = A ++ B ++ (decodeQuantumLoop srcLen rest si j dbuf).rest
        ∧ (∀ c ∈ A, isURLSafe c = true ∨ isNewline c = true)
        ∧ (∀ c ∈ B, c = padChar ∨ isNewline c = true)
        ∧ (B ≠ [] → (decodeQuantumLoop srcLen rest si j dbuf).rest = [])
        ∧ (j < 4 → rest ≠ [] →
            (decodeQuantumLoop srcLen rest si j dbuf).rest.length < rest.length) := by
  induction rest with
  | nil =>
    intro si j dbuf _
    have hr : (decodeQuantumLoop srcLen [] si j dbuf).rest = [] := by
      rw [decodeQuantumLoop]
      split
      · rfl
      · split <;> rfl
    rw [hr]
    exact ⟨[], [], rfl, by simp, by simp, fun _ => rfl, fun _ h => absurd rfl h⟩
  | cons c r ih =>
    intro si j dbuf h
    rw [decodeQuantumLoop] at h ⊢
    by_cases hj : 4 ≤ j
    · rw [if_pos hj]
      exact ⟨[], [], rfl, by simp, by simp, fun hb => absurd rfl hb, fun hj4 => by omega⟩
    · rw [if_neg hj] at h ⊢
      by_cases hm : decodeMap c ≠ 0xff
      · rw [if_pos hm] at h ⊢
        obtain ⟨A, B, he, hA, hB, hBr, -⟩ := ih (si + 1) (j + 1) (dbuf ++ [decodeMap c]) h
        refine ⟨c :: A, B, ?_, ?_, hB, hBr, fun _ _ => ?_⟩
        · rw [List.cons_append, List.cons_append, ← he]
        · intro x hx
          rcases List.mem_cons.1 hx with hx | hx
          · exact Or.inl (hx ▸ isURLSafe_of_decodeMap c hm)
          · exact hA x hx
        · have hl := congrArg List.length he
          simp only [List.length_append, List.length_cons] at hl ⊢
          omega
      · rw [if_neg hm] at h ⊢
        by_cases hn : isNewline c = true
        · rw [if_pos hn] at h ⊢
          obtain ⟨A, B, he, hA, hB, hBr, -⟩ := ih (si + 1) j dbuf h
          refine ⟨c :: A, B, ?_, ?_, hB, hBr, fun _ _ => ?_⟩
          · rw [List.cons_append, List.cons_append, ← he]
          · intro x hx
            rcases List.mem_cons.1 hx with hx | hx
            · exact Or.inr (hx ▸ hn)
            · exact hA x hx
          · have hl := congrArg List.length he
            simp only [List.length_append, List.length_cons] at hl ⊢
            omega
        · rw [if_neg hn] at h ⊢
          by_cases hp : c ≠ padChar
          · rw [if_pos hp] at h
            exact absurd h (by simp)
          · rw [if_neg hp] at h ⊢
            rw [not_not] at hp
            obtain ⟨hr, hall⟩ := decodePadding_ok srcLen r (si + 1) j dbuf h
            rw [hr]
            refine ⟨[], c :: r, by simp, by simp, ?_, fun _ => rfl, fun _ _ => by simp⟩
            intro x hx
            rcases List.mem_cons.1 hx with hx | hx
            · exact Or.inl (hx.trans hp)
            · exact hall x hx

theorem decodeLoop_ok_form (srcLen : Nat) :
    ∀ (fuel : Nat) (rest : GoString) (si : Nat) (acc : GoString),
      rest.length ≤ fuel → (decodeLoop srcLen fuel rest si acc).2 = none →
      ∃ A B, rest = A ++ B
        ∧ (∀ c ∈ A, isURLSafe c = true ∨ isNewline c = true)
        ∧ (∀ c ∈ B, c = padChar ∨ isNewline c = true) := by
  intro fuel
  induction fuel with
  | zero =>
    intro rest si acc hl _
    have hr : rest = [] := List.length_eq_zero.1 (by omega)
    exact ⟨[], [], by rw [hr]; rfl, by simp, by simp⟩
  | succ fuel ih =>
    intro rest si acc hl h
    rw [decodeLoop] at h
    by_cases hr : rest = []
    · exact ⟨[], [], by rw [hr]; rfl, by simp, by simp⟩
    · rw [if_neg hr] at h
      simp only at h
      cases hq : (decodeQuantum srcLen rest si).err with
      | some e =>
        rw [hq] at h
        exact absurd h (by simp)
      | none =>
        rw [hq] at h
        simp only at h
        unfold decodeQuantum at hq h
        obtain ⟨A, B, he, hA, hB, hBr, hlt⟩ := decodeQuantumLoop_ok srcLen rest si 0 [] hq
        have hlt2 := hlt (by omega) hr
        obtain ⟨A2, B2, he2, hA2, hB2⟩ := ih _ _ _ (by omega) h
        by_cases hb : B = []
        · subst hb
          refine ⟨A ++ A2, B2, ?_, ?_, hB2⟩
          · rw [he, he2]
            simp
          · intro x hx
            rcases List.mem_append.1 hx with hx | hx
            · exact hA x hx
            · exact hA2 x hx
        · refine ⟨A, B, ?_, hA, hB⟩
          rw [he, hBr hb, List.append_nil]

theorem decodeString_ok_form (s : GoString) (h : (decodeString s).2 = none) :
    ∃ A B, s = A ++ B
      ∧ (∀ c ∈ A, isURLSafe c = true ∨ isNewline c = true)
      ∧ (∀ c ∈ B, c = padChar ∨ isNewline c = true) :=
  decodeLoop_ok_form s.length s.length s 0 [] (le_refl _) h

theorem atobUrl_of_decode_error (s : GoString) (h : (decodeString (repad s)).2 ≠ none) :
    ∃ e, atobUrl s = ([], some e) := by
  rw [atobUrl_eq]
  rcases hd : decodeString (repad s) with ⟨data, err⟩
  rw [hd] at h
  cases err with
  | none => exact absurd rfl h
  | some e => exact ⟨e, rfl⟩

/-- C15, as stated, fails for line breaks: the string `aGVs` followed by four line feeds
has length 8, is not re-padded and holds the byte 10, which is neither a character of
the URL-safe alphabet nor `=`; yet `atobUrl` returns `hel` and no error. -/
theorem atobUrl_accepts_newline :
    ¬ (∀ s : GoString, (∃ c ∈ repad s, isURLSafe c = false ∧ c ≠ padChar) →
        ∃ e, atobUrl s = ([], some e)) := by
  intro h
  obtain ⟨e, he⟩ := h (str "aGVs" ++ [10, 10, 10, 10]) ⟨10, by decide, by decide, by decide⟩
  have hv : atobUrl (str "aGVs" ++ [10, 10, 10, 10]) = (str "hel", none) := by decide
  rw [hv] at he
  exact absurd (congrArg Prod.snd he) (by simp)

/-- C15, amended: when the re-padded input holds a byte that is neither a character of
the URL-safe alphabet, nor `=`, nor a carriage return or line feed, or holds a `=`
followed somewhere by a character of the alphabet, `atobUrl` returns an error together
with the empty string. -/
theorem atobUrl_rejects (s : GoString)
    (h : (∃ c ∈ repad s, isURLSafe c = false ∧ c ≠ padChar ∧ isNewline c = false)
      ∨ (∃ pre post c, repad s = pre ++ padChar :: post ∧ c ∈ post ∧ isURLSafe c = true)) :
    ∃ e, atobUrl s = ([], some e) := by
  refine atobUrl_of_decode_error s (fun hok => ?_)
  obtain ⟨A, B, he, hA, hB⟩ := decodeString_ok_form (repad s) hok
  have hpadA : padChar ∉ A := by
    intro hm
    rcases hA padChar hm with h1 | h1
    · exact absurd h1 (by decide)
    · exact absurd h1 (by decide)
  have hsafeB : ∀ c ∈ B, isURLSafe c = false := by
    intro c hc
    rcases hB c hc with h1 | h1
    · rw [h1]
      decide
    · unfold isNewline at h1
      simp only [Bool.or_eq_true, beq_iff_eq] at h1
      rcases h1 with h1 | h1 <;> rw [h1] <;> decide
  rcases h with ⟨c, hc, hs, hp, hn⟩ | ⟨pre, post, c, hpost, hc, hs⟩
  · rw [he] at hc
    rcases List.mem_append.1 hc with hc | hc
    · rcases hA c hc with h1 | h1
      · rw [h1] at hs
        exact absurd hs (by decide)
      · rw [h1] at hn
        exact absurd hn (by decide)
    · rcases hB c hc with h1 | h1
      · exact hp h1
      · rw [h1] at hn
        exact absurd hn (by decide)
  · have hcB : c ∈ B := by
      rw [he] at hpost
      rcases List.append_eq_append_iff.1 hpost with ⟨a', -, h2⟩ | ⟨c', h1, h2⟩
      · rw [h2]
        exact List.mem_append_right _ (List.mem_cons_of_mem _ hc)
      · cases c' with
        | nil =>
          rw [List.nil_append] at h2
          rw [← h2]
          exact List.mem_cons_of_mem _ hc
        | cons x c' =>
          rw [List.cons_append] at h2
          have hx : padChar = x := (List.cons.inj h2).1
          exact absurd (by rw [h1, hx]; simp) hpadA
    have := hsafeB c hcB
    rw [hs] at this
    exact absurd this (by decide)

/-- C15, amended, at the inputs `aG+s` (the byte `+` is outside the alphabet) and
`aG=s` (a `=` before the character `s`). -/
theorem atobUrl_rejects_witness :
    (∃ e, atobUrl (str "aG+s") = ([], some e)) ∧ (∃ e, atobUrl (str "aG=s") = ([], some e))
    ∧ atobUrl (str "aG+s") = ([], some 2) :=
  ⟨atobUrl_rejects (str "aG+s") (Or.inl ⟨43, by decide, by decide, by decide, by decide⟩),
    atobUrl_rejects (str "aG=s")
      (Or.inr ⟨str "aG", str "s", 115, by decide, by decide, by decide⟩),
    by decide⟩

/-! ## Regular expressions: lemmas on the matcher -/

theorem starRun_consumes (K : Nat → Prop) (f : MState → List MState)
    (hf : ∀ s t, t ∈ f s → ∃ T, s.rest = T ++ t.rest ∧ (∀ c ∈ T, K c)
      ∧ t.pos = s.pos + T.length) :
    ∀ (fuel : Nat) (s t : MState), t ∈ starRun f fuel s →
      ∃ T, s.rest = T ++ t.rest ∧ (∀ c ∈ T, K c) ∧ t.pos = s.pos + T.length := by
  intro fuel
  induction fuel with
  | zero =>
    intro s t ht
    rw [starRun, List.mem_singleton] at ht
    subst ht
    exact ⟨[], rfl, by simp, rfl⟩
  | succ fuel ih =>
    intro s t ht
    rw [starRun, List.mem_append] at ht
    rcases ht with ht | ht
    · rw [List.mem_flatMap] at ht
      obtain ⟨u, hu, htu⟩ := ht
      obtain ⟨T1, h1, hk1, hp1⟩ := hf s u (List.mem_of_mem_filter hu)
      obtain ⟨T2, h2, hk2, hp2⟩ := ih u t htu
      refine ⟨T1 ++ T2, ?_, ?_, ?_⟩
      · rw [h1, h2, List.append_assoc]
      · intro c hc
        rcases List.mem_append.1 hc with hc | hc
        · exact hk1 c hc
        · exact hk2 c hc
      · rw [hp2, hp1, List.length_append, Nat.add_assoc]
    · rw [List.mem_singleton] at ht
      subst ht
      exact ⟨[], rfl, by simp, rfl⟩

theorem run_consumes (K : Nat → Prop) (r : Regex) (hr : r.within K) :
    ∀ (s t : MState), t ∈ r.run s →
      ∃ T, s.rest = T ++ t.rest ∧ (∀ c ∈ T, K c) ∧ t.pos = s.pos + T.length := by
  induction r with
  | cls ranges =>
    intro s t ht
    rw [Regex.run] at ht
    cases hs : s.rest with
    | nil =>
      rw [hs] at ht
      exact absurd ht (List.not_mem_nil _)
    | cons c rest =>
      rw [hs] at ht
      simp only at ht
      by_cases hc : inClass ranges c = true
      · rw [if_pos hc, List.mem_singleton] at ht
        subst ht
        refine ⟨[c], rfl, ?_, rfl⟩
        intro x hx
        rw [List.mem_singleton.1 hx]
        exact hr c hc
      · rw [if_neg hc] at ht
        exact absurd ht (List.not_mem_nil _)
  | eps =>
    intro s t ht
    rw [Regex.run, List.mem_singleton] at ht
    subst ht
    exact ⟨[], rfl, by simp, rfl⟩
  | bot =>
    intro s t ht
    rw [Regex.run] at ht
    split at ht
    · rw [List.mem_singleton] at ht
      subst ht
      exact ⟨[], rfl, by simp, rfl⟩
    · exact absurd ht (List.not_mem_nil _)
  | eot =>
    intro s t ht
    rw [Regex.run] at ht
    split at ht
    · rw [List.mem_singleton] at ht
      subst ht
      exact ⟨[], rfl, by simp, rfl⟩
    · exact absurd ht (List.not_mem_nil _)
  | cat r q ihr ihq =>
    intro s t ht
    rw [Regex.run, List.mem_flatMap] at ht
    obtain ⟨u, hu, htu⟩ := ht
    obtain ⟨T1, h1, hk1, hp1⟩ := ihr hr.1 s u hu
    obtain ⟨T2, h2, hk2, hp2⟩ := ihq hr.2 u t htu
    refine ⟨T1 ++ T2, ?_, ?_, ?_⟩
    · rw [h1, h2, List.append_assoc]
    · intro c hc
      rcases List.mem_append.1 hc with hc | hc
      · exact hk1 c hc
      · exact hk2 c hc
    · rw [hp2, hp1, List.length_append, Nat.add_assoc]
  | alt r q ihr ihq =>
    intro s t ht
    rw [Regex.run, List.mem_append] at ht
    rcases ht with ht | ht
    · exact ihr hr.1 s t ht
    · exact ihq hr.2 s t ht
  | star r ih =>
    intro s t ht
    rw [Regex.run] at ht
    exact starRun_consumes K r.run (ih hr) _ s t ht
  | group i r ih =>
    intro s t ht
    rw [Regex.run, List.mem_map] at ht
    obtain ⟨u, hu, rfl⟩ := ht
    exact ih hr s u hu

theorem within_true (r : Regex) : r.within (fun _ => True) := by
  induction r with
  | cls ranges => exact fun _ _ => trivial
  | eps => trivial
  | bot => trivial
  | eot => trivial
  | cat r q ihr ihq => exact ⟨ihr, ihq⟩
  | alt r q ihr ihq => exact ⟨ihr, ihq⟩
  | star r ih => exact ih
  | group i r ih => exact ih

theorem run_pos_le (r : Regex) (s t : MState) (h : t ∈ r.run s) : s.pos ≤ t.pos := by
  obtain ⟨T, -, -, hp⟩ := run_consumes (fun _ => True) r (within_true r) s t h
  omega

theorem head_flatMap {α β : Type} (l : List α) (f : α → List β) (a : α) (b : β)
    (hl : l.head? = some a) (hf : (f a).head? = some b) : (l.flatMap f).head? = some b := by
  cases l with
  | nil => exact absurd hl (by simp)
  | cons x l =>
    have hx : x = a := by simpa using hl
    subst hx
    rw [List.flatMap_cons, List.head?_append, hf]
    rfl

theorem run_cat_head (r q : Regex) (s t u : MState) (h1 : (r.run s).head? = some t)
    (h2 : (q.run t).head? = some u) : ((Regex.cat r q).run s).head? = some u := by
  rw [Regex.run]
  exact head_flatMap _ _ t u h1 h2

theorem run_alt_head_left (r q : Regex) (s t : MState) (h : (r.run s).head? = some t) :
    ((Regex.alt r q).run s).head? = some t := by
  rw [Regex.run, List.head?_append, h]
  rfl

theorem run_alt_head_right (r q : Regex) (s : MState) (h : r.run s = []) :
    ((Regex.alt r q).run s).head? = (q.run s).head? := by
  rw [Regex.run, h, List.nil_append]

theorem run_group_head (i : Nat) (r : Regex) (s t : MState) (h : (r.run s).head? = some t) :
    ((Regex.group i r).run s).head?
      = some { t with caps := t.caps.set i (some (s.pos, t.pos)) } := by
  rw [Regex.run, List.head?_map, h]
  rfl

theorem run_cls_cons (ranges : List (Nat × Nat)) (pos c : Nat) (rest : GoString)
    (caps : List (Option (Nat × Nat))) (h : inClass ranges c = true) :
    (Regex.cls ranges).run ⟨pos, c :: rest, caps⟩ = [⟨pos + 1, rest, caps⟩] := by
  rw [Regex.run]
  simp only [h, if_true]

theorem run_cls_nil (ranges : List (Nat × Nat)) (pos : Nat)
    (caps : List (Option (Nat × Nat))) : (Regex.cls ranges).run ⟨pos, [], caps⟩ = [] := by
  rw [Regex.run]

theorem run_cls_not (ranges : List (Nat × Nat)) (pos c : Nat) (rest : GoString)
    (caps : List (Option (Nat × Nat))) (h : inClass ranges c = false) :
    (Regex.cls ranges).run ⟨pos, c :: rest, caps⟩ = [] := by
  rw [Regex.run]
  simp [h]

theorem run_cat_nil (r q : Regex) (s : MState) (h : ∀ t ∈ r.run s, q.run t = []) :
    (Regex.cat r q).run s = [] := by
  rw [Regex.run, List.flatMap_eq_nil_iff]
  exact h

theorem run_group_nil (i : Nat) (r : Regex) (s : MState) (h : r.run s = []) :
    (Regex.group i r).run s = [] := by
  rw [Regex.run, h]
  rfl

theorem inClass_chr (c : Char) (x : Nat) : inClass [(c.toNat, c.toNat)] x = true ↔ x = c.toNat := by
  unfold inClass
  simp only [List.any_cons, List.any_nil, Bool.or_false, Bool.and_eq_true, decide_eq_true_eq]
  omega

theorem starRun_cls_head (ranges : List (Nat × Nat)) (caps : List (Option (Nat × Nat)))
    (ys : GoString) (hy : ∀ y ys', ys = y :: ys' → inClass ranges y = false) :
    ∀ (xs : GoString) (pos fuel : Nat), (∀ c ∈ xs, inClass ranges c = true) →
      xs.length ≤ fuel →
      (starRun (Regex.cls ranges).run fuel ⟨pos, xs ++ ys, caps⟩).head?
        = some ⟨pos + xs.length, ys, caps⟩ := by
  intro xs
  induction xs with
  | nil =>
    intro pos fuel _ _
    cases fuel with
    | zero => rfl
    | succ fuel =>
      rw [starRun]
      have hnil : (Regex.cls ranges).run ⟨pos, [] ++ ys, caps⟩ = [] := by
        cases ys with
        | nil => exact run_cls_nil _ _ _
        | cons y ys' => exact run_cls_not _ _ _ _ _ (hy y ys' rfl)
      rw [hnil]
      rfl
  | cons x xs ih =>
    intro pos fuel hx hl
    obtain ⟨f, rfl⟩ : ∃ f, fuel = f + 1 := ⟨fuel - 1, by simp at hl; omega⟩
    rw [starRun, List.cons_append,
      run_cls_cons _ _ _ _ _ (hx x (List.mem_cons_self _ _))]
    have hfil : List.filter
        (fun t : MState => decide (t.rest.length < (MState.mk pos (x :: (xs ++ ys)) caps).rest.length))
        [⟨pos + 1, xs ++ ys, caps⟩] = [⟨pos + 1, xs ++ ys, caps⟩] := by
      simp
    rw [hfil, List.flatMap_cons, List.flatMap_nil, List.append_nil, List.head?_append,
      ih (pos + 1) f (fun c hc => hx c (List.mem_cons_of_mem _ hc))
        (by simp at hl; omega)]
    have key : pos + 1 + xs.length = pos + (x :: xs).length := by
      rw [List.length_cons]
      omega
    rw [key]
    rfl

theorem run_star_cls_head (ranges : List (Nat × Nat)) (caps : List (Option (Nat × Nat)))
    (xs ys : GoString) (pos : Nat) (hx : ∀ c ∈ xs, inClass ranges c = true)
    (hy : ∀ y ys', ys = y :: ys' → inClass ranges y = false) :
    ((Regex.star (.cls ranges)).run ⟨pos, xs ++ ys, caps⟩).head?
      = some ⟨pos + xs.length, ys, caps⟩ := by
  rw [Regex.run]
  exact starRun_cls_head ranges caps ys hy xs pos _ hx (by simp)

theorem run_plus_cls_head (ranges : List (Nat × Nat)) (caps : List (Option (Nat × Nat)))
    (xs ys : GoString) (pos : Nat) (hne : xs ≠ []) (hx : ∀ c ∈ xs, inClass ranges c = true)
    (hy : ∀ y ys', ys = y :: ys' → inClass ranges y = false) :
    ((Regex.plus (.cls ranges)).run ⟨pos, xs ++ ys, caps⟩).head?
      = some ⟨pos + xs.length, ys, caps⟩ := by
  cases xs with
  | nil => exact absurd rfl hne
  | cons x xs =>
    unfold Regex.plus
    refine run_cat_head _ _ _ ⟨pos + 1, xs ++ ys, caps⟩ _ ?_ ?_
    · rw [List.cons_append, run_cls_cons _ _ _ _ _ (hx x (List.mem_cons_self _ _))]
      rfl
    · rw [run_star_cls_head ranges caps xs ys (pos + 1)
        (fun c hc => hx c (List.mem_cons_of_mem _ hc)) hy]
      simp only [List.length_cons]
      congr 2
      omega

theorem run_chr_cons (c : Char) (pos : Nat) (rest : GoString)
    (caps : List (Option (Nat × Nat))) :
    (Regex.chr c).run ⟨pos, c.toNat :: rest, caps⟩ = [⟨pos + 1, rest, caps⟩] :=
  run_cls_cons _ _ _ _ _ ((inClass_chr c _).2 rfl)

theorem run_chr_not (c : Char) (pos x : Nat) (rest : GoString)
    (caps : List (Option (Nat × Nat))) (h : x ≠ c.toNat) :
    (Regex.chr c).run ⟨pos, x :: rest, caps⟩ = [] := by
  refine run_cls_not _ _ _ _ _ ?_
  rw [Bool.eq_false_iff, Ne, inClass_chr]
  exact h

theorem run_chr_nil (c : Char) (pos : Nat) (caps : List (Option (Nat × Nat))) :
    (Regex.chr c).run ⟨pos, [], caps⟩ = [] :=
  run_cls_nil _ _ _

theorem run_rep_cls (ranges : List (Nat × Nat)) (caps : List (Option (Nat × Nat)))
    (ys : GoString) :
    ∀ (xs : GoString) (pos : Nat), (∀ c ∈ xs, inClass ranges c = true) →
      (Regex.rep (.cls ranges) xs.length).run ⟨pos, xs ++ ys, caps⟩
        = [⟨pos + xs.length, ys, caps⟩] := by
  intro xs
  induction xs with
  | nil =>
    intro pos _
    rfl
  | cons x xs ih =>
    intro pos hx
    rw [List.length_cons, Regex.rep, Regex.run, List.cons_append,
      run_cls_cons _ _ _ _ _ (hx x (List.mem_cons_self _ _)), List.flatMap_cons,
      List.flatMap_nil, List.append_nil, ih (pos + 1) (fun c hc => hx c (List.mem_cons_of_mem _ hc))]
    congr 2
    omega

theorem findFrom_hit (r : Regex) (groups pos : Nat) (s : GoString) (t : MState)
    (h : (r.run ⟨pos, s, List.replicate groups none⟩).head? = some t) :
    r.findFrom groups pos s = some (pos, t) := by
  cases hr : r.run ⟨pos, s, List.replicate groups none⟩ with
  | nil =>
    rw [hr] at h
    exact absurd h (by simp)
  | cons t1 tl =>
    rw [hr] at h
    have ht : t1 = t := by simpa using h
    subst ht
    cases s with
    | nil => rw [Regex.findFrom, hr]
    | cons c rest => rw [Regex.findFrom, hr]

theorem findFrom_skip (r : Regex) (groups pos c : Nat) (rest : GoString)
    (h : r.run ⟨pos, c :: rest, List.replicate groups none⟩ = []) :
    r.findFrom groups pos (c :: rest) = r.findFrom groups (pos + 1) rest := by
  rw [Regex.findFrom, h]

theorem findFrom_nil_none (r : Regex) (groups pos : Nat)
    (h : r.run ⟨pos, [], List.replicate groups none⟩ = []) :
    r.findFrom groups pos [] = none := by
  rw [Regex.findFrom, h]

theorem findFrom_some_iff (r : Regex) (groups : Nat) :
    ∀ (s : GoString) (pos : Nat),
      (r.findFrom groups pos s).isSome = true ↔
        ∃ k, k ≤ s.length ∧ r.run ⟨pos + k, s.drop k, List.replicate groups none⟩ ≠ [] := by
  intro s
  induction s with
  | nil =>
    intro pos
    rw [Regex.findFrom]
    cases hr : r.run ⟨pos, [], List.replicate groups none⟩ with
    | nil =>
      simp only [Option.isSome_none, Bool.false_eq_true, false_iff, not_exists, not_and]
      intro k hk
      have hk0 : k = 0 := by simpa using hk
      subst hk0
      simpa using hr
    | cons t tl =>
      simp only [Option.isSome_some, true_iff]
      exact ⟨0, le_refl _, by simpa using (by rw [hr]; simp)⟩
  | cons c rest ih =>
    intro pos
    rw [Regex.findFrom]
    cases hr : r.run ⟨pos, c :: rest, List.replicate groups none⟩ with
    | nil =>
      simp only
      rw [ih (pos + 1)]
      constructor
      · rintro ⟨k, hk, hne⟩
        refine ⟨k + 1, by simp; omega, ?_⟩
        rw [List.drop_succ_cons]
        have hp : pos + (k + 1) = pos + 1 + k := by omega
        rw [hp]
        exact hne
      · rintro ⟨k, hk, hne⟩
        cases k with
        | zero =>
          rw [Nat.add_zero, List.drop_zero] at hne
          exact absurd hr hne
        | succ k =>
          refine ⟨k, by simp at hk; omega, ?_⟩
          rw [List.drop_succ_cons] at hne
          have hp : pos + (k + 1) = pos + 1 + k := by omega
          rw [hp] at hne
          exact hne
    | cons t tl =>
      simp only [Option.isSome_some, true_iff]
      refine ⟨0, Nat.zero_le _, ?_⟩
      rw [Nat.add_zero, List.drop_zero, hr]
      simp

theorem matchString_iff (r : Regex) (s : GoString) :
    r.matchString s = true ↔ ∃ i, r.matchesAt s i = true := by
  unfold Regex.matchString Regex.matchesAt
  rw [findFrom_some_iff]
  constructor
  · rintro ⟨k, hk, hne⟩
    refine ⟨k, ?_⟩
    rw [Nat.zero_add] at hne
    rw [Bool.and_eq_true, decide_eq_true_eq, Bool.not_eq_true', List.isEmpty_eq_false]
    exact ⟨hk, hne⟩
  · rintro ⟨i, hi⟩
    rw [Bool.and_eq_true, decide_eq_true_eq, Bool.not_eq_true', List.isEmpty_eq_false] at hi
    refine ⟨i, hi.1, ?_⟩
    rw [Nat.zero_add]
    exact hi.2

theorem mem_run_cat (r q : Regex) (s t : MState) :
    t ∈ (Regex.cat r q).run s ↔ ∃ u, u ∈ r.run s ∧ t ∈ q.run u := by
  rw [Regex.run, List.mem_flatMap]

theorem mem_run_alt (r q : Regex) (s t : MState) :
    t ∈ (Regex.alt r q).run s ↔ t ∈ r.run s ∨ t ∈ q.run s := by
  rw [Regex.run, List.mem_append]

theorem mem_run_group (i : Nat) (r : Regex) (s t : MState) :
    t ∈ (Regex.group i r).run s ↔
      ∃ u, u ∈ r.run s ∧ t = { u with caps := u.caps.set i (some (s.pos, u.pos)) } := by
  rw [Regex.run, List.mem_map]
  constructor
  · rintro ⟨u, hu, rfl⟩
    exact ⟨u, hu, rfl⟩
  · rintro ⟨u, hu, rfl⟩
    exact ⟨u, hu, rfl⟩

theorem mem_run_cls (ranges : List (Nat × Nat)) (s t : MState) :
    t ∈ (Regex.cls ranges).run s ↔
      ∃ c rest, s.rest = c :: rest ∧ inClass ranges c = true ∧ t = ⟨s.pos + 1, rest, s.caps⟩ := by
  rw [Regex.run]
  cases hs : s.rest with
  | nil => simp
  | cons c rest =>
    simp only
    by_cases hc : inClass ranges c = true
    · rw [if_pos hc, List.mem_singleton]
      constructor
      · rintro rfl
        exact ⟨c, rest, rfl, hc, rfl⟩
      · rintro ⟨c1, rest1, h1, -, rfl⟩
        obtain ⟨rfl, rfl⟩ := List.cons.inj h1
        rfl
    · rw [if_neg hc]
      simp only [List.not_mem_nil, false_iff, not_exists, not_and]
      intro c1 rest1 h1 h2
      obtain ⟨rfl, rfl⟩ := List.cons.inj h1
      exact absurd h2 hc

theorem mem_run_chr (ch : Char) (s t : MState) :
    t ∈ (Regex.chr ch).run s ↔
      ∃ rest, s.rest = ch.toNat :: rest ∧ t = ⟨s.pos + 1, rest, s.caps⟩ := by
  unfold Regex.chr
  rw [mem_run_cls]
  constructor
  · rintro ⟨c, rest, h1, h2, h3⟩
    rw [inClass_chr] at h2
    subst h2
    exact ⟨rest, h1, h3⟩
  · rintro ⟨rest, h1, h3⟩
    exact ⟨ch.toNat, rest, h1, (inClass_chr ch _).2 rfl, h3⟩

theorem mem_run_eot (s t : MState) : t ∈ Regex.eot.run s ↔ s.rest = [] ∧ t = s := by
  rw [Regex.run]
  by_cases h : s.rest = []
  · rw [if_pos h, List.mem_singleton]
    exact ⟨fun ht => ⟨h, ht⟩, fun ht => ht.2⟩
  · rw [if_neg h]
    simp [h]

theorem run_cat_cls_pos (ranges : List (Nat × Nat)) (q : Regex) (s t : MState)
    (h : t ∈ (Regex.cat (.cls ranges) q).run s) : s.pos < t.pos := by
  obtain ⟨u, hu, ht⟩ := (mem_run_cat _ _ _ _).1 h
  obtain ⟨c, rest, -, -, rfl⟩ := (mem_run_cls _ _ _).1 hu
  have := run_pos_le q _ t ht
  simp only at this
  omega

theorem inClass_word_range (c : Nat) (h : inClass clsWord c = true) :
    inClass clsRange c = true := by
  unfold inClass clsWord at h
  unfold inClass clsRange clsWord
  simp only [List.any_cons, List.any_nil, List.cons_append, List.nil_append, Bool.or_false,
    Bool.or_eq_true, Bool.and_eq_true, decide_eq_true_eq] at h ⊢
  omega

theorem inClass_digit_range (c : Nat) (h : inClass clsDigit c = true) :
    inClass clsRange c = true := by
  unfold inClass clsDigit at h
  unfold inClass clsRange clsWord
  simp only [List.any_cons, List.any_nil, List.cons_append, List.nil_append, Bool.or_false,
    Bool.or_eq_true, Bool.and_eq_true, decide_eq_true_eq] at h ⊢
  omega

theorem inClass_tail_range (c : Nat) (h : inClass clsVersionTail c = true) :
    inClass clsRange c = true := by
  unfold inClass clsVersionTail clsWord at h
  unfold inClass clsRange clsWord
  simp only [List.any_cons, List.any_nil, List.cons_append, List.nil_append, Bool.or_false,
    Bool.or_eq_true, Bool.and_eq_true, decide_eq_true_eq] at h ⊢
  omega

theorem inClass_hex_range (c : Nat) (h : inClass clsHex c = true) :
    inClass clsRange c = true := by
  unfold inClass clsHex at h
  unfold inClass clsRange clsWord
  simp only [List.any_cons, List.any_nil, List.cons_append, List.nil_append, Bool.or_false,
    Bool.or_eq_true, Bool.and_eq_true, decide_eq_true_eq] at h ⊢
  omega

theorem inClass_chr_range (ch : Char) (hch : inClass clsRange ch.toNat = true) (c : Nat)
    (h : inClass [(ch.toNat, ch.toNat)] c = true) : inClass clsRange c = true := by
  rw [inClass_chr] at h
  rw [h]
  exact hch

theorem reVersionCore_within : reVersionCore.within (fun c => inClass clsRange c = true) := by
  unfold reVersionCore Regex.plus Regex.chr
  simp only [Regex.within]
  have hd := inClass_digit_range
  have ht := inClass_tail_range
  have hdot := inClass_chr_range '.' (by decide)
  exact ⟨⟨hd, hd⟩, hdot, ⟨hd, hd⟩, hdot, ⟨hd, hd⟩, ht⟩

theorem rep_within (K : Nat → Prop) (r : Regex) (h : r.within K) :
    ∀ n, (Regex.rep r n).within K := by
  intro n
  induction n with
  | zero => exact trivial
  | succ n ih => exact ⟨h, ih⟩

/-- The version token of the strict pattern: `v?\d+\.\d+\.\d+[\w\.\+\-]*|[0-9a-f]{10}`. -/
theorem versionToken_within :
    (Regex.alt (.cat (Regex.opt (Regex.chr 'v')) reVersionCore)
      (Regex.rep (.cls clsHex) 10)).within (fun c => inClass clsRange c = true) := by
  have hhex : (Regex.cls clsHex).within (fun c => inClass clsRange c = true) :=
    inClass_hex_range
  refine ⟨⟨⟨?_, trivial⟩, reVersionCore_within⟩, rep_within _ _ hhex 10⟩
  exact inClass_chr_range 'v' (by decide)

theorem versionToken_pos (s t : MState)
    (h : t ∈ (Regex.alt (.cat (Regex.opt (Regex.chr 'v')) reVersionCore)
      (Regex.rep (.cls clsHex) 10)).run s) : s.pos < t.pos := by
  rcases (mem_run_alt _ _ _ _).1 h with h | h
  · obtain ⟨u, hu, ht⟩ := (mem_run_cat _ _ _ _).1 h
    have h1 := run_pos_le _ _ _ hu
    unfold reVersionCore Regex.plus at ht
    obtain ⟨w, hw, ht2⟩ := (mem_run_cat _ _ _ _).1 ht
    have h2 := run_cat_cls_pos _ _ _ _ hw
    have h3 := run_pos_le _ _ _ ht2
    omega
  · exact run_cat_cls_pos _ _ _ _ h

theorem strict_match_form (s t : MState) (h : t ∈ regexpFullVersionPath.run s) :
    ∃ a T r3, s.rest = a :: 64 :: (T ++ r3) ∧ inClass clsWord a = true ∧ T ≠ []
      ∧ (∀ c ∈ T, inClass clsRange c = true) ∧ (r3 = [] ∨ ∃ r4, r3 = 47 :: r4) := by
  unfold regexpFullVersionPath at h
  obtain ⟨u1, hu1, h⟩ := (mem_run_cat _ _ _ _).1 h
  obtain ⟨u1', hu1', rfl⟩ := (mem_run_group _ _ _ _).1 hu1
  obtain ⟨a, r1, hs, ha, rfl⟩ := (mem_run_cls _ _ _).1 hu1'
  obtain ⟨u2, hu2, h⟩ := (mem_run_cat _ _ _ _).1 h
  obtain ⟨r2, hr1, rfl⟩ := (mem_run_chr _ _ _).1 hu2
  obtain ⟨u3, hu3, h⟩ := (mem_run_cat _ _ _ _).1 h
  obtain ⟨u3', hu3', rfl⟩ := (mem_run_group _ _ _ _).1 hu3
  obtain ⟨T, hT, hTk, hTp⟩ := run_consumes _ _ versionToken_within _ _ hu3'
  have hpos := versionToken_pos _ _ hu3'
  obtain ⟨u4, hu4, -⟩ := (mem_run_group _ _ _ _).1 h
  simp only at hr1 hT hTp hpos hu4
  refine ⟨a, T, u3'.rest, ?_, ha, ?_, hTk, ?_⟩
  · rw [hs, hr1, hT]
    rfl
  · intro hn
    rw [hn] at hTp
    simp at hTp
    omega
  · rcases (mem_run_alt _ _ _ _).1 hu4 with h4 | h4
    · obtain ⟨r4, hr4, -⟩ := (mem_run_chr _ _ _).1 h4
      exact Or.inr ⟨r4, hr4⟩
    · exact Or.inl ((mem_run_eot _ _).1 h4).1

theorem generic_match_head (pos a : Nat) (T r3 : GoString) (caps : List (Option (Nat × Nat)))
    (ha : inClass clsWord a = true) (hne : T ≠ []) (hT : ∀ c ∈ T, inClass clsRange c = true)
    (hr : r3 = [] ∨ ∃ r4, r3 = 47 :: r4) :
    ∃ t, (regexpPathWithVersion.run ⟨pos, a :: 64 :: (T ++ r3), caps⟩).head? = some t
      ∧ t.pos = pos + 2 + T.length + r3.length.min 1 := by
  have hy : ∀ y ys', r3 = y :: ys' → inClass clsRange y = false := by
    intro y ys' hy
    rcases hr with hr | ⟨r4, hr⟩
    · rw [hr] at hy
      exact absurd hy (by simp)
    · rw [hr] at hy
      rw [← (List.cons.inj hy).1]
      decide
  have hplus := run_plus_cls_head clsRange caps T r3 (pos + 1 + 1) hne hT hy
  unfold regexpPathWithVersion
  rcases hr with hr | ⟨r4, hr⟩
  · subst hr
    refine ⟨⟨pos + 1 + 1 + T.length, [], caps.set 1 (some (pos + 1 + 1 + T.length,
      pos + 1 + 1 + T.length))⟩, ?_, by simp⟩
    refine run_cat_head _ _ _ _ _ (by rw [run_cls_cons _ _ _ _ _ ha]; rfl) ?_
    refine run_cat_head _ _ _ _ _
      (by rw [show (64 : Nat) = '@'.toNat from rfl, run_chr_cons]; rfl) ?_
    refine run_cat_head _ _ _ _ _ hplus ?_
    rw [run_group_head 1 _ _ ⟨pos + 1 + 1 + T.length, [], caps⟩]
    rw [run_alt_head_right _ _ _ (run_chr_nil _ _ _)]
    exact run_alt_head_left _ _ _ _ rfl
  · subst hr
    refine ⟨⟨pos + 1 + 1 + T.length + 1, r4, caps.set 1 (some (pos + 1 + 1 + T.length,
      pos + 1 + 1 + T.length + 1))⟩, ?_, by simp⟩
    refine run_cat_head _ _ _ _ _ (by rw [run_cls_cons _ _ _ _ _ ha]; rfl) ?_
    refine run_cat_head _ _ _ _ _
      (by rw [show (64 : Nat) = '@'.toNat from rfl, run_chr_cons]; rfl) ?_
    refine run_cat_head _ _ _ _ _ hplus ?_
    rw [run_group_head 1 _ _ ⟨pos + 1 + 1 + T.length + 1, r4, caps⟩]
    refine run_alt_head_left _ _ _ _ ?_
    rw [show (47 : Nat) = '/'.toNat from rfl, run_chr_cons]
    rfl

theorem strict_run_imp_generic (pos : Nat) (rest : GoString)
    (caps caps2 : List (Option (Nat × Nat)))
    (h : regexpFullVersionPath.run ⟨pos, rest, caps⟩ ≠ []) :
    regexpPathWithVersion.run ⟨pos, rest, caps2⟩ ≠ [] := by
  obtain ⟨t, ht⟩ := List.exists_mem_of_ne_nil _ h
  obtain ⟨a, T, r3, hs, ha, hne, hT, hr⟩ := strict_match_form _ _ ht
  simp only at hs
  rw [hs]
  obtain ⟨u, hu, -⟩ := generic_match_head pos a T r3 caps2 ha hne hT hr
  intro hnil
  rw [hnil] at hu
  exact absurd hu (by simp)

/-- C20: the strict pinned pattern is subsumed by the generic range pattern: wherever
`regexpFullVersionPath` has a match starting at a position of a text,
`regexpPathWithVersion` has a match starting at the same position; hence every text
matched by the first is matched by the second. -/
theorem strict_subsumed_by_generic (s : GoString) :
    (∀ i, regexpFullVersionPath.matchesAt s i = true →
        regexpPathWithVersion.matchesAt s i = true)
    ∧ (regexpFullVersionPath.matchString s = true →
        regexpPathWithVersion.matchString s = true) := by
  have key : ∀ i, regexpFullVersionPath.matchesAt s i = true →
      regexpPathWithVersion.matchesAt s i = true := by
    intro i hi
    unfold Regex.matchesAt at hi ⊢
    rw [Bool.and_eq_true, decide_eq_true_eq, Bool.not_eq_true', List.isEmpty_eq_false] at hi ⊢
    exact ⟨hi.1, strict_run_imp_generic _ _ _ _ hi.2⟩
  refine ⟨key, fun h => ?_⟩
  obtain ⟨i, hi⟩ := (matchString_iff _ _).1 h
  exact (matchString_iff _ _).2 ⟨i, key i hi⟩

/-- C20 at the text `react@18.2.0/jsx-runtime`: both patterns match at position 4. -/
theorem strict_subsumed_by_generic_witness :
    regexpFullVersionPath.matchesAt (str "react@18.2.0/jsx-runtime") 4 = true
    ∧ regexpPathWithVersion.matchesAt (str "react@18.2.0/jsx-runtime") 4 = true
    ∧ regexpFullVersionPath.matchString (str "react@18.2.0/jsx-runtime") = true
    ∧ regexpPathWithVersion.matchString (str "react@18.2.0/jsx-runtime") = true :=
  ⟨by decide,
    (strict_subsumed_by_generic (str "react@18.2.0/jsx-runtime")).1 4 (by decide),
    by decide,
    (strict_subsumed_by_generic (str "react@18.2.0/jsx-runtime")).2 (by decide)⟩

theorem versionToken_first (s t : MState)
    (h : t ∈ (Regex.alt (.cat (Regex.opt (Regex.chr 'v')) reVersionCore)
      (Regex.rep (.cls clsHex) 10)).run s) :
    ∃ c rest, s.rest = c :: rest
      ∧ (c = 118 ∨ inClass clsDigit c = true ∨ inClass clsHex c = true) := by
  rcases (mem_run_alt _ _ _ _).1 h with h | h
  · obtain ⟨u, hu, ht⟩ := (mem_run_cat _ _ _ _).1 h
    unfold Regex.opt at hu
    rcases (mem_run_alt _ _ _ _).1 hu with hu | hu
    · obtain ⟨rest, hr, -⟩ := (mem_run_chr _ _ _).1 hu
      exact ⟨118, rest, hr, Or.inl rfl⟩
    · rw [Regex.run, List.mem_singleton] at hu
      subst hu
      unfold reVersionCore Regex.plus at ht
      obtain ⟨w, hw, -⟩ := (mem_run_cat _ _ _ _).1 ht
      obtain ⟨x, hx, -⟩ := (mem_run_cat _ _ _ _).1 hw
      obtain ⟨c, rest, hr, hc, -⟩ := (mem_run_cls _ _ _).1 hx
      exact ⟨c, rest, hr, Or.inr (Or.inl hc)⟩
  · rw [show (10 : Nat) = 9 + 1 from rfl, Regex.rep] at h
    obtain ⟨x, hx, -⟩ := (mem_run_cat _ _ _ _).1 h
    obtain ⟨c, rest, hr, hc, -⟩ := (mem_run_cls _ _ _).1 hx
    exact ⟨c, rest, hr, Or.inr (Or.inr hc)⟩

theorem strict_match_first (s t : MState) (h : t ∈ regexpFullVersionPath.run s) :
    ∃ a c rest, s.rest = a :: 64 :: c :: rest ∧ inClass clsWord a = true
      ∧ (c = 118 ∨ inClass clsDigit c = true ∨ inClass clsHex c = true) := by
  unfold regexpFullVersionPath at h
  obtain ⟨u1, hu1, h⟩ := (mem_run_cat _ _ _ _).1 h
  obtain ⟨u1', hu1', rfl⟩ := (mem_run_group _ _ _ _).1 hu1
  obtain ⟨a, r1, hs, ha, rfl⟩ := (mem_run_cls _ _ _).1 hu1'
  obtain ⟨u2, hu2, h⟩ := (mem_run_cat _ _ _ _).1 h
  obtain ⟨r2, hr1, rfl⟩ := (mem_run_chr _ _ _).1 hu2
  obtain ⟨u3, hu3, h⟩ := (mem_run_cat _ _ _ _).1 h
  obtain ⟨u3', hu3', rfl⟩ := (mem_run_group _ _ _ _).1 hu3
  obtain ⟨c, rest, hc, hcc⟩ := versionToken_first _ _ hu3'
  simp only at hr1 hc
  refine ⟨a, c, rest, ?_, ha, hcc⟩
  rw [hs, hr1, hc]
  rfl

theorem at_unique (P n r rest : GoString) (hn : 64 ∉ n) (hr : 64 ∉ r)
    (h : P ++ 64 :: rest = n ++ 64 :: r) : rest = r := by
  rcases List.append_eq_append_iff.1 h with ⟨a', h1, h2⟩ | ⟨c', h1, h2⟩
  · cases a' with
    | nil => exact (List.cons.inj h2).2
    | cons x a' =>
      rw [List.cons_append] at h2
      have hx : 64 = x := (List.cons.inj h2).1
      exact absurd (by rw [h1, hx]; simp) hn
  · cases c' with
    | nil => exact ((List.cons.inj h2).2).symm
    | cons x c' =>
      rw [List.cons_append] at h2
      have hx : 64 = x := (List.cons.inj h2).1
      have hr2 : r = c' ++ 64 :: rest := (List.cons.inj h2).2
      exact absurd (by rw [hr2]; simp) hr

theorem not_at_of_word (n : GoString) (hw : ∀ c ∈ n, inClass clsWord c = true) : 64 ∉ n :=
  fun h => absurd (hw 64 h) (by decide)

theorem not_at_of_range (r : GoString) (hr : ∀ c ∈ r, inClass clsRange c = true) : 64 ∉ r :=
  fun h => absurd (hr 64 h) (by decide)

theorem drop_last_at (n : GoString) (hn : n ≠ []) (X : GoString) :
    (n ++ 64 :: X).drop (n.length - 1) = n.getLast hn :: 64 :: X := by
  obtain ⟨pre, w, rfl⟩ : ∃ pre w, n = pre ++ [w] :=
    ⟨n.dropLast, n.getLast hn, (List.dropLast_append_getLast hn).symm⟩
  have hlen : (pre ++ [w]).length - 1 = pre.length := by simp
  have hlast : (pre ++ [w]).getLast hn = w := by simp
  rw [hlen, hlast, List.append_assoc, List.drop_left]
  rfl

/-- C12: for every non-empty name `n` of word characters and every range token `r` that
starts with `^`, `~` or `*` and holds only characters of the class `[\*\~\^\w\.\+\-]`,
the text `n ++ "@" ++ r` is not matched by the strict pattern `regexpFullVersionPath`
and is matched by the generic pattern `regexpPathWithVersion`; so it is for
`lib@^1.2.0`. -/
theorem range_token_generic_only (n r : GoString) (hn : n ≠ [])
    (hw : ∀ c ∈ n, inClass clsWord c = true)
    (h0 : ∃ c r', r = c :: r' ∧ (c = 94 ∨ c = 126 ∨ c = 42))
    (hr : ∀ c ∈ r, inClass clsRange c = true) :
    regexpFullVersionPath.matchString (n ++ str "@" ++ r) = false
    ∧ regexpPathWithVersion.matchString (n ++ str "@" ++ r) = true := by
  have hs : n ++ str "@" ++ r = n ++ 64 :: r := by
    rw [List.append_assoc]
    rfl
  rw [hs]
  constructor
  · rw [Bool.eq_false_iff, Ne, matchString_iff]
    rintro ⟨i, hi⟩
    unfold Regex.matchesAt at hi
    rw [Bool.and_eq_true, decide_eq_true_eq, Bool.not_eq_true', List.isEmpty_eq_false] at hi
    obtain ⟨t, ht⟩ := List.exists_mem_of_ne_nil _ hi.2
    obtain ⟨a, c, rest, hd, -, hc⟩ := strict_match_first _ _ ht
    simp only at hd
    have hsplit := List.take_append_drop i (n ++ 64 :: r)
    rw [hd] at hsplit
    have hsplit2 : (List.take i (n ++ 64 :: r) ++ [a]) ++ 64 :: (c :: rest) = n ++ 64 :: r := by
      rw [List.append_assoc]
      exact hsplit
    have hrest := at_unique _ n r _ (not_at_of_word n hw) (not_at_of_range r hr) hsplit2
    obtain ⟨c0, r', hr0, hc0⟩ := h0
    rw [hr0] at hrest
    have hcc : c = c0 := (List.cons.inj hrest).1
    subst hcc
    rcases hc0 with rfl | rfl | rfl <;>
      rcases hc with hc | hc | hc <;> exact absurd hc (by decide)
  · rw [matchString_iff]
    refine ⟨n.length - 1, ?_⟩
    unfold Regex.matchesAt
    rw [Bool.and_eq_true, decide_eq_true_eq, Bool.not_eq_true', List.isEmpty_eq_false,
      drop_last_at n hn r]
    refine ⟨by rw [List.length_append]; omega, ?_⟩
    have hne : r ≠ [] := by
      obtain ⟨c0, r', hr0, -⟩ := h0
      rw [hr0]
      exact List.cons_ne_nil _ _
    obtain ⟨u, hu, -⟩ := generic_match_head (n.length - 1) (n.getLast hn) r []
      (List.replicate 1 none) (hw _ (List.getLast_mem hn)) hne hr (Or.inl rfl)
    rw [List.append_nil] at hu
    intro hnil
    rw [hnil] at hu
    exact absurd hu (by simp)

/-- C12 at the name `lib` and the range token `^1.2.0`. -/
theorem range_token_generic_only_witness :
    regexpFullVersionPath.matchString (str "lib" ++ str "@" ++ str "^1.2.0") = false
    ∧ regexpPathWithVersion.matchString (str "lib" ++ str "@" ++ str "^1.2.0") = true
    ∧ regexpPathWithVersion.findStringSubmatch 2 (str "lib@^1.2.0")
        = some [str "b@^1.2.0", []] := by
  have h := range_token_generic_only (str "lib") (str "^1.2.0") (by decide) (by decide)
    ⟨94, str "1.2.0", rfl, Or.inl rfl⟩ (by decide)
  exact ⟨h.1, h.2, by decide⟩

theorem mem_run_bot (s t : MState) : t ∈ Regex.bot.run s ↔ s.pos = 0 ∧ t = s := by
  rw [Regex.run]
  by_cases h : s.pos = 0
  · rw [if_pos h, List.mem_singleton]
    exact ⟨fun ht => ⟨h, ht⟩, fun ht => ht.2⟩
  · rw [if_neg h]
    simp [h]

theorem mem_run_star_cls (ranges : List (Nat × Nat)) (s t : MState)
    (h : t ∈ (Regex.star (.cls ranges)).run s) :
    ∃ xs, s.rest = xs ++ t.rest ∧ ∀ c ∈ xs, inClass ranges c = true := by
  have hw : (Regex.star (.cls ranges)).within (fun c => inClass ranges c = true) :=
    fun _ hc => hc
  obtain ⟨T, h1, h2, -⟩ := run_consumes _ _ hw s t h
  exact ⟨T, h1, h2⟩

theorem mem_run_plus_cls (ranges : List (Nat × Nat)) (s t : MState)
    (h : t ∈ (Regex.plus (.cls ranges)).run s) :
    ∃ xs, xs ≠ [] ∧ s.rest = xs ++ t.rest ∧ ∀ c ∈ xs, inClass ranges c = true := by
  have hw : (Regex.plus (.cls ranges)).within (fun c => inClass ranges c = true) :=
    ⟨fun _ hc => hc, fun _ hc => hc⟩
  obtain ⟨T, h1, h2, h3⟩ := run_consumes _ _ hw s t h
  have hpos := run_cat_cls_pos _ _ _ _ h
  refine ⟨T, ?_, h1, h2⟩
  intro hn
  rw [hn] at h3
  simp at h3
  omega

theorem fullVersion_form (v : GoString) (h : regexpFullVersion.matchString v = true) :
    ∃ d1 d2 d3 tl, v = d1 ++ 46 :: (d2 ++ 46 :: (d3 ++ tl))
      ∧ d1 ≠ [] ∧ d2 ≠ [] ∧ d3 ≠ []
      ∧ (∀ c ∈ d1, inClass clsDigit c = true) ∧ (∀ c ∈ d2, inClass clsDigit c = true)
      ∧ (∀ c ∈ d3, inClass clsDigit c = true)
      ∧ (∀ c ∈ tl, inClass clsVersionTail c = true) := by
  obtain ⟨i, hi⟩ := (matchString_iff _ _).1 h
  unfold Regex.matchesAt at hi
  rw [Bool.and_eq_true, decide_eq_true_eq, Bool.not_eq_true', List.isEmpty_eq_false] at hi
  obtain ⟨t, ht⟩ := List.exists_mem_of_ne_nil _ hi.2
  unfold regexpFullVersion at ht
  obtain ⟨u0, hu0, ht⟩ := (mem_run_cat _ _ _ _).1 ht
  obtain ⟨hi0, rfl⟩ := (mem_run_bot _ _).1 hu0
  simp only at hi0
  subst hi0
  rw [List.drop_zero] at ht
  obtain ⟨w, hw, ht⟩ := (mem_run_cat _ _ _ _).1 ht
  have hwrest := ((mem_run_eot _ _).1 ht).1
  unfold reVersionCore at hw
  obtain ⟨u1, hu1, hw⟩ := (mem_run_cat _ _ _ _).1 hw
  obtain ⟨d1, hd1, he1, hc1⟩ := mem_run_plus_cls _ _ _ hu1
  obtain ⟨u2, hu2, hw⟩ := (mem_run_cat _ _ _ _).1 hw
  obtain ⟨r2, he2, rfl⟩ := (mem_run_chr _ _ _).1 hu2
  obtain ⟨u3, hu3, hw⟩ := (mem_run_cat _ _ _ _).1 hw
  obtain ⟨d2, hd2, he3, hc2⟩ := mem_run_plus_cls _ _ _ hu3
  obtain ⟨u4, hu4, hw⟩ := (mem_run_cat _ _ _ _).1 hw
  obtain ⟨r4, he4, rfl⟩ := (mem_run_chr _ _ _).1 hu4
  obtain ⟨u5, hu5, hw⟩ := (mem_run_cat _ _ _ _).1 hw
  obtain ⟨d3, hd3, he5, hc3⟩ := mem_run_plus_cls _ _ _ hu5
  obtain ⟨tl, he6, hc4⟩ := mem_run_star_cls _ _ _ hw
  simp only at he1 he3 he5
  refine ⟨d1, d2, d3, tl, ?_, hd1, hd2, hd3, hc1, hc2, hc3, hc4⟩
  rw [he1, he2, he3, he4, he5, he6, hwrest, List.append_nil]
  rfl

theorem dropWhile_head_not {α : Type} (p : α → Bool) (l : List α) (y : α) (ys : List α)
    (h : l.dropWhile p = y :: ys) : p y = false := by
  induction l with
  | nil => exact absurd h (by simp)
  | cons x l ih =>
    rw [List.dropWhile_cons] at h
    by_cases hx : p x = true
    · rw [if_pos hx] at h
      exact ih h
    · rw [if_neg hx] at h
      rw [← (List.cons.inj h).1]
      exact Bool.eq_false_iff.2 hx

theorem inClass_digit_tail (c : Nat) (h : inClass clsDigit c = true) :
    inClass clsVersionTail c = true := by
  unfold inClass clsDigit at h
  unfold inClass clsVersionTail clsWord
  simp only [List.any_cons, List.any_nil, List.cons_append, List.nil_append, Bool.or_false,
    Bool.or_eq_true, Bool.and_eq_true, decide_eq_true_eq] at h ⊢
  omega

theorem core_head (d1 d2 d3 tl Y : GoString) (pos : Nat) (caps : List (Option (Nat × Nat)))
    (h1 : d1 ≠ []) (h2 : d2 ≠ []) (h3 : d3 ≠ [])
    (hc1 : ∀ c ∈ d1, inClass clsDigit c = true) (hc2 : ∀ c ∈ d2, inClass clsDigit c = true)
    (hc3 : ∀ c ∈ d3, inClass clsDigit c = true)
    (hc4 : ∀ c ∈ tl, inClass clsVersionTail c = true)
    (hY : ∀ y ys', Y = y :: ys' → inClass clsVersionTail y = false) :
    (reVersionCore.run ⟨pos, d1 ++ 46 :: (d2 ++ 46 :: (d3 ++ (tl ++ Y))), caps⟩).head?
      = some ⟨pos + (d1.length + 1 + (d2.length + 1 + (d3.length + tl.length))), Y, caps⟩ := by
  have hdot : ∀ y ys', (46 :: ys' : GoString) = y :: ys' → inClass clsDigit y = false := by
    intro y ys' hy
    rw [← (List.cons.inj hy).1]
    decide
  have hdot1 : ∀ (Z : GoString) y ys', (46 :: Z : GoString) = y :: ys' →
      inClass clsDigit y = false := by
    intro Z y ys' hy
    rw [← (List.cons.inj hy).1]
    decide
  -- the digits at the beginning of the tail belong to the third number
  have hsplit := List.takeWhile_append_dropWhile (inClass clsDigit) tl
  generalize he : tl.takeWhile (inClass clsDigit) = e at hsplit
  generalize ht : tl.dropWhile (inClass clsDigit) = tl' at hsplit
  have hce : ∀ c ∈ e, inClass clsDigit c = true := by
    intro c hc
    rw [← he] at hc
    exact List.mem_takeWhile_imp hc
  have hct : ∀ c ∈ tl', inClass clsVersionTail c = true := by
    intro c hc
    exact hc4 c (by rw [← hsplit]; exact List.mem_append_right _ hc)
  have hnext : ∀ y ys', tl' ++ Y = y :: ys' → inClass clsDigit y = false := by
    intro y ys' hy
    cases tl' with
    | nil =>
      rw [List.nil_append] at hy
      have := hY y ys' hy
      cases hd : inClass clsDigit y with
      | false => rfl
      | true =>
        rw [inClass_digit_tail y hd] at this
        exact absurd this (by decide)
    | cons z zs =>
      rw [List.cons_append] at hy
      rw [← (List.cons.inj hy).1]
      exact dropWhile_head_not _ tl z zs ht
  have htext : d3 ++ (tl ++ Y) = (d3 ++ e) ++ (tl' ++ Y) := by
    rw [← hsplit]
    simp only [List.append_assoc]
  have hlen : tl.length = e.length + tl'.length := by
    rw [← hsplit, List.length_append]
  unfold reVersionCore
  refine run_cat_head _ _ _ _ _
    (run_plus_cls_head clsDigit caps d1 _ pos h1 hc1 (hdot1 _)) ?_
  refine run_cat_head _ _ _ _ _
    (by rw [show (46 : Nat) = '.'.toNat from rfl, run_chr_cons]; rfl) ?_
  refine run_cat_head _ _ _ _ _
    (run_plus_cls_head clsDigit caps d2 _ _ h2 hc2 (hdot1 _)) ?_
  refine run_cat_head _ _ _ _ _ (by rw [run_chr_cons]; rfl) ?_
  rw [htext]
  refine run_cat_head _ _ _ _ _
    (run_plus_cls_head clsDigit caps (d3 ++ e) _ _ (by simp [h3]) ?_ hnext) ?_
  · intro c hc
    rcases List.mem_append.1 hc with hc | hc
    · exact hc3 c hc
    · exact hce c hc
  · rw [run_star_cls_head clsVersionTail caps tl' Y _ hct hY]
    congr 2
    rw [List.length_append, hlen]
    omega

theorem strict_version_head (d1 d2 d3 tl p : GoString) (pos w : Nat)
    (caps : List (Option (Nat × Nat))) (hw : inClass clsWord w = true)
    (h1 : d1 ≠ []) (h2 : d2 ≠ []) (h3 : d3 ≠ [])
    (hc1 : ∀ c ∈ d1, inClass clsDigit c = true) (hc2 : ∀ c ∈ d2, inClass clsDigit c = true)
    (hc3 : ∀ c ∈ d3, inClass clsDigit c = true)
    (hc4 : ∀ c ∈ tl, inClass clsVersionTail c = true) :
    (regexpFullVersionPath.run
        ⟨pos, w :: 64 :: (d1 ++ 46 :: (d2 ++ 46 :: (d3 ++ (tl ++ 47 :: p)))), caps⟩).head?
      = some ⟨pos + 1 + 1 + (d1.length + 1 + (d2.length + 1 + (d3.length + tl.length))) + 1, p,
          ((caps.set 1 (some (pos, pos + 1))).set 2 (some (pos + 1 + 1,
            pos + 1 + 1 + (d1.length + 1 + (d2.length + 1 + (d3.length + tl.length)))))).set 3
            (some (pos + 1 + 1 + (d1.length + 1 + (d2.length + 1 + (d3.length + tl.length))),
              pos + 1 + 1 + (d1.length + 1 + (d2.length + 1 + (d3.length + tl.length))) + 1))⟩ := by
  have hY : ∀ y ys', (47 :: p : GoString) = y :: ys' → inClass clsVersionTail y = false := by
    intro y ys' hy
    rw [← (List.cons.inj hy).1]
    decide
  have hx : ∀ x d1', d1 = x :: d1' → x ≠ 'v'.toNat := by
    intro x d1' hd hx
    have := hc1 x (by rw [hd]; exact List.mem_cons_self _ _)
    rw [hx] at this
    exact absurd this (by decide)
  have e1 : ((Regex.group 1 (.cls clsWord)).run
      ⟨pos, w :: 64 :: (d1 ++ 46 :: (d2 ++ 46 :: (d3 ++ (tl ++ 47 :: p)))), caps⟩).head?
      = some ⟨pos + 1, 64 :: (d1 ++ 46 :: (d2 ++ 46 :: (d3 ++ (tl ++ 47 :: p)))),
          caps.set 1 (some (pos, pos + 1))⟩ := by
    rw [run_group_head 1 _ _ ⟨pos + 1, _, caps⟩ (by rw [run_cls_cons _ _ _ _ _ hw]; rfl)]
  have e2 : ((Regex.chr '@').run
      ⟨pos + 1, 64 :: (d1 ++ 46 :: (d2 ++ 46 :: (d3 ++ (tl ++ 47 :: p)))),
        caps.set 1 (some (pos, pos + 1))⟩).head?
      = some ⟨pos + 1 + 1, d1 ++ 46 :: (d2 ++ 46 :: (d3 ++ (tl ++ 47 :: p))),
          caps.set 1 (some (pos, pos + 1))⟩ := by
    rw [show (64 : Nat) = '@'.toNat from rfl, run_chr_cons]
    rfl
  have e3 : ((Regex.opt (Regex.chr 'v')).run
      ⟨pos + 1 + 1, d1 ++ 46 :: (d2 ++ 46 :: (d3 ++ (tl ++ 47 :: p))),
        caps.set 1 (some (pos, pos + 1))⟩).head?
      = some ⟨pos + 1 + 1, d1 ++ 46 :: (d2 ++ 46 :: (d3 ++ (tl ++ 47 :: p))),
          caps.set 1 (some (pos, pos + 1))⟩ := by
    unfold Regex.opt
    cases hd : d1 with
    | nil => exact absurd hd h1
    | cons x d1' =>
      rw [run_alt_head_right _ _ _
        (by rw [List.cons_append]; exact run_chr_not _ _ _ _ _ (hx x d1' hd))]
      rfl
  have e4 := core_head d1 d2 d3 tl (47 :: p) (pos + 1 + 1) (caps.set 1 (some (pos, pos + 1)))
    h1 h2 h3 hc1 hc2 hc3 hc4 hY
  have e5 := run_group_head 2 _ _ _
    (run_alt_head_left _ (Regex.rep (.cls clsHex) 10) _ _ (run_cat_head _ _ _ _ _ e3 e4))
  have e6 : ((Regex.group 3 (.alt (Regex.chr '/') .eot)).run
      ⟨pos + 1 + 1 + (d1.length + 1 + (d2.length + 1 + (d3.length + tl.length))), 47 :: p,
        (caps.set 1 (some (pos, pos + 1))).set 2 (some (pos + 1 + 1,
          pos + 1 + 1 + (d1.length + 1 + (d2.length + 1 + (d3.length + tl.length)))))⟩).head?
      = some ⟨pos + 1 + 1 + (d1.length + 1 + (d2.length + 1 + (d3.length + tl.length))) + 1, p,
          ((caps.set 1 (some (pos, pos + 1))).set 2 (some (pos + 1 + 1,
            pos + 1 + 1 + (d1.length + 1 + (d2.length + 1 + (d3.length + tl.length)))))).set 3
            (some (pos + 1 + 1 + (d1.length + 1 + (d2.length + 1 + (d3.length + tl.length))),
              pos + 1 + 1 + (d1.length + 1 + (d2.length + 1 + (d3.length + tl.length))) + 1))⟩ := by
    rw [run_group_head 3 _ _ ⟨_, p, _⟩
      (run_alt_head_left _ _ _ _
        (by rw [show (47 : Nat) = '/'.toNat from rfl, run_chr_cons]; rfl))]
  unfold regexpFullVersionPath
  exact run_cat_head _ _ _ _ _ e1 (run_cat_head _ _ _ _ _ e2 (run_cat_head _ _ _ _ _ e5 e6))

theorem reVersionCore_nil (s : MState) (h : 46 ∉ s.rest) : reVersionCore.run s = [] := by
  unfold reVersionCore
  refine run_cat_nil _ _ _ (fun x hx => ?_)
  obtain ⟨T, hT, -, -⟩ := run_consumes _ _ (within_true _) s x hx
  have h46 : 46 ∉ x.rest := fun hm => h (by rw [hT]; exact List.mem_append_right _ hm)
  have hchr : (Regex.chr '.').run x = [] := by
    rcases x with ⟨xp, xr, xc⟩
    cases xr with
    | nil => exact run_chr_nil _ _ _
    | cons y ys =>
      refine run_chr_not _ _ _ _ _ (fun hy => h46 ?_)
      rw [hy]
      exact List.mem_cons_self _ _
  refine run_cat_nil _ _ _ (fun y hy => ?_)
  rw [hchr] at hy
  exact absurd hy (List.not_mem_nil _)

theorem strict_hex_head (h : GoString) (pos w : Nat) (caps : List (Option (Nat × Nat)))
    (hw : inClass clsWord w = true) (hlen : h.length = 10)
    (hh : ∀ c ∈ h, inClass clsHex c = true) :
    (regexpFullVersionPath.run ⟨pos, w :: 64 :: h, caps⟩).head?
      = some ⟨pos + 1 + 1 + h.length, [],
          ((caps.set 1 (some (pos, pos + 1))).set 2 (some (pos + 1 + 1,
            pos + 1 + 1 + h.length))).set 3
            (some (pos + 1 + 1 + h.length, pos + 1 + 1 + h.length))⟩ := by
  have h46 : 46 ∉ h := fun hm => absurd (hh 46 hm) (by decide)
  have e1 : ((Regex.group 1 (.cls clsWord)).run ⟨pos, w :: 64 :: h, caps⟩).head?
      = some ⟨pos + 1, 64 :: h, caps.set 1 (some (pos, pos + 1))⟩ := by
    rw [run_group_head 1 _ _ ⟨pos + 1, _, caps⟩ (by rw [run_cls_cons _ _ _ _ _ hw]; rfl)]
  have e2 : ((Regex.chr '@').run ⟨pos + 1, 64 :: h, caps.set 1 (some (pos, pos + 1))⟩).head?
      = some ⟨pos + 1 + 1, h, caps.set 1 (some (pos, pos + 1))⟩ := by
    rw [show (64 : Nat) = '@'.toNat from rfl, run_chr_cons]
    rfl
  have e3 : (Regex.cat (Regex.opt (Regex.chr 'v')) reVersionCore).run
      ⟨pos + 1 + 1, h, caps.set 1 (some (pos, pos + 1))⟩ = [] := by
    refine run_cat_nil _ _ _ (fun u hu => reVersionCore_nil u ?_)
    obtain ⟨T, hT, -, -⟩ := run_consumes _ _ (within_true _) _ u hu
    simp only at hT
    exact fun hm => h46 (by rw [hT]; exact List.mem_append_right _ hm)
  have e4 : ((Regex.rep (.cls clsHex) 10).run
      ⟨pos + 1 + 1, h, caps.set 1 (some (pos, pos + 1))⟩).head?
      = some ⟨pos + 1 + 1 + h.length, [], caps.set 1 (some (pos, pos + 1))⟩ := by
    have hrep := run_rep_cls clsHex (caps.set 1 (some (pos, pos + 1))) [] h (pos + 1 + 1) hh
    rw [List.append_nil, hlen] at hrep
    rw [hrep, hlen]
    rfl
  have e5 := run_group_head 2 _ _ _ ((run_alt_head_right _ _ _ e3).trans e4)
  have e6 : ((Regex.group 3 (.alt (Regex.chr '/') .eot)).run
      ⟨pos + 1 + 1 + h.length, [],
        (caps.set 1 (some (pos, pos + 1))).set 2 (some (pos + 1 + 1,
          pos + 1 + 1 + h.length))⟩).head?
      = some ⟨pos + 1 + 1 + h.length, [],
          ((caps.set 1 (some (pos, pos + 1))).set 2 (some (pos + 1 + 1,
            pos + 1 + 1 + h.length))).set 3
            (some (pos + 1 + 1 + h.length, pos + 1 + 1 + h.length))⟩ := by
    rw [run_group_head 3 _ _ ⟨_, [], _⟩
      (by rw [run_alt_head_right _ _ _ (run_chr_nil _ _ _)]; rfl)]
  unfold regexpFullVersionPath
  exact run_cat_head _ _ _ _ _ e1 (run_cat_head _ _ _ _ _ e2 (run_cat_head _ _ _ _ _ e5 e6))

theorem strict_no_at (pos a : Nat) (rest : GoString) (caps : List (Option (Nat × Nat)))
    (h : ∀ rest', rest ≠ 64 :: rest') :
    regexpFullVersionPath.run ⟨pos, a :: rest, caps⟩ = [] := by
  by_contra hne
  obtain ⟨t, ht⟩ := List.exists_mem_of_ne_nil _ hne
  obtain ⟨a', c, rest', hd, -, -⟩ := strict_match_first _ _ ht
  simp only at hd
  exact h _ (List.cons.inj hd).2

theorem findFrom_skip_words (groups w : Nat) (X : GoString) (hw : inClass clsWord w = true) :
    ∀ (pre : GoString) (pos : Nat), (∀ c ∈ pre, inClass clsWord c = true) →
      regexpFullVersionPath.findFrom groups pos (pre ++ w :: 64 :: X)
        = regexpFullVersionPath.findFrom groups (pos + pre.length) (w :: 64 :: X) := by
  intro pre
  induction pre with
  | nil =>
    intro pos _
    rfl
  | cons a pre ih =>
    intro pos hp
    have hnext : ∀ rest', pre ++ w :: 64 :: X ≠ 64 :: rest' := by
      intro rest' he
      cases pre with
      | nil =>
        rw [List.nil_append] at he
        have h64 : w = 64 := (List.cons.inj he).1
        rw [h64] at hw
        exact absurd hw (by decide)
      | cons b pre =>
        rw [List.cons_append] at he
        have h64 : b = 64 := (List.cons.inj he).1
        have hb := hp b (List.mem_cons_of_mem _ (List.mem_cons_self _ _))
        rw [h64] at hb
        exact absurd hb (by decide)
    rw [List.cons_append, findFrom_skip _ _ _ _ _ (strict_no_at pos a _ _ hnext),
      ih (pos + 1) (fun c hc => hp c (List.mem_cons_of_mem _ hc)), List.length_cons]
    congr 1
    omega

theorem slice_eq (s A B C : GoString) (b e : Nat) (hs : s = A ++ B ++ C) (hb : b = A.length)
    (he : e = A.length + B.length) : slice s b e = B := by
  unfold slice
  have htake : s.take e = A ++ B := by
    rw [hs, he, ← List.length_append, List.take_left]
  rw [htake, hb, List.drop_left]

theorem submatch_of_find (r : Regex) (s : GoString) (start e : Nat) (rest : GoString)
    (caps : List (Option (Nat × Nat))) (b1 e1 b2 e2 b3 e3 : Nat)
    (h : r.findFrom 4 0 s = some (start, ⟨e, rest,
      ((caps.set 1 (some (b1, e1))).set 2 (some (b2, e2))).set 3 (some (b3, e3))⟩))
    (hc : caps = List.replicate 4 none) :
    r.findStringSubmatch 4 s
      = some [slice s start e, slice s b1 e1, slice s b2 e2, slice s b3 e3] := by
  unfold Regex.findStringSubmatch
  rw [h, hc]
  rfl

theorem split_last (n : GoString) (hn : n ≠ []) :
    ∃ pre, n = pre ++ [n.getLast hn] :=
  ⟨n.dropLast, (List.dropLast_append_getLast hn).symm⟩

/-- C11: for every non-empty name `n` of word characters, every version `v` accepted by
`regexpFullVersion` and every sub-path `p`, the leftmost match of `regexpFullVersionPath`
in `n ++ "@" ++ v ++ "/" ++ p` has the submatches (last character of `n`, `v`, `/`); and
for every `h` of exactly 10 characters from `0-9a-f`, its leftmost match in
`n ++ "@" ++ h` ends at the end of the text and has the version token `h`. -/
theorem fullVersionPath_submatch (n : GoString) (hn : n ≠ [])
    (hw : ∀ c ∈ n, inClass clsWord c = true) :
    (∀ v p : GoString, regexpFullVersion.matchString v = true →
      regexpFullVersionPath.findStringSubmatch 4 (n ++ str "@" ++ v ++ str "/" ++ p)
        = some [[n.getLast hn] ++ str "@" ++ v ++ str "/", [n.getLast hn], v, str "/"])
    ∧ (∀ h : GoString, h.length = 10 → (∀ c ∈ h, inClass clsHex c = true) →
      regexpFullVersionPath.findStringSubmatch 4 (n ++ str "@" ++ h)
        = some [[n.getLast hn] ++ str "@" ++ h, [n.getLast hn], h, []]) := by
  obtain ⟨pre, hpre⟩ := split_last n hn
  have hword : inClass clsWord (n.getLast hn) = true := hw _ (List.getLast_mem hn)
  have hprew : ∀ c ∈ pre, inClass clsWord c = true := by
    intro c hc
    exact hw c (by rw [hpre]; exact List.mem_append_left _ hc)
  generalize n.getLast hn = w at hpre hword
  have hat : str "@" = [64] := rfl
  have hsl : str "/" = [47] := rfl
  constructor
  · intro v p hv
    obtain ⟨d1, d2, d3, tl, hvf, h1, h2, h3, hc1, hc2, hc3, hc4⟩ := fullVersion_form v hv
    have htext : n ++ str "@" ++ v ++ str "/" ++ p
        = pre ++ w :: 64 :: (d1 ++ 46 :: (d2 ++ 46 :: (d3 ++ (tl ++ 47 :: p)))) := by
      rw [hpre, hvf, hat, hsl]
      simp only [List.append_assoc, List.cons_append, List.nil_append, List.singleton_append]
    have hvlen : v.length = d1.length + 1 + (d2.length + 1 + (d3.length + tl.length)) := by
      rw [hvf]
      simp only [List.length_append, List.length_cons]
      omega
    have hfind := findFrom_skip_words 4 w
      (d1 ++ 46 :: (d2 ++ 46 :: (d3 ++ (tl ++ 47 :: p)))) hword pre 0 hprew
    rw [findFrom_hit _ _ _ _ _
      (strict_version_head d1 d2 d3 tl p (0 + pre.length) w (List.replicate 4 none) hword
        h1 h2 h3 hc1 hc2 hc3 hc4)] at hfind
    rw [← htext, ← hvlen] at hfind
    rw [submatch_of_find _ _ _ _ _ _ _ _ _ _ _ _ hfind rfl]
    have hs1 : n ++ str "@" ++ v ++ str "/" ++ p
        = pre ++ ([w] ++ str "@" ++ v ++ str "/") ++ p := by
      rw [hpre]
      simp only [List.append_assoc]
    have hs2 : n ++ str "@" ++ v ++ str "/" ++ p
        = pre ++ [w] ++ (str "@" ++ v ++ str "/" ++ p) := by
      rw [hpre]
      simp only [List.append_assoc]
    have hs3 : n ++ str "@" ++ v ++ str "/" ++ p
        = (pre ++ [w] ++ str "@") ++ v ++ (str "/" ++ p) := by
      rw [hpre]
      simp only [List.append_assoc]
    have hs4 : n ++ str "@" ++ v ++ str "/" ++ p
        = (pre ++ [w] ++ str "@" ++ v) ++ str "/" ++ p := by
      rw [hpre]
    rw [slice_eq _ _ _ _ _ _ hs1 (by omega)
        (by simp only [List.length_append, List.length_cons, List.length_nil, hat, hsl]; omega),
      slice_eq _ _ _ _ _ _ hs2 (by omega)
        (by simp only [List.length_append, List.length_cons, List.length_nil]; omega),
      slice_eq _ _ _ _ _ _ hs3
        (by simp only [List.length_append, List.length_cons, List.length_nil, hat]; omega)
        (by simp only [List.length_append, List.length_cons, List.length_nil, hat]; omega),
      slice_eq _ _ _ _ _ _ hs4
        (by simp only [List.length_append, List.length_cons, List.length_nil, hat]; omega)
        (by simp only [List.length_append, List.length_cons, List.length_nil, hat, hsl]; omega)]
  · intro h hlen hh
    have htext : n ++ str "@" ++ h = pre ++ w :: 64 :: h := by
      rw [hpre, hat]
      simp only [List.append_assoc, List.cons_append, List.nil_append, List.singleton_append]
    have hfind := findFrom_skip_words 4 w h hword pre 0 hprew
    rw [findFrom_hit _ _ _ _ _
      (strict_hex_head h (0 + pre.length) w (List.replicate 4 none) hword hlen hh)] at hfind
    rw [← htext] at hfind
    rw [submatch_of_find _ _ _ _ _ _ _ _ _ _ _ _ hfind rfl]
    have hs1 : n ++ str "@" ++ h = pre ++ ([w] ++ str "@" ++ h) ++ [] := by
      rw [hpre]
      simp only [List.append_assoc, List.append_nil]
    have hs3 : n ++ str "@" ++ h = (pre ++ [w] ++ str "@") ++ h ++ [] := by
      rw [hpre]
      simp only [List.append_assoc, List.append_nil]
    have hs2 : n ++ str "@" ++ h = pre ++ [w] ++ (str "@" ++ h) := by
      rw [hpre]
      simp only [List.append_assoc]
    have hs4 : n ++ str "@" ++ h = (pre ++ [w] ++ str "@" ++ h) ++ [] ++ [] := by
      rw [hpre]
      simp only [List.append_assoc, List.append_nil]
    rw [slice_eq _ _ _ _ _ _ hs1 (by omega)
        (by simp only [List.length_append, List.length_cons, List.length_nil, hat]; omega),
      slice_eq _ _ _ _ _ _ hs2 (by omega)
        (by simp only [List.length_append, List.length_cons, List.length_nil]; omega),
      slice_eq _ _ _ _ _ _ hs3
        (by simp only [List.length_append, List.length_cons, List.length_nil, hat]; omega)
        (by simp only [List.length_append, List.length_cons, List.length_nil, hat]; omega),
      slice_eq _ _ _ _ _ _ hs4
        (by simp only [List.length_append, List.length_cons, List.length_nil, hat]; omega)
        (by simp only [List.length_append, List.length_cons, List.length_nil, hat]; omega)]

/-- C11 at the texts `react@18.2.0/jsx-runtime` and `lib@abcdef0123`. -/
theorem fullVersionPath_submatch_witness :
    regexpFullVersion.matchString (str "18.2.0") = true
    ∧ regexpFullVersionPath.findStringSubmatch 4
        (str "react" ++ str "@" ++ str "18.2.0" ++ str "/" ++ str "jsx-runtime")
        = some [str "t@18.2.0/", str "t", str "18.2.0", str "/"]
    ∧ regexpFullVersionPath.findStringSubmatch 4 (str "lib" ++ str "@" ++ str "abcdef0123")
        = some [str "b@abcdef0123", str "b", str "abcdef0123", []] :=
  ⟨by decide,
    (fullVersionPath_submatch (str "react") (by decide) (by decide)).1 (str "18.2.0")
      (str "jsx-runtime") (by decide),
    (fullVersionPath_submatch (str "lib") (by decide) (by decide)).2 (str "abcdef0123")
      (by decide) (by decide)⟩

/-! ## Semantic versions: theorems -/

theorem run_bot_zero (rest : GoString) (caps : List (Option (Nat × Nat))) :
    Regex.bot.run ⟨0, rest, caps⟩ = [⟨0, rest, caps⟩] := rfl

theorem run_bot_pos (pos : Nat) (rest : GoString) (caps : List (Option (Nat × Nat)))
    (h : 0 < pos) : Regex.bot.run ⟨pos, rest, caps⟩ = [] := by
  rw [Regex.run, if_neg (by simp only; omega)]

theorem run_cat_nil_left (r q : Regex) (s : MState) (h : r.run s = []) :
    (Regex.cat r q).run s = [] := by
  refine run_cat_nil _ _ _ (fun t ht => ?_)
  rw [h] at ht
  exact absurd ht (List.not_mem_nil _)

theorem run_opt_skip (r : Regex) (s : MState) (h : r.run s = []) :
    (Regex.opt r).run s = [s] := by
  unfold Regex.opt
  rw [Regex.run, h]
  rfl

theorem run_opt_head (r : Regex) (s t : MState) (h : (r.run s).head? = some t) :
    ((Regex.opt r).run s).head? = some t := by
  unfold Regex.opt
  exact run_alt_head_left _ _ _ _ h

theorem run_dot_number_head (g pos : Nat) (d ys : GoString) (caps : List (Option (Nat × Nat)))
    (hne : d ≠ []) (hd : ∀ c ∈ d, inClass clsDigit c = true)
    (hy : ∀ y ys', ys = y :: ys' → inClass clsDigit y = false) :
    ((Regex.opt (.group g (.cat (Regex.chr '.') (Regex.plus (.cls clsDigit))))).run
        ⟨pos, 46 :: (d ++ ys), caps⟩).head?
      = some ⟨pos + 1 + d.length, ys, caps.set g (some (pos, pos + 1 + d.length))⟩ := by
  refine run_opt_head _ _ _ ?_
  rw [run_group_head g _ _ ⟨pos + 1 + d.length, ys, caps⟩]
  refine run_cat_head _ _ _ ⟨pos + 1, d ++ ys, caps⟩ _ ?_ ?_
  · rw [show (46 : Nat) = '.'.toNat from rfl, run_chr_cons]
    rfl
  · exact run_plus_cls_head clsDigit caps d ys (pos + 1) hne hd hy

theorem run_opt_group_end (g : Nat) (ch : Char) (r : Regex) (pos : Nat)
    (caps : List (Option (Nat × Nat))) :
    (Regex.opt (.group g (.cat (Regex.chr ch) r))).run ⟨pos, [], caps⟩ = [⟨pos, [], caps⟩] :=
  run_opt_skip _ _ (run_group_nil _ _ _ (run_cat_nil_left _ _ _ (run_chr_nil _ _ _)))

theorem versionRegex_head (d1 d2 d3 : GoString) (caps : List (Option (Nat × Nat)))
    (h1 : IsDecimal d1) (h2 : IsDecimal d2) (h3 : IsDecimal d3) :
    (versionRegex.run ⟨0, d1 ++ 46 :: (d2 ++ 46 :: (d3 ++ [])), caps⟩).head?
      = some ⟨0 + d1.length + 1 + d2.length + 1 + d3.length, [],
          ((caps.set 1 (some (0, 0 + d1.length))).set 2
            (some (0 + d1.length, 0 + d1.length + 1 + d2.length))).set 3
            (some (0 + d1.length + 1 + d2.length,
              0 + d1.length + 1 + d2.length + 1 + d3.length))⟩ := by
  have hdot : ∀ (Z : GoString) y ys', (46 :: Z : GoString) = y :: ys' →
      inClass clsDigit y = false := by
    intro Z y ys' hy
    rw [← (List.cons.inj hy).1]
    decide
  have hend : ∀ y ys', ([] : GoString) = y :: ys' → inClass clsDigit y = false :=
    fun y ys' hy => absurd hy (by simp)
  have e1 : ((Regex.opt (Regex.chr 'v')).run
      ⟨0, d1 ++ 46 :: (d2 ++ 46 :: (d3 ++ [])), caps⟩).head?
      = some ⟨0, d1 ++ 46 :: (d2 ++ 46 :: (d3 ++ [])), caps⟩ := by
    cases hd : d1 with
    | nil => exact absurd hd h1.1
    | cons x d1' =>
      rw [run_opt_skip]
      · rfl
      · rw [List.cons_append]
        refine run_chr_not _ _ _ _ _ (fun hx => ?_)
        have := h1.2 x (by rw [hd]; exact List.mem_cons_self _ _)
        rw [hx] at this
        exact absurd this (by decide)
  have e2 := run_group_head 1 _ _ _
    (run_plus_cls_head clsDigit caps d1 (46 :: (d2 ++ 46 :: (d3 ++ []))) 0 h1.1 h1.2 (hdot _))
  have e3 := run_dot_number_head 2 (0 + d1.length) d2 (46 :: (d3 ++ []))
    (caps.set 1 (some (0, 0 + d1.length))) h2.1 h2.2 (hdot _)
  have e4 := run_dot_number_head 3 (0 + d1.length + 1 + d2.length) d3 []
    ((caps.set 1 (some (0, 0 + d1.length))).set 2
      (some (0 + d1.length, 0 + d1.length + 1 + d2.length))) h3.1 h3.2 hend
  unfold versionRegex
  refine run_cat_head _ _ _ _ _ (by rw [run_bot_zero]; rfl) ?_
  refine run_cat_head _ _ _ _ _ e1 ?_
  refine run_cat_head _ _ _ _ _ e2 ?_
  refine run_cat_head _ _ _ _ _ e3 ?_
  refine run_cat_head _ _ _ _ _ e4 ?_
  refine run_cat_head _ _ _ _ _ (by rw [run_opt_group_end]; rfl) ?_
  refine run_cat_head _ _ _ _ _ (by rw [run_opt_group_end]; rfl) ?_
  rfl

theorem versionRegex_submatch (d1 d2 d3 : GoString)
    (h1 : IsDecimal d1) (h2 : IsDecimal d2) (h3 : IsDecimal d3) :
    versionRegex.findStringSubmatch 10 (versionText d1 d2 d3)
      = some [versionText d1 d2 d3, d1, 46 :: d2, 46 :: d3, [], [], [], [], [], []] := by
  have htext : versionText d1 d2 d3 = d1 ++ 46 :: (d2 ++ 46 :: (d3 ++ [])) := by
    unfold versionText
    rw [show str "." = [46] from rfl]
    simp only [List.append_assoc, List.cons_append, List.nil_append, List.append_nil]
  have hfind := findFrom_hit _ _ _ _ _
    (versionRegex_head d1 d2 d3 (List.replicate 10 none) h1 h2 h3)
  rw [← htext] at hfind
  unfold Regex.findStringSubmatch
  rw [hfind]
  simp only [List.replicate, List.set_cons_succ, List.set_cons_zero, List.drop_succ_cons,
    List.drop_zero, List.map_cons, List.map_nil, Option.some.injEq, List.cons.injEq, and_true]
  have hs0 : versionText d1 d2 d3 = [] ++ versionText d1 d2 d3 ++ [] := by simp
  have hs1 : versionText d1 d2 d3 = [] ++ d1 ++ (46 :: (d2 ++ 46 :: (d3 ++ []))) := by
    rw [htext]
    rfl
  have hs2 : versionText d1 d2 d3 = d1 ++ (46 :: d2) ++ (46 :: (d3 ++ [])) := by
    rw [htext]
    simp only [List.append_assoc, List.cons_append]
  have hs3 : versionText d1 d2 d3 = (d1 ++ 46 :: d2) ++ (46 :: d3) ++ [] := by
    rw [htext]
    simp only [List.append_assoc, List.cons_append, List.append_nil]
  have hl : (versionText d1 d2 d3).length = d1.length + 1 + d2.length + 1 + d3.length := by
    rw [htext]
    simp only [List.length_append, List.length_cons, List.length_nil]
    omega
  refine ⟨slice_eq _ _ _ _ _ _ hs0 rfl (by simp only [List.length_nil]; omega),
    slice_eq _ _ _ _ _ _ hs1 rfl (by simp only [List.length_nil]),
    slice_eq _ _ _ _ _ _ hs2 (by omega) (by simp only [List.length_cons]; omega),
    slice_eq _ _ _ _ _ _ hs3 (by simp only [List.length_append, List.length_cons]; omega)
      (by simp only [List.length_append, List.length_cons]; omega)⟩

theorem parseUint_decimal (d : GoString) (h : IsDecimal d) (hv : decVal d < 2 ^ 64) :
    parseUint d = some (decVal d) := by
  unfold parseUint
  rw [if_neg h.1, if_pos (List.all_eq_true.2 h.2), if_pos hv]

theorem parseUint_overflow (d : GoString) (hv : ¬ decVal d < 2 ^ 64) : parseUint d = none := by
  unfold parseUint
  by_cases h1 : d = []
  · rw [if_pos h1]
  · rw [if_neg h1]
    by_cases h2 : d.all (inClass clsDigit) = true
    · rw [if_pos h2, if_neg hv]
    · rw [if_neg h2]

theorem trimPrefix_dot (d : GoString) : trimPrefix (46 :: d) (str ".") = d := by
  unfold trimPrefix
  have hp : hasPrefix (46 :: d) (str ".") = true := hasPrefix_append (str ".") d
  rw [if_pos hp]
  rfl

theorem newVersion_numeric (L : PreRules) (d1 d2 d3 : GoString)
    (h1 : IsDecimal d1) (h2 : IsDecimal d2) (h3 : IsDecimal d3)
    (hv1 : decVal d1 < 2 ^ 64) (hv2 : decVal d2 < 2 ^ 64) (hv3 : decVal d3 < 2 ^ 64) :
    newVersion L (versionText d1 d2 d3) = some ⟨decVal d1, decVal d2, decVal d3, [], []⟩ := by
  unfold newVersion
  rw [versionRegex_submatch d1 d2 d3 h1 h2 h3]
  simp only [List.getD_cons_zero, List.getD_cons_succ, parseUint_decimal d1 h1 hv1,
    trimPrefix_dot, parseUint_decimal d2 h2 hv2, parseUint_decimal d3 h3 hv3, ne_eq,
    List.cons_ne_nil, not_false_eq_true, if_true, not_true_eq_false, false_and, if_false]

theorem lessThan_numeric (L : PreRules) (a1 a2 a3 b1 b2 b3 : Nat) :
    Version.lessThan L ⟨a1, a2, a3, [], []⟩ ⟨b1, b2, b3, [], []⟩
      = decide (a1 < b1 ∨ (a1 = b1 ∧ (a2 < b2 ∨ (a2 = b2 ∧ a3 < b3)))) := by
  unfold Version.lessThan Version.compare compareSegment
  simp only [and_self, if_true]
  rw [decide_eq_decide]
  split_ifs <;> simp <;> omega

/-- C13, as stated, fails for numbers that do not fit in 64 bits: the versions
`18446744073709551616.0.0` and `18446744073709551617.0.0` are three dot-separated decimal
numbers, the first triple is the smaller one, and `semverLessThan` panics instead of
returning true. -/
theorem semverLessThan_overflow :
    IsDecimal (str "18446744073709551616") ∧ IsDecimal (str "18446744073709551617")
    ∧ IsDecimal (str "0")
    ∧ decVal (str "18446744073709551616") < decVal (str "18446744073709551617")
    ∧ ∀ L : PreRules,
        semverLessThan L (versionText (str "18446744073709551616") (str "0") (str "0"))
          (versionText (str "18446744073709551617") (str "0") (str "0")) = none :=
  ⟨⟨by decide, by decide⟩, ⟨by decide, by decide⟩, ⟨by decide, by decide⟩, by decide,
    fun _ => rfl⟩

/-- C13, amended: for all versions `a` and `b` written as three dot-separated decimal
numbers of which each is at most `2^64 - 1`, `semverLessThan a b` returns a boolean, and
it is true exactly when the triple of numbers of `a` is smaller than the triple of `b` in
lexicographic order. -/
theorem semverLessThan_numeric (L : PreRules) (a1 a2 a3 b1 b2 b3 : GoString)
    (ha1 : IsDecimal a1) (ha2 : IsDecimal a2) (ha3 : IsDecimal a3)
    (hb1 : IsDecimal b1) (hb2 : IsDecimal b2) (hb3 : IsDecimal b3)
    (va1 : decVal a1 < 2 ^ 64) (va2 : decVal a2 < 2 ^ 64) (va3 : decVal a3 < 2 ^ 64)
    (vb1 : decVal b1 < 2 ^ 64) (vb2 : decVal b2 < 2 ^ 64) (vb3 : decVal b3 < 2 ^ 64) :
    semverLessThan L (versionText a1 a2 a3) (versionText b1 b2 b3)
      = some (decide (decVal a1 < decVal b1 ∨ (decVal a1 = decVal b1
          ∧ (decVal a2 < decVal b2 ∨ (decVal a2 = decVal b2 ∧ decVal a3 < decVal b3))))) := by
  unfold semverLessThan
  rw [newVersion_numeric L a1 a2 a3 ha1 ha2 ha3 va1 va2 va3,
    newVersion_numeric L b1 b2 b3 hb1 hb2 hb3 vb1 vb2 vb3]
  simp only [lessThan_numeric]

/-- C13, amended, at the versions `1.2.3` and `1.10.0`: the minor numbers 2 and 10 are
compared as numbers and the result is true. -/
theorem semverLessThan_numeric_witness :
    versionText (str "1") (str "2") (str "3") = str "1.2.3"
    ∧ versionText (str "1") (str "10") (str "0") = str "1.10.0"
    ∧ semverLessThan sampleRules (versionText (str "1") (str "2") (str "3"))
        (versionText (str "1") (str "10") (str "0")) = some true := by
  refine ⟨by decide, by decide, ?_⟩
  have h := semverLessThan_numeric sampleRules (str "1") (str "2") (str "3") (str "1")
    (str "10") (str "0") ⟨by decide, by decide⟩ ⟨by decide, by decide⟩
    ⟨by decide, by decide⟩ ⟨by decide, by decide⟩ ⟨by decide, by decide⟩
    ⟨by decide, by decide⟩
    (by decide) (by decide) (by decide) (by decide) (by decide) (by decide)
  rw [h]
  decide

theorem versionRegex_findFrom_pos (groups : Nat) :
    ∀ (s : GoString) (pos : Nat), 0 < pos → versionRegex.findFrom groups pos s = none := by
  intro s
  induction s with
  | nil =>
    intro pos hp
    refine findFrom_nil_none _ _ _ ?_
    unfold versionRegex
    exact run_cat_nil_left _ _ _ (run_bot_pos _ _ _ hp)
  | cons c rest ih =>
    intro pos hp
    rw [findFrom_skip _ _ _ _ _ (by
      unfold versionRegex
      exact run_cat_nil_left _ _ _ (run_bot_pos _ _ _ hp))]
    exact ih (pos + 1) (by omega)

theorem versionRegex_run_nil (pos : Nat) (a : GoString) (caps : List (Option (Nat × Nat)))
    (h : ∀ c rest, a = c :: rest → c ≠ 118 ∧ inClass clsDigit c = false) :
    versionRegex.run ⟨pos, a, caps⟩ = [] := by
  have hdigit : ∀ (p : Nat) (cs : List (Option (Nat × Nat))),
      (Regex.cls clsDigit).run ⟨p, a, cs⟩ = [] := by
    intro p cs
    cases ha : a with
    | nil => exact run_cls_nil _ _ _
    | cons c rest => exact run_cls_not _ _ _ _ _ (h c rest ha).2
  have hv : ∀ (p : Nat) (cs : List (Option (Nat × Nat))),
      (Regex.chr 'v').run ⟨p, a, cs⟩ = [] := by
    intro p cs
    cases ha : a with
    | nil => exact run_chr_nil _ _ _
    | cons c rest => exact run_chr_not _ _ _ _ _ (h c rest ha).1
  unfold versionRegex
  refine run_cat_nil _ _ _ (fun u hu => ?_)
  obtain ⟨-, rfl⟩ := (mem_run_bot _ _).1 hu
  refine run_cat_nil _ _ _ (fun u hu => ?_)
  rw [run_opt_skip _ _ (hv _ _), List.mem_singleton] at hu
  subst hu
  refine run_cat_nil_left _ _ _ (run_group_nil _ _ _ ?_)
  unfold Regex.plus
  exact run_cat_nil_left _ _ _ (hdigit _ _)

theorem newVersion_reject (L : PreRules) (a : GoString)
    (h : ∀ c rest, a = c :: rest → c ≠ 118 ∧ inClass clsDigit c = false) :
    newVersion L a = none := by
  have hfind : versionRegex.findFrom 10 0 a = none := by
    cases ha : a with
    | nil =>
      refine findFrom_nil_none _ _ _ ?_
      rw [← ha]
      exact versionRegex_run_nil 0 a _ h
    | cons c rest =>
      rw [findFrom_skip _ _ _ _ _ (by rw [← ha]; exact versionRegex_run_nil 0 a _ h)]
      exact versionRegex_findFrom_pos 10 rest 1 (by omega)
  unfold newVersion Regex.findStringSubmatch
  rw [hfind]

/-! ## Semantic versions: the form of the accepted versions -/

theorem starRun_rel (Rel : MState → MState → Prop) (hrefl : ∀ s, Rel s s)
    (htrans : ∀ s u t, Rel s u → Rel u t → Rel s t) (f : MState → List MState)
    (hf : ∀ s t, t ∈ f s → Rel s t) :
    ∀ (fuel : Nat) (s t : MState), t ∈ starRun f fuel s → Rel s t := by
  intro fuel
  induction fuel with
  | zero =>
    intro s t ht
    rw [starRun, List.mem_singleton] at ht
    subst ht
    exact hrefl _
  | succ n ih =>
    intro s t ht
    rw [starRun, List.mem_append, List.mem_flatMap] at ht
    rcases ht with ⟨u, hu, htu⟩ | ht
    · exact htrans _ _ _ (hf _ _ (List.mem_filter.1 hu).1) (ih _ _ htu)
    · rw [List.mem_singleton] at ht
      subst ht
      exact hrefl _

theorem run_keeps (G : Nat → Prop) (r : Regex) (hr : r.groupsIn G) :
    ∀ (s t : MState), t ∈ r.run s →
      t.caps.length = s.caps.length ∧ ∀ j, ¬ G j → t.caps[j]? = s.caps[j]? := by
  induction r with
  | cls ranges =>
    intro s t ht
    obtain ⟨c, rest, -, -, rfl⟩ := (mem_run_cls _ _ _).1 ht
    exact ⟨rfl, fun _ _ => rfl⟩
  | eps =>
    intro s t ht
    rw [Regex.run, List.mem_singleton] at ht
    subst ht
    exact ⟨rfl, fun _ _ => rfl⟩
  | bot =>
    intro s t ht
    obtain ⟨-, rfl⟩ := (mem_run_bot _ _).1 ht
    exact ⟨rfl, fun _ _ => rfl⟩
  | eot =>
    intro s t ht
    obtain ⟨-, rfl⟩ := (mem_run_eot _ _).1 ht
    exact ⟨rfl, fun _ _ => rfl⟩
  | cat r q ihr ihq =>
    intro s t ht
    obtain ⟨u, hu, htu⟩ := (mem_run_cat _ _ _ _).1 ht
    obtain ⟨h1, h2⟩ := ihr hr.1 _ _ hu
    obtain ⟨h3, h4⟩ := ihq hr.2 _ _ htu
    exact ⟨h3.trans h1, fun j hj => (h4 j hj).trans (h2 j hj)⟩
  | alt r q ihr ihq =>
    intro s t ht
    rcases (mem_run_alt _ _ _ _).1 ht with h | h
    · exact ihr hr.1 _ _ h
    · exact ihq hr.2 _ _ h
  | star r ih =>
    intro s t ht
    rw [Regex.run] at ht
    exact starRun_rel
      (fun s t => t.caps.length = s.caps.length ∧ ∀ j, ¬ G j → t.caps[j]? = s.caps[j]?)
      (fun _ => ⟨rfl, fun _ _ => rfl⟩)
      (fun _ _ _ h1 h2 => ⟨h2.1.trans h1.1, fun j hj => (h2.2 j hj).trans (h1.2 j hj)⟩)
      _ (ih hr) _ _ _ ht
  | group i r ih =>
    intro s t ht
    obtain ⟨u, hu, rfl⟩ := (mem_run_group _ _ _ _).1 ht
    obtain ⟨h1, h2⟩ := ih hr.2 _ _ hu
    refine ⟨by simp only [List.length_set]; exact h1, fun j hj => ?_⟩
    have hij : i ≠ j := fun h => hj (h ▸ hr.1)
    simp only [List.getElem?_set_ne hij]
    exact h2 j hj

theorem run_caps_eq (r : Regex) (hr : r.groupsIn (fun _ => False)) (s t : MState)
    (h : t ∈ r.run s) : t.caps = s.caps := by
  obtain ⟨-, h2⟩ := run_keeps _ r hr s t h
  exact List.ext_getElem? (fun j => h2 j (fun hf => hf))

theorem mem_run_plus_cls_pos (ranges : List (Nat × Nat)) (s t : MState)
    (h : t ∈ (Regex.plus (.cls ranges)).run s) :
    ∃ xs, xs ≠ [] ∧ (∀ c ∈ xs, inClass ranges c = true) ∧ s.rest = xs ++ t.rest
      ∧ t.pos = s.pos + xs.length ∧ t.caps = s.caps := by
  have hw : (Regex.plus (.cls ranges)).within (fun c => inClass ranges c = true) :=
    ⟨fun _ hc => hc, fun _ hc => hc⟩
  obtain ⟨T, h1, h2, h3⟩ := run_consumes _ _ hw s t h
  have hpos := run_cat_cls_pos _ _ _ _ h
  have hg : (Regex.plus (.cls ranges)).groupsIn (fun _ => False) := by
    unfold Regex.plus
    exact ⟨trivial, trivial⟩
  refine ⟨T, ?_, h2, h1, h3, run_caps_eq _ hg _ _ h⟩
  intro hn
  rw [hn] at h3
  simp at h3
  omega

theorem isIdentByte_eq (c : Nat) : inClass clsIdent c = isIdentByte c := by
  have h45 : (decide (45 ≤ c) && decide (c ≤ 45)) = decide (c = 45) := by
    rw [← Bool.decide_and, decide_eq_decide]
    omega
  simp only [inClass, clsIdent, isIdentByte, List.any_cons, List.any_nil, Bool.or_false,
    Bool.or_assoc, h45]

theorem sepPart_inv (ch : Char) (ranges : List (Nat × Nat)) (s t : MState)
    (h : t ∈ (Regex.cat (Regex.chr ch) (Regex.plus (.cls ranges))).run s) :
    ∃ xs, xs ≠ [] ∧ (∀ c ∈ xs, inClass ranges c = true) ∧ s.rest = ch.toNat :: xs ++ t.rest
      ∧ t.pos = s.pos + (xs.length + 1) ∧ t.caps = s.caps := by
  obtain ⟨u, hu, htu⟩ := (mem_run_cat _ _ _ _).1 h
  obtain ⟨rest, h1, rfl⟩ := (mem_run_chr _ _ _).1 hu
  obtain ⟨xs, h2, h3, h4, h5, h6⟩ := mem_run_plus_cls_pos _ _ _ htu
  refine ⟨xs, h2, h3, ?_, ?_, h6⟩
  · rw [h1]
    simp only at h4
    rw [h4]
    rfl
  · rw [h5]
    simp only
    omega

theorem isIdent_of_cls (xs : GoString) (h1 : xs ≠ [])
    (h2 : ∀ c ∈ xs, inClass clsIdent c = true) : IsIdent xs :=
  ⟨h1, fun c hc => by rw [← isIdentByte_eq]; exact h2 c hc⟩

theorem reDotted_groupsIn (g : Nat) : (reDotted g).groupsIn (fun j => j = g) := by
  unfold reDotted Regex.plus Regex.chr
  exact ⟨⟨trivial, trivial⟩, rfl, trivial, trivial, trivial⟩

theorem reDotted_inv (g : Nat) (s t : MState) (h : t ∈ (reDotted g).run s) :
    ∃ x, IsDotted x ∧ s.rest = x ++ t.rest ∧ t.pos = s.pos + x.length
      ∧ t.caps.length = s.caps.length ∧ ∀ j, j ≠ g → t.caps[j]? = s.caps[j]? := by
  obtain ⟨hl, hk⟩ := run_keeps _ _ (reDotted_groupsIn g) s t h
  unfold reDotted at h
  obtain ⟨u, hu, htu⟩ := (mem_run_cat _ _ _ _).1 h
  obtain ⟨p, hp1, hp2, hp3, hp4, -⟩ := mem_run_plus_cls_pos _ _ _ hu
  rw [Regex.run] at htu
  have hstar := starRun_rel
    (fun s t => ∃ ps : List GoString, (∀ q ∈ ps, IsIdent q)
      ∧ s.rest = (ps.map (fun q => 46 :: q)).flatten ++ t.rest
      ∧ t.pos = s.pos + ((ps.map (fun q => 46 :: q)).flatten).length)
    (fun s => ⟨[], fun _ hq => absurd hq (List.not_mem_nil _), rfl, rfl⟩)
    (fun s u t h1 h2 => by
      obtain ⟨ps, a1, a2, a3⟩ := h1
      obtain ⟨qs, b1, b2, b3⟩ := h2
      refine ⟨ps ++ qs, ?_, ?_, ?_⟩
      · intro q hq
        rcases List.mem_append.1 hq with hq | hq
        · exact a1 q hq
        · exact b1 q hq
      · rw [a2, b2, List.map_append, List.flatten_append, List.append_assoc]
      · rw [b3, a3, List.map_append, List.flatten_append, List.length_append]
        omega)
    _ (fun s t ht => by
      obtain ⟨w, hw, rfl⟩ := (mem_run_group _ _ _ _).1 ht
      obtain ⟨q, q1, q2, q3, q4, -⟩ := sepPart_inv _ _ _ _ hw
      refine ⟨[q], ?_, ?_, ?_⟩
      · intro x hx
        rw [List.mem_singleton] at hx
        subst hx
        exact isIdent_of_cls _ q1 q2
      · simp only [List.map_cons, List.map_nil, List.flatten_cons, List.flatten_nil,
          List.append_nil]
        exact q3
      · simp only [List.map_cons, List.map_nil, List.flatten_cons, List.flatten_nil,
          List.append_nil, List.length_cons]
        exact q4)
    _ _ _ htu
  obtain ⟨ps, c1, c2, c3⟩ := hstar
  refine ⟨p ++ (ps.map (fun q => 46 :: q)).flatten,
    ⟨p, ps, isIdent_of_cls _ hp1 hp2, c1, rfl⟩, ?_, ?_, hl, fun j hj => hk j hj⟩
  · rw [hp3, c2, List.append_assoc]
  · rw [c3, hp4, List.length_append]
    omega

theorem optNumber_inv (g : Nat) (s t : MState)
    (h : t ∈ (Regex.opt (.group g (.cat (Regex.chr '.') (Regex.plus (.cls clsDigit))))).run s) :
    ∃ o : Option GoString, (∀ x ∈ o, IsDecimal x) ∧ s.rest = optPart 46 o ++ t.rest
      ∧ t.pos = s.pos + (optPart 46 o).length ∧ t.caps.length = s.caps.length
      ∧ (∀ j, j ≠ g → t.caps[j]? = s.caps[j]?)
      ∧ (g < s.caps.length → t.caps[g]? = match o with
          | none => s.caps[g]?
          | some x => some (some (s.pos, s.pos + (x.length + 1)))) := by
  unfold Regex.opt at h
  rcases (mem_run_alt _ _ _ _).1 h with h | h
  · obtain ⟨u, hu, rfl⟩ := (mem_run_group _ _ _ _).1 h
    obtain ⟨xs, x1, x2, x3, x4, x5⟩ := sepPart_inv _ _ _ _ hu
    refine ⟨some xs, ?_, x3, ?_, ?_, ?_, ?_⟩
    · intro x hx
      rw [Option.mem_def, Option.some.injEq] at hx
      subst hx
      exact ⟨x1, x2⟩
    · simp only [optPart, List.length_cons]
      exact x4
    · simp only [List.length_set]
      rw [x5]
    · intro j hj
      simp only [List.getElem?_set_ne (Ne.symm hj)]
      rw [x5]
    · intro hg
      simp only
      rw [x4, List.getElem?_set_self (by rw [x5]; exact hg)]
  · rw [Regex.run, List.mem_singleton] at h
    subst h
    exact ⟨none, fun x hx => by simp at hx, rfl, rfl, rfl, fun _ _ => rfl, fun _ => rfl⟩

theorem optTag_inv (g4 g5 g6 : Nat) (ch : Char) (h45 : g5 ≠ g4) (s t : MState)
    (h : t ∈ (Regex.opt (.group g4 (.cat (Regex.chr ch) (.group g5 (reDotted g6))))).run s) :
    ∃ o : Option GoString, (∀ x ∈ o, IsDotted x) ∧ s.rest = optPart ch.toNat o ++ t.rest
      ∧ t.pos = s.pos + (optPart ch.toNat o).length ∧ t.caps.length = s.caps.length
      ∧ (∀ j, j ≠ g4 → j ≠ g5 → j ≠ g6 → t.caps[j]? = s.caps[j]?)
      ∧ (g5 < s.caps.length → t.caps[g5]? = match o with
          | none => s.caps[g5]?
          | some x => some (some (s.pos + 1, s.pos + 1 + x.length))) := by
  unfold Regex.opt at h
  rcases (mem_run_alt _ _ _ _).1 h with h | h
  · obtain ⟨u, hu, rfl⟩ := (mem_run_group _ _ _ _).1 h
    obtain ⟨w, hw, huw⟩ := (mem_run_cat _ _ _ _).1 hu
    obtain ⟨rest, r1, rfl⟩ := (mem_run_chr _ _ _).1 hw
    obtain ⟨z, hz, rfl⟩ := (mem_run_group _ _ _ _).1 huw
    obtain ⟨x, x1, x2, x3, x4, x5⟩ := reDotted_inv _ _ _ hz
    simp only at x2 x3 x4 x5
    refine ⟨some x, ?_, ?_, ?_, ?_, ?_, ?_⟩
    · intro y hy
      rw [Option.mem_def, Option.some.injEq] at hy
      subst hy
      exact x1
    · rw [r1, x2]
      rfl
    · simp only [optPart, List.length_cons]
      rw [x3]
      omega
    · simp only [List.length_set]
      exact x4
    · intro j j4 j5 j6
      simp only [List.getElem?_set_ne (Ne.symm j4), List.getElem?_set_ne (Ne.symm j5)]
      exact x5 j j6
    · intro hg
      simp only [List.getElem?_set_ne (Ne.symm h45)]
      rw [List.getElem?_set_self (by rw [x4]; exact hg), x3]
  · rw [Regex.run, List.mem_singleton] at h
    subst h
    exact ⟨none, fun x hx => by simp at hx, rfl, rfl, rfl, fun _ _ _ _ => rfl, fun _ => rfl⟩

theorem optChr_inv (ch : Char) (s t : MState) (h : t ∈ (Regex.opt (Regex.chr ch)).run s) :
    ∃ v : Bool, s.rest = (if v then [ch.toNat] else []) ++ t.rest
      ∧ t.pos = s.pos + (if v then [ch.toNat] else []).length ∧ t.caps = s.caps := by
  unfold Regex.opt at h
  rcases (mem_run_alt _ _ _ _).1 h with h | h
  · obtain ⟨rest, r1, rfl⟩ := (mem_run_chr _ _ _).1 h
    exact ⟨true, r1, rfl, rfl⟩
  · rw [Regex.run, List.mem_singleton] at h
    subst h
    exact ⟨false, rfl, rfl, rfl⟩

theorem capText_some (a A B C : GoString) (caps : List (Option (Nat × Nat))) (i b e : Nat)
    (hc : caps[i]? = some (some (b, e))) (hs : a = A ++ B ++ C) (hb : b = A.length)
    (he : e = A.length + B.length) : capText a caps i = B := by
  unfold capText
  rw [List.getD_eq_getElem?_getD, hc]
  exact slice_eq a A B C b e hs hb he

theorem capText_none (a : GoString) (caps : List (Option (Nat × Nat))) (i : Nat)
    (hc : caps[i]? = some none) : capText a caps i = [] := by
  unfold capText
  rw [List.getD_eq_getElem?_getD, hc]
  rfl

theorem versionRegex_inv (a : GoString) (t : MState)
    (h : t ∈ versionRegex.run ⟨0, a, List.replicate 10 none⟩) :
    ∃ (v : Bool) (d1 : GoString) (o2 o3 o5 o8 : Option GoString),
      a = (if v then [118] else []) ++ (d1 ++ (optPart 46 o2 ++ (optPart 46 o3
        ++ (optPart 45 o5 ++ optPart 43 o8))))
      ∧ IsDecimal d1 ∧ (∀ x ∈ o2, IsDecimal x) ∧ (∀ x ∈ o3, IsDecimal x)
      ∧ (∀ x ∈ o5, IsDotted x) ∧ (∀ x ∈ o8, IsDotted x)
      ∧ capText a t.caps 1 = d1 ∧ capText a t.caps 2 = optPart 46 o2
      ∧ capText a t.caps 3 = optPart 46 o3 ∧ capText a t.caps 5 = o5.getD []
      ∧ capText a t.caps 8 = o8.getD [] := by
  unfold versionRegex at h
  obtain ⟨s0, h0, h⟩ := (mem_run_cat _ _ _ _).1 h
  obtain ⟨-, rfl⟩ := (mem_run_bot _ _).1 h0
  obtain ⟨s1, h1, h⟩ := (mem_run_cat _ _ _ _).1 h
  obtain ⟨s2, h2, h⟩ := (mem_run_cat _ _ _ _).1 h
  obtain ⟨s3, h3, h⟩ := (mem_run_cat _ _ _ _).1 h
  obtain ⟨s4, h4, h⟩ := (mem_run_cat _ _ _ _).1 h
  obtain ⟨s5, h5, h⟩ := (mem_run_cat _ _ _ _).1 h
  obtain ⟨s6, h6, h⟩ := (mem_run_cat _ _ _ _).1 h
  obtain ⟨he, rfl⟩ := (mem_run_eot _ _).1 h
  obtain ⟨v, v1, v2, v3⟩ := optChr_inv _ _ _ h1
  obtain ⟨u, hu, rfl⟩ := (mem_run_group _ _ _ _).1 h2
  obtain ⟨d1, d11, d12, d13, d14, d15⟩ := mem_run_plus_cls_pos _ _ _ hu
  obtain ⟨o2, n1, n2, n3, n4, n5, n6⟩ := optNumber_inv _ _ _ h3
  obtain ⟨o3, m1, m2, m3, m4, m5, m6⟩ := optNumber_inv _ _ _ h4
  obtain ⟨o5, p1, p2, p3, p4, p5, p6⟩ := optTag_inv _ _ _ _ (by decide) _ _ h5
  obtain ⟨o8, q1, q2, q3, q4, q5, q6⟩ := optTag_inv _ _ _ _ (by decide) _ _ h6
  simp only at v1 v2 v3 n2 n3 n4 n5 n6
  rw [show ('v'.toNat) = 118 from rfl] at v1 v2
  rw [show ('-'.toNat) = 45 from rfl] at p2 p3
  rw [show ('+'.toNat) = 43 from rfl] at q2 q3
  have hlen1 : s1.caps.length = 10 := by rw [v3]; rfl
  have hlenu : u.caps.length = 10 := by rw [d15]; exact hlen1
  have hlen3 : s3.caps.length = 10 := by rw [n4, List.length_set]; exact hlenu
  have hlen4 : s4.caps.length = 10 := by rw [m4]; exact hlen3
  have hlen5 : t.caps.length = 10 := by rw [q4, p4]; exact hlen4
  have ha : a = (if v then [118] else []) ++ (d1 ++ (optPart 46 o2 ++ (optPart 46 o3
      ++ (optPart 45 o5 ++ optPart 43 o8)))) := by
    rw [v1, d13, n2, m2, p2, q2, he, List.append_nil]
  have hu0 : ∀ j, j < 10 → u.caps[j]? = some none := by
    intro j hj
    rw [d15, v3]
    simp only [List.getElem?_replicate, if_pos hj]
  have hp1 : s1.pos = (if v then [118] else []).length := by rw [v2, Nat.zero_add]
  have hpu : u.pos = (if v then [118] else []).length + d1.length := by rw [d14, hp1]
  have hp3 : s3.pos = (if v then [118] else []).length + d1.length
      + (optPart 46 o2).length := by rw [n3, hpu]
  have hp4 : s4.pos = (if v then [118] else []).length + d1.length
      + (optPart 46 o2).length + (optPart 46 o3).length := by rw [m3, hp3]
  have hp5 : s5.pos = (if v then [118] else []).length + d1.length
      + (optPart 46 o2).length + (optPart 46 o3).length + (optPart 45 o5).length := by
    rw [p3, hp4]
  refine ⟨v, d1, o2, o3, o5, o8, ha, ⟨d11, d12⟩, n1, m1, p1, q1, ?_, ?_, ?_, ?_, ?_⟩
  · have hc : t.caps[1]? = some (some (s1.pos, u.pos)) := by
      rw [q5 1 (by decide) (by decide) (by decide), p5 1 (by decide) (by decide) (by decide),
        m5 1 (by decide), n5 1 (by decide), List.getElem?_set_self (by omega)]
    refine capText_some a (if v then [118] else []) d1
      (optPart 46 o2 ++ (optPart 46 o3 ++ (optPart 45 o5 ++ optPart 43 o8))) _ 1 _ _ hc
      ?_ hp1 hpu
    rw [ha]
    simp only [List.append_assoc]
  · have hc : t.caps[2]? = s3.caps[2]? := by
      rw [q5 2 (by decide) (by decide) (by decide), p5 2 (by decide) (by decide) (by decide),
        m5 2 (by decide)]
    rw [n6 (by rw [List.length_set]; omega)] at hc
    cases o2 with
    | none =>
      simp only at hc
      rw [List.getElem?_set_ne (by decide), hu0 2 (by decide)] at hc
      exact capText_none _ _ _ hc
    | some x =>
      simp only at hc
      refine capText_some a ((if v then [118] else []) ++ d1) (46 :: x)
        (optPart 46 o3 ++ (optPart 45 o5 ++ optPart 43 o8)) _ 2 _ _ hc ?_ ?_ ?_
      · rw [ha]
        simp only [List.append_assoc, optPart]
      · rw [hpu, List.length_append]
      · rw [hpu, List.length_append, List.length_cons]
  · have hc : t.caps[3]? = s4.caps[3]? := by
      rw [q5 3 (by decide) (by decide) (by decide), p5 3 (by decide) (by decide) (by decide)]
    rw [m6 (by omega)] at hc
    cases o3 with
    | none =>
      simp only at hc
      rw [n5 3 (by decide), List.getElem?_set_ne (by decide), hu0 3 (by decide)] at hc
      exact capText_none _ _ _ hc
    | some x =>
      simp only at hc
      refine capText_some a ((if v then [118] else []) ++ d1 ++ optPart 46 o2) (46 :: x)
        (optPart 45 o5 ++ optPart 43 o8) _ 3 _ _ hc ?_ ?_ ?_
      · rw [ha]
        simp only [List.append_assoc, optPart]
      · rw [hp3, List.length_append, List.length_append]
      · rw [hp3, List.length_append, List.length_append, List.length_cons]
  · have hc : t.caps[5]? = s5.caps[5]? := by
      rw [q5 5 (by decide) (by decide) (by decide)]
    rw [p6 (by omega)] at hc
    cases o5 with
    | none =>
      simp only at hc
      rw [m5 5 (by decide), n5 5 (by decide), List.getElem?_set_ne (by decide),
        hu0 5 (by decide)] at hc
      exact capText_none _ _ _ hc
    | some x =>
      simp only at hc
      refine capText_some a
        ((if v then [118] else []) ++ d1 ++ optPart 46 o2 ++ optPart 46 o3 ++ [45]) x
        (optPart 43 o8) _ 5 _ _ hc ?_ ?_ ?_
      · rw [ha]
        simp only [List.append_assoc, optPart, List.cons_append, List.nil_append]
      · rw [hp4]
        simp only [List.length_append, List.length_cons, List.length_nil]
      · rw [hp4]
        simp only [List.length_append, List.length_cons, List.length_nil]
  · have hc := q6 (by omega)
    cases o8 with
    | none =>
      simp only at hc
      rw [p5 8 (by decide) (by decide) (by decide), m5 8 (by decide), n5 8 (by decide),
        List.getElem?_set_ne (by decide), hu0 8 (by decide)] at hc
      exact capText_none _ _ _ hc
    | some x =>
      simp only at hc
      refine capText_some a
        ((if v then [118] else []) ++ d1 ++ optPart 46 o2 ++ optPart 46 o3 ++ optPart 45 o5
          ++ [43]) x [] _ 8 _ _ hc ?_ ?_ ?_
      · rw [ha]
        simp only [List.append_assoc, optPart, List.cons_append, List.nil_append,
          List.append_nil]
      · rw [hp5]
        simp only [List.length_append, List.length_cons, List.length_nil]
      · rw [hp5]
        simp only [List.length_append, List.length_cons, List.length_nil]

theorem findFrom_some_head (r : Regex) (groups : Nat) :
    ∀ (s : GoString) (pos start : Nat) (t : MState),
      r.findFrom groups pos s = some (start, t) →
        ∃ k, k ≤ s.length ∧ start = pos + k
          ∧ (r.run ⟨pos + k, s.drop k, List.replicate groups none⟩).head? = some t := by
  intro s
  induction s with
  | nil =>
    intro pos start t h
    rw [Regex.findFrom] at h
    cases hr : r.run ⟨pos, [], List.replicate groups none⟩ with
    | nil =>
      rw [hr] at h
      exact absurd h (by simp)
    | cons t1 tl =>
      rw [hr] at h
      simp only [Option.some.injEq, Prod.mk.injEq] at h
      refine ⟨0, Nat.le_refl _, h.1.symm, ?_⟩
      rw [Nat.add_zero, List.drop_zero, hr, ← h.2]
      rfl
  | cons c rest ih =>
    intro pos start t h
    rw [Regex.findFrom] at h
    cases hr : r.run ⟨pos, c :: rest, List.replicate groups none⟩ with
    | nil =>
      rw [hr] at h
      obtain ⟨k, hk, h1, h2⟩ := ih _ _ _ h
      refine ⟨k + 1, by simp only [List.length_cons]; omega, by omega, ?_⟩
      rw [List.drop_succ_cons, show pos + (k + 1) = pos + 1 + k from by omega]
      exact h2
    | cons t1 tl =>
      rw [hr] at h
      simp only [Option.some.injEq, Prod.mk.injEq] at h
      refine ⟨0, Nat.zero_le _, h.1.symm, ?_⟩
      rw [Nat.add_zero, List.drop_zero, hr, ← h.2]
      rfl

theorem versionRegex_submatch_inv (a : GoString) (m : List GoString)
    (h : versionRegex.findStringSubmatch 10 a = some m) :
    ∃ t, t ∈ versionRegex.run ⟨0, a, List.replicate 10 none⟩
      ∧ ∀ i, m.getD (i + 1) [] = capText a t.caps (i + 1) := by
  unfold Regex.findStringSubmatch at h
  cases hf : versionRegex.findFrom 10 0 a with
  | none =>
    rw [hf] at h
    exact absurd h (by simp)
  | some w =>
    obtain ⟨start, t⟩ := w
    rw [hf] at h
    simp only [Option.some.injEq] at h
    obtain ⟨k, -, -, hk⟩ := findFrom_some_head _ _ _ _ _ _ hf
    have hmem : t ∈ versionRegex.run ⟨0 + k, a.drop k, List.replicate 10 none⟩ :=
      List.mem_of_mem_head? hk
    have hk0 : k = 0 := by
      unfold versionRegex at hmem
      obtain ⟨s0, h0, -⟩ := (mem_run_cat _ _ _ _).1 hmem
      have := ((mem_run_bot _ _).1 h0).1
      simp only at this
      omega
    subst hk0
    rw [Nat.zero_add, List.drop_zero] at hmem
    refine ⟨t, hmem, fun i => ?_⟩
    rw [← h, List.getD_cons_succ]
    unfold capText
    rw [List.getD_eq_getElem?_getD, List.getD_eq_getElem?_getD, List.getElem?_map,
      List.getElem?_drop, Nat.add_comm 1 i]
    cases t.caps[i + 1]? with
    | none => rfl
    | some c =>
      cases c with
      | none => rfl
      | some be => rfl

theorem parseUint_some_lt (d : GoString) (n : Nat) (h : parseUint d = some n) :
    decVal d < 2 ^ 64 := by
  by_contra hv
  rw [parseUint_overflow d hv] at h
  exact absurd h (by simp)

theorem isDotted_ne_nil (x : GoString) (h : IsDotted x) : x ≠ [] := by
  obtain ⟨p, ps, hp, -, rfl⟩ := h
  intro hn
  exact hp.1 (List.append_eq_nil.1 hn).1

theorem optNumber_bound (o : Option GoString) (n : Nat)
    (h : (if optPart 46 o ≠ [] then parseUint (trimPrefix (optPart 46 o) (str "."))
      else some 0) = some n) : ∀ x ∈ o, decVal x < 2 ^ 64 := by
  intro x hx
  rw [Option.mem_def] at hx
  subst hx
  rw [if_pos (by simp [optPart])] at h
  simp only [optPart] at h
  rw [trimPrefix_dot] at h
  exact parseUint_some_lt _ _ h

theorem newVersion_accepted (L : PreRules) (a : GoString) (ver : Version)
    (h : newVersion L a = some ver) : Accepted L a := by
  unfold newVersion at h
  cases hm : versionRegex.findStringSubmatch 10 a with
  | none =>
    rw [hm] at h
    exact absurd h (by simp)
  | some m =>
    rw [hm] at h
    simp only at h
    obtain ⟨t, ht, hg⟩ := versionRegex_submatch_inv a m hm
    obtain ⟨v, d1, o2, o3, o5, o8, ha, w1, w2, w3, w5, w8, c1, c2, c3, c5, c8⟩ :=
      versionRegex_inv a t ht
    rw [hg 0, hg 1, hg 2, hg 4, hg 7, c1, c2, c3, c5, c8] at h
    cases hn1 : parseUint d1 with
    | none =>
      rw [hn1] at h
      exact absurd h (by simp)
    | some n1 =>
    rw [hn1] at h
    simp only at h
    cases hn2 : (if optPart 46 o2 ≠ [] then parseUint (trimPrefix (optPart 46 o2) (str "."))
      else some 0) with
    | none =>
      rw [hn2] at h
      exact absurd h (by simp)
    | some n2 =>
    rw [hn2] at h
    simp only at h
    cases hn3 : (if optPart 46 o3 ≠ [] then parseUint (trimPrefix (optPart 46 o3) (str "."))
      else some 0) with
    | none =>
      rw [hn3] at h
      exact absurd h (by simp)
    | some n3 =>
    rw [hn3] at h
    simp only at h
    have b1 := parseUint_some_lt _ _ hn1
    have b2 := optNumber_bound _ _ hn2
    have b3 := optNumber_bound _ _ hn3
    have v5 : ∀ x ∈ o5, L.validatePrerelease x = true := by
      intro x hx
      rw [Option.mem_def] at hx
      subst hx
      by_contra hv
      rw [Bool.not_eq_true] at hv
      simp only [Option.getD_some] at h
      rw [if_pos ⟨isDotted_ne_nil _ (w5 x rfl), hv⟩] at h
      exact absurd h (by simp)
    have v8 : ∀ x ∈ o8, L.validateMetadata x = true := by
      intro x hx
      rw [Option.mem_def] at hx
      subst hx
      by_contra hv
      rw [Bool.not_eq_true] at hv
      simp only [Option.getD_some] at h
      by_cases h5 : o5.getD [] ≠ [] ∧ L.validatePrerelease (o5.getD []) = false
      · rw [if_pos h5] at h
        exact absurd h (by simp)
      · rw [if_neg h5, if_pos ⟨isDotted_ne_nil _ (w8 x rfl), hv⟩] at h
        exact absurd h (by simp)
    cases o2 with
    | none =>
      refine ⟨⟨v, d1, o3, none, o5, o8⟩, ?_, ⟨w1, w3, fun x hx => by simp at hx,
        fun _ => rfl, w5, w8⟩, ⟨b1, b3, fun x hx => by simp at hx⟩, v5, v8⟩
      rw [ha]
      simp only [VersionParts.text, optPart, List.nil_append]
    | some x =>
      refine ⟨⟨v, d1, some x, o3, o5, o8⟩, ?_, ⟨w1, w2, w3,
        fun hx => by simp at hx, w5, w8⟩, ⟨b1, b2, b3⟩, v5, v8⟩
      rw [ha]
      rfl

theorem consumes_cls (ranges : List (Nat × Nat)) (c : Nat) (h : inClass ranges c = true) :
    (Regex.cls ranges).Consumes [c] := by
  intro s Y hs
  exact ⟨⟨s.pos + 1, Y, s.caps⟩, (mem_run_cls _ _ _).2 ⟨c, Y, hs, h, rfl⟩, rfl⟩

theorem consumes_chr (ch : Char) : (Regex.chr ch).Consumes [ch.toNat] :=
  consumes_cls _ _ ((inClass_chr ch _).2 rfl)

theorem consumes_cat (r q : Regex) (X Z : GoString) (hr : r.Consumes X) (hq : q.Consumes Z) :
    (Regex.cat r q).Consumes (X ++ Z) := by
  intro s Y hs
  obtain ⟨u, hu, hu2⟩ := hr s (Z ++ Y) (by rw [hs, List.append_assoc])
  obtain ⟨t, ht, ht2⟩ := hq u Y hu2
  exact ⟨t, (mem_run_cat _ _ _ _).2 ⟨u, hu, ht⟩, ht2⟩

theorem consumes_group (i : Nat) (r : Regex) (X : GoString) (hr : r.Consumes X) :
    (Regex.group i r).Consumes X := by
  intro s Y hs
  obtain ⟨u, hu, hu2⟩ := hr s Y hs
  exact ⟨_, (mem_run_group _ _ _ _).2 ⟨u, hu, rfl⟩, hu2⟩

theorem consumes_opt_none (r : Regex) : (Regex.opt r).Consumes [] := by
  intro s Y hs
  refine ⟨s, (mem_run_alt _ _ _ _).2 (Or.inr ?_), hs⟩
  rw [Regex.run]
  exact List.mem_singleton.2 rfl

theorem consumes_opt_some (r : Regex) (X : GoString) (hr : r.Consumes X) :
    (Regex.opt r).Consumes X := by
  intro s Y hs
  obtain ⟨u, hu, hu2⟩ := hr s Y hs
  exact ⟨u, (mem_run_alt _ _ _ _).2 (Or.inl hu), hu2⟩

theorem self_mem_starRun (f : MState → List MState) (fuel : Nat) (s : MState) :
    s ∈ starRun f fuel s := by
  cases fuel with
  | zero =>
    rw [starRun]
    exact List.mem_singleton.2 rfl
  | succ n =>
    rw [starRun]
    exact List.mem_append.2 (Or.inr (List.mem_singleton.2 rfl))

theorem starRun_chunks (f : MState → List MState) :
    ∀ (Ts : List GoString),
      (∀ T ∈ Ts, T ≠ [] ∧ ∀ (s : MState) (Y : GoString), s.rest = T ++ Y →
        ∃ t, t ∈ f s ∧ t.rest = Y) →
      ∀ (fuel : Nat) (s : MState) (Y : GoString), s.rest = Ts.flatten ++ Y →
        s.rest.length ≤ fuel → ∃ t, t ∈ starRun f fuel s ∧ t.rest = Y := by
  intro Ts
  induction Ts with
  | nil =>
    intro _ fuel s Y hs _
    exact ⟨s, self_mem_starRun f fuel s, hs⟩
  | cons T Ts ih =>
    intro hT fuel s Y hs hfuel
    obtain ⟨hne, hcons⟩ := hT T (List.mem_cons_self _ _)
    rw [List.flatten_cons, List.append_assoc] at hs
    obtain ⟨u, hu, hu2⟩ := hcons s _ hs
    have hlen : u.rest.length < s.rest.length := by
      rw [hs, hu2]
      simp only [List.length_append]
      have := List.length_pos.2 hne
      omega
    cases fuel with
    | zero => omega
    | succ n =>
      obtain ⟨t, ht, ht2⟩ := ih (fun T1 h1 => hT T1 (List.mem_cons_of_mem _ h1)) n u Y hu2
        (by omega)
      refine ⟨t, ?_, ht2⟩
      rw [starRun]
      refine List.mem_append.2 (Or.inl (List.mem_flatMap.2 ⟨u, ?_, ht⟩))
      exact List.mem_filter.2 ⟨hu, decide_eq_true hlen⟩

theorem consumes_star (r : Regex) (Ts : List GoString)
    (h : ∀ T ∈ Ts, T ≠ [] ∧ r.Consumes T) : (Regex.star r).Consumes Ts.flatten := by
  intro s Y hs
  rw [Regex.run]
  exact starRun_chunks _ Ts h _ s Y hs (Nat.le_refl _)

theorem flatten_singletons (xs : GoString) : (xs.map (fun c => [c])).flatten = xs := by
  induction xs with
  | nil => rfl
  | cons c rest ih =>
    rw [List.map_cons, List.flatten_cons, ih]
    rfl

theorem consumes_plus_cls (ranges : List (Nat × Nat)) (xs : GoString) (hne : xs ≠ [])
    (h : ∀ c ∈ xs, inClass ranges c = true) : (Regex.plus (.cls ranges)).Consumes xs := by
  cases xs with
  | nil => exact absurd rfl hne
  | cons c rest =>
    unfold Regex.plus
    have h1 := consumes_cls ranges c (h c (List.mem_cons_self _ _))
    have h2 : (Regex.star (.cls ranges)).Consumes rest := by
      rw [← flatten_singletons rest]
      refine consumes_star _ _ (fun T hT => ?_)
      obtain ⟨d, hd, rfl⟩ := List.mem_map.1 hT
      exact ⟨List.cons_ne_nil _ _, consumes_cls ranges d (h d (List.mem_cons_of_mem _ hd))⟩
    exact consumes_cat _ _ [c] rest h1 h2

theorem consumes_decimal (d : GoString) (h : IsDecimal d) :
    (Regex.plus (.cls clsDigit)).Consumes d :=
  consumes_plus_cls _ _ h.1 h.2

theorem consumes_ident (x : GoString) (h : IsIdent x) :
    (Regex.plus (.cls clsIdent)).Consumes x :=
  consumes_plus_cls _ _ h.1 (fun c hc => by rw [isIdentByte_eq]; exact h.2 c hc)

theorem consumes_dotted (g : Nat) (x : GoString) (h : IsDotted x) :
    (reDotted g).Consumes x := by
  obtain ⟨p, ps, hp, hps, rfl⟩ := h
  unfold reDotted
  refine consumes_cat _ _ _ _ (consumes_ident p hp) (consumes_star _ _ (fun T hT => ?_))
  obtain ⟨q, hq, rfl⟩ := List.mem_map.1 hT
  refine ⟨List.cons_ne_nil _ _, consumes_group _ _ _ ?_⟩
  exact consumes_cat _ _ [46] q (consumes_chr '.') (consumes_ident q (hps q hq))

theorem consumes_optNumber (g : Nat) (o : Option GoString) (h : ∀ x ∈ o, IsDecimal x) :
    (Regex.opt (.group g (.cat (Regex.chr '.') (Regex.plus (.cls clsDigit))))).Consumes
      (optPart 46 o) := by
  cases o with
  | none => exact consumes_opt_none _
  | some x =>
    exact consumes_opt_some _ _ (consumes_group _ _ _
      (consumes_cat _ _ [46] x (consumes_chr '.') (consumes_decimal x (h x rfl))))

theorem consumes_optTag (g4 g5 g6 : Nat) (ch : Char) (o : Option GoString)
    (h : ∀ x ∈ o, IsDotted x) :
    (Regex.opt (.group g4 (.cat (Regex.chr ch) (.group g5 (reDotted g6))))).Consumes
      (optPart ch.toNat o) := by
  cases o with
  | none => exact consumes_opt_none _
  | some x =>
    exact consumes_opt_some _ _ (consumes_group _ _ _
      (consumes_cat _ _ [ch.toNat] x (consumes_chr ch)
        (consumes_group _ _ _ (consumes_dotted g6 x (h x rfl)))))

theorem ends_cat (r q : Regex) (X Z : GoString) (hr : r.Consumes X) (hq : q.Ends Z) :
    (Regex.cat r q).Ends (X ++ Z) := by
  intro s hs
  obtain ⟨u, hu, hu2⟩ := hr s Z hs
  obtain ⟨t, ht⟩ := hq u hu2
  exact ⟨t, (mem_run_cat _ _ _ _).2 ⟨u, hu, ht⟩⟩

theorem ends_eot : Regex.eot.Ends [] := by
  intro s hs
  exact ⟨s, (mem_run_eot _ _).2 ⟨hs, rfl⟩⟩

theorem versionRegex_matches (p : VersionParts) (h : p.WellFormed)
    (caps : List (Option (Nat × Nat))) :
    ∃ t, t ∈ versionRegex.run ⟨0, p.text, caps⟩ := by
  obtain ⟨w1, w2, w3, -, w5, w8⟩ := h
  have hv : (Regex.opt (Regex.chr 'v')).Consumes (if p.v then [118] else []) := by
    cases p.v with
    | false => exact consumes_opt_none _
    | true => exact consumes_opt_some _ _ (consumes_chr 'v')
  have hends := ends_cat _ _ _ _ hv
    (ends_cat _ _ _ _ (consumes_group 1 _ _ (consumes_decimal _ w1))
      (ends_cat _ _ _ _ (consumes_optNumber 2 _ w2)
        (ends_cat _ _ _ _ (consumes_optNumber 3 _ w3)
          (ends_cat _ _ _ _ (consumes_optTag 4 5 6 '-' _ w5)
            (ends_cat _ _ _ _ (consumes_optTag 7 8 9 '+' _ w8) ends_eot)))))
  obtain ⟨t, ht⟩ := hends ⟨0, p.text, caps⟩ (by
    simp only [VersionParts.text, List.append_nil]
    rfl)
  unfold versionRegex
  exact ⟨t, (mem_run_cat _ _ _ _).2 ⟨_, (mem_run_bot _ _).2 ⟨rfl, rfl⟩, ht⟩⟩

theorem span_unique (K : Nat → Prop) :
    ∀ (x x1 R R1 : GoString), (∀ c ∈ x, K c) → (∀ c ∈ x1, K c) →
      (∀ c rest, R = c :: rest → ¬ K c) → (∀ c rest, R1 = c :: rest → ¬ K c) →
      x ++ R = x1 ++ R1 → x = x1 ∧ R = R1 := by
  intro x
  induction x with
  | nil =>
    intro x1 R R1 _ hx1 hR _ h
    cases x1 with
    | nil => exact ⟨rfl, h⟩
    | cons c xs =>
      rw [List.nil_append, List.cons_append] at h
      exact absurd (hx1 c (List.mem_cons_self _ _)) (hR c _ h)
  | cons c xs ih =>
    intro x1 R R1 hx hx1 hR hR1 h
    cases x1 with
    | nil =>
      rw [List.nil_append, List.cons_append] at h
      exact absurd (hx c (List.mem_cons_self _ _)) (hR1 c _ h.symm)
    | cons c1 xs1 =>
      rw [List.cons_append, List.cons_append] at h
      obtain ⟨hc, ht⟩ := List.cons.inj h
      obtain ⟨h1, h2⟩ := ih xs1 R R1 (fun d hd => hx d (List.mem_cons_of_mem _ hd))
        (fun d hd => hx1 d (List.mem_cons_of_mem _ hd)) hR hR1 ht
      exact ⟨by rw [hc, h1], h2⟩

theorem optPart_inj (sep : Nat) (o o1 : Option GoString) (h : optPart sep o = optPart sep o1) :
    o = o1 := by
  cases o with
  | none =>
    cases o1 with
    | none => rfl
    | some y => exact absurd h (by simp [optPart])
  | some x =>
    cases o1 with
    | none => exact absurd h (by simp [optPart])
    | some y =>
      simp only [optPart, List.cons.injEq, true_and] at h
      rw [h]

theorem optPart_head (sep : Nat) (o : Option GoString) (c : Nat) (rest : GoString)
    (h : optPart sep o = c :: rest) : c = sep := by
  cases o with
  | none => exact absurd h (by simp [optPart])
  | some x =>
    simp only [optPart, List.cons.injEq] at h
    exact h.1.symm

theorem append_head (X Z : GoString) (c : Nat) (rest : GoString) (h : X ++ Z = c :: rest) :
    (∃ r, X = c :: r) ∨ (X = [] ∧ Z = c :: rest) := by
  cases X with
  | nil => exact Or.inr ⟨rfl, h⟩
  | cons d r =>
    rw [List.cons_append] at h
    exact Or.inl ⟨r, by rw [(List.cons.inj h).1]⟩

theorem dots_head (ns : List GoString) (c : Nat) (rest : GoString)
    (h : (ns.map (fun q => 46 :: q)).flatten = c :: rest) : c = 46 := by
  cases ns with
  | nil => exact absurd h (by simp)
  | cons x xs =>
    rw [List.map_cons, List.flatten_cons, List.cons_append] at h
    exact (List.cons.inj h).1.symm

theorem numbers_unique :
    ∀ (ns ns1 : List GoString), (∀ x ∈ ns, IsDecimal x) → (∀ x ∈ ns1, IsDecimal x) →
      (ns.map (fun q => 46 :: q)).flatten = (ns1.map (fun q => 46 :: q)).flatten →
      ns = ns1 := by
  intro ns
  induction ns with
  | nil =>
    intro ns1 _ _ h
    cases ns1 with
    | nil => rfl
    | cons y ys => exact absurd h (by simp)
  | cons x xs ih =>
    intro ns1 hx hy h
    cases ns1 with
    | nil => exact absurd h (by simp)
    | cons y ys =>
      simp only [List.map_cons, List.flatten_cons, List.cons_append, List.cons.injEq,
        true_and] at h
      have hnd : ∀ (zs : List GoString) (c : Nat) (rest : GoString),
          (zs.map (fun q => 46 :: q)).flatten = c :: rest → ¬ inClass clsDigit c = true := by
        intro zs c rest hz
        rw [dots_head zs c rest hz]
        decide
      obtain ⟨h1, h2⟩ := span_unique (fun c => inClass clsDigit c = true) x y _ _
        (hx x (List.mem_cons_self _ _)).2 (hy y (List.mem_cons_self _ _)).2
        (hnd xs) (hnd ys) h
      rw [h1, ih ys (fun z hz => hx z (List.mem_cons_of_mem _ hz))
        (fun z hz => hy z (List.mem_cons_of_mem _ hz)) h2]

theorem optNumbers_text (o2 o3 : Option GoString) :
    optPart 46 o2 ++ optPart 46 o3
      = ((o2.toList ++ o3.toList).map (fun q => 46 :: q)).flatten := by
  cases o2 <;> cases o3 <;> simp [optPart]

theorem optNumbers_unique (o2 o3 p2 p3 : Option GoString)
    (h2 : ∀ x ∈ o2, IsDecimal x) (h3 : ∀ x ∈ o3, IsDecimal x)
    (k2 : ∀ x ∈ p2, IsDecimal x) (k3 : ∀ x ∈ p3, IsDecimal x)
    (h : optPart 46 o2 ++ optPart 46 o3 = optPart 46 p2 ++ optPart 46 p3) :
    o2.toList ++ o3.toList = p2.toList ++ p3.toList := by
  rw [optNumbers_text, optNumbers_text] at h
  refine numbers_unique _ _ ?_ ?_ h
  · intro x hx
    rcases List.mem_append.1 hx with hx | hx
    · exact h2 x (Option.mem_toList.1 hx)
    · exact h3 x (Option.mem_toList.1 hx)
  · intro x hx
    rcases List.mem_append.1 hx with hx | hx
    · exact k2 x (Option.mem_toList.1 hx)
    · exact k3 x (Option.mem_toList.1 hx)

theorem isDotted_bytes (x : GoString) (h : IsDotted x) :
    ∀ c ∈ x, isIdentByte c = true ∨ c = 46 := by
  obtain ⟨p, ps, hp, hps, rfl⟩ := h
  intro c hc
  rcases List.mem_append.1 hc with hc | hc
  · exact Or.inl (hp.2 c hc)
  · obtain ⟨l, hl, hcl⟩ := List.mem_flatten.1 hc
    obtain ⟨q, hq, rfl⟩ := List.mem_map.1 hl
    rcases List.mem_cons.1 hcl with h1 | h1
    · exact Or.inr h1
    · exact Or.inl ((hps q hq).2 c h1)

theorem tags_unique (o5 o8 p5 p8 : Option GoString)
    (h5 : ∀ x ∈ o5, IsDotted x) (k5 : ∀ x ∈ p5, IsDotted x)
    (h : optPart 45 o5 ++ optPart 43 o8 = optPart 45 p5 ++ optPart 43 p8) :
    o5 = p5 ∧ o8 = p8 := by
  have hK : ∀ (o : Option GoString) (c : Nat) (rest : GoString), optPart 43 o = c :: rest →
      ¬ (isIdentByte c = true ∨ c = 46) := by
    intro o c rest ho
    rw [optPart_head 43 o c rest ho]
    decide
  cases o5 with
  | none =>
    cases p5 with
    | none => exact ⟨rfl, optPart_inj 43 _ _ h⟩
    | some y =>
      simp only [optPart, List.nil_append, List.cons_append] at h
      have := optPart_head 43 o8 45 _ h
      omega
  | some x =>
    cases p5 with
    | none =>
      simp only [optPart, List.nil_append, List.cons_append] at h
      have := optPart_head 43 p8 45 _ h.symm
      omega
    | some y =>
      simp only [optPart, List.cons_append, List.cons.injEq, true_and] at h
      obtain ⟨h1, h2⟩ := span_unique (fun c => isIdentByte c = true ∨ c = 46) x y _ _
        (isDotted_bytes x (h5 x rfl)) (isDotted_bytes y (k5 y rfl)) (hK o8) (hK p8) h
      exact ⟨by rw [h1], optPart_inj 43 _ _ h2⟩

theorem tags_head (o5 o8 : Option GoString) (c : Nat) (rest : GoString)
    (h : optPart 45 o5 ++ optPart 43 o8 = c :: rest) : c = 45 ∨ c = 43 := by
  rcases append_head _ _ _ _ h with ⟨r, hr⟩ | ⟨-, hr⟩
  · exact Or.inl (optPart_head 45 o5 c r hr)
  · exact Or.inr (optPart_head 43 o8 c rest hr)

theorem optNumber_bytes (o : Option GoString) (h : ∀ x ∈ o, IsDecimal x) :
    ∀ c ∈ optPart 46 o, inClass clsDigit c = true ∨ c = 46 := by
  intro c hc
  cases o with
  | none => simp [optPart] at hc
  | some x =>
    rcases List.mem_cons.1 hc with h1 | h1
    · exact Or.inr h1
    · exact Or.inl ((h x rfl).2 c h1)

theorem parts_unique (v w : Bool) (d e : GoString) (o2 o3 o5 o8 p2 p3 p5 p8 : Option GoString)
    (hd : IsDecimal d) (he : IsDecimal e)
    (h2 : ∀ x ∈ o2, IsDecimal x) (h3 : ∀ x ∈ o3, IsDecimal x)
    (k2 : ∀ x ∈ p2, IsDecimal x) (k3 : ∀ x ∈ p3, IsDecimal x)
    (h5 : ∀ x ∈ o5, IsDotted x) (k5 : ∀ x ∈ p5, IsDotted x)
    (h : (if v then [118] else []) ++ (d ++ (optPart 46 o2 ++ (optPart 46 o3
        ++ (optPart 45 o5 ++ optPart 43 o8))))
      = (if w then [118] else []) ++ (e ++ (optPart 46 p2 ++ (optPart 46 p3
        ++ (optPart 45 p5 ++ optPart 43 p8))))) :
    d = e ∧ o2.toList ++ o3.toList = p2.toList ++ p3.toList ∧ o5 = p5 ∧ o8 = p8 := by
  have hfirst : ∀ (x : GoString) (R : GoString) (rest : GoString), IsDecimal x →
      x ++ R ≠ 118 :: rest := by
    intro x R rest hx hxe
    cases x with
    | nil => exact hx.1 rfl
    | cons c cs =>
      rw [List.cons_append] at hxe
      have hc := hx.2 c (List.mem_cons_self _ _)
      rw [(List.cons.inj hxe).1] at hc
      exact absurd hc (by decide)
  have hbody : d ++ (optPart 46 o2 ++ (optPart 46 o3 ++ (optPart 45 o5 ++ optPart 43 o8)))
      = e ++ (optPart 46 p2 ++ (optPart 46 p3 ++ (optPart 45 p5 ++ optPart 43 p8))) := by
    cases v with
    | false =>
      cases w with
      | false => exact h
      | true => exact absurd (show d ++ _ = 118 :: _ from h) (hfirst _ _ _ hd)
    | true =>
      cases w with
      | false => exact absurd (show e ++ _ = 118 :: _ from h.symm) (hfirst _ _ _ he)
      | true => exact (List.cons.inj h).2
  have hR : ∀ (q2 q3 q5 q8 : Option GoString) (c : Nat) (rest : GoString),
      optPart 46 q2 ++ (optPart 46 q3 ++ (optPart 45 q5 ++ optPart 43 q8)) = c :: rest →
        ¬ inClass clsDigit c = true := by
    intro q2 q3 q5 q8 c rest hq
    have hc : c = 46 ∨ c = 45 ∨ c = 43 := by
      rcases append_head _ _ _ _ hq with ⟨r, hr⟩ | ⟨-, hr⟩
      · exact Or.inl (optPart_head 46 q2 c r hr)
      · rcases append_head _ _ _ _ hr with ⟨r, hr1⟩ | ⟨-, hr1⟩
        · exact Or.inl (optPart_head 46 q3 c r hr1)
        · exact Or.inr (tags_head q5 q8 c rest hr1)
    rcases hc with rfl | rfl | rfl <;> decide
  obtain ⟨e1, e2⟩ := span_unique (fun c => inClass clsDigit c = true) d e _ _ hd.2 he.2
    (hR o2 o3 o5 o8) (hR p2 p3 p5 p8) hbody
  have hT : ∀ (q5 q8 : Option GoString) (c : Nat) (rest : GoString),
      optPart 45 q5 ++ optPart 43 q8 = c :: rest →
        ¬ (inClass clsDigit c = true ∨ c = 46) := by
    intro q5 q8 c rest hq
    rcases tags_head q5 q8 c rest hq with rfl | rfl <;> decide
  have hN : ∀ (q2 q3 : Option GoString), (∀ x ∈ q2, IsDecimal x) → (∀ x ∈ q3, IsDecimal x) →
      ∀ c ∈ optPart 46 q2 ++ optPart 46 q3, inClass clsDigit c = true ∨ c = 46 := by
    intro q2 q3 g2 g3 c hc
    rcases List.mem_append.1 hc with hc | hc
    · exact optNumber_bytes q2 g2 c hc
    · exact optNumber_bytes q3 g3 c hc
  rw [← List.append_assoc (optPart 46 o2), ← List.append_assoc (optPart 46 p2)] at e2
  obtain ⟨e3, e4⟩ := span_unique (fun c => inClass clsDigit c = true ∨ c = 46) _ _ _ _
    (hN o2 o3 h2 h3) (hN p2 p3 k2 k3) (hT o5 o8) (hT p5 p8) e2
  obtain ⟨e5, e8⟩ := tags_unique o5 o8 p5 p8 h5 k5 e4
  exact ⟨e1, optNumbers_unique o2 o3 p2 p3 h2 h3 k2 k3 e3, e5, e8⟩

theorem optNumber_parse (o : Option GoString) (hd : ∀ x ∈ o, IsDecimal x)
    (hb : ∀ x ∈ o, decVal x < 2 ^ 64) :
    ∃ n, (if optPart 46 o ≠ [] then parseUint (trimPrefix (optPart 46 o) (str "."))
      else some 0) = some n := by
  cases o with
  | none => exact ⟨0, if_neg (fun h => h rfl)⟩
  | some x =>
    refine ⟨decVal x, ?_⟩
    rw [if_pos (by simp [optPart])]
    simp only [optPart]
    rw [trimPrefix_dot, parseUint_decimal x (hd x rfl) (hb x rfl)]

theorem versionRegex_submatch_some (a : GoString) (h : IsLenientVersion a) :
    ∃ m, versionRegex.findStringSubmatch 10 a = some m := by
  obtain ⟨p, rfl, hw⟩ := h
  obtain ⟨t, ht⟩ := versionRegex_matches p hw (List.replicate 10 none)
  have hsome : (versionRegex.findFrom 10 0 p.text).isSome = true := by
    rw [findFrom_some_iff]
    refine ⟨0, Nat.zero_le _, ?_⟩
    rw [Nat.add_zero, List.drop_zero]
    exact List.ne_nil_of_mem ht
  unfold Regex.findStringSubmatch
  cases hf : versionRegex.findFrom 10 0 p.text with
  | none =>
    rw [hf] at hsome
    exact absurd hsome (by simp)
  | some w => exact ⟨_, rfl⟩

theorem newVersion_of_accepted (L : PreRules) (a : GoString) (h : Accepted L a) :
    ∃ ver, newVersion L a = some ver := by
  obtain ⟨p, hp, hw, hr, hv⟩ := h
  obtain ⟨m, hm⟩ := versionRegex_submatch_some a ⟨p, hp, hw⟩
  obtain ⟨t, ht, hg⟩ := versionRegex_submatch_inv a m hm
  obtain ⟨v, d1, o2, o3, o5, o8, ha, w1, w2, w3, w5, w8, c1, c2, c3, c5, c8⟩ :=
    versionRegex_inv a t ht
  obtain ⟨q1, q2, q3, -, q5, q8⟩ := hw
  obtain ⟨r1, r2, r3⟩ := hr
  obtain ⟨e1, e2, e5, e8⟩ := parts_unique v p.v d1 p.major o2 o3 o5 o8 p.minor p.patch
    p.pre p.metadata w1 q1 w2 w3 q2 q3 w5 q5 (by rw [← ha, ← hp]; rfl)
  have hmem : ∀ x, x ∈ o2 ∨ x ∈ o3 → x ∈ p.minor ∨ x ∈ p.patch := by
    intro x hx
    have h1 : x ∈ o2.toList ++ o3.toList := by
      rcases hx with hx | hx
      · exact List.mem_append.2 (Or.inl (Option.mem_toList.2 hx))
      · exact List.mem_append.2 (Or.inr (Option.mem_toList.2 hx))
    rw [e2] at h1
    rcases List.mem_append.1 h1 with h2 | h2
    · exact Or.inl (Option.mem_toList.1 h2)
    · exact Or.inr (Option.mem_toList.1 h2)
  have b2 : ∀ x ∈ o2, decVal x < 2 ^ 64 := by
    intro x hx
    rcases hmem x (Or.inl hx) with h1 | h1
    · exact r2 x h1
    · exact r3 x h1
  have b3 : ∀ x ∈ o3, decVal x < 2 ^ 64 := by
    intro x hx
    rcases hmem x (Or.inr hx) with h1 | h1
    · exact r2 x h1
    · exact r3 x h1
  obtain ⟨n2, hn2⟩ := optNumber_parse o2 w2 b2
  obtain ⟨n3, hn3⟩ := optNumber_parse o3 w3 b3
  have hpre : ¬ (o5.getD [] ≠ [] ∧ L.validatePrerelease (o5.getD []) = false) := by
    rintro ⟨g1, g2⟩
    cases o5 with
    | none => exact g1 rfl
    | some x =>
      rw [Option.getD_some, hv.1 x e5.symm] at g2
      exact absurd g2 (by simp)
  have hmeta : ¬ (o8.getD [] ≠ [] ∧ L.validateMetadata (o8.getD []) = false) := by
    rintro ⟨g1, g2⟩
    cases o8 with
    | none => exact g1 rfl
    | some x =>
      rw [Option.getD_some, hv.2 x e8.symm] at g2
      exact absurd g2 (by simp)
  refine ⟨⟨decVal d1, n2, n3, o5.getD [], o8.getD []⟩, ?_⟩
  unfold newVersion
  rw [hm]
  simp only
  rw [hg 0, hg 1, hg 2, hg 4, hg 7, c1, c2, c3, c5, c8,
    parseUint_decimal d1 w1 (by rw [e1]; exact r1)]
  simp only
  rw [hn2]
  simp only
  rw [hn3]
  simp only
  rw [if_neg hpre, if_neg hmeta]

theorem accepted_lenient (L : PreRules) (a : GoString) (h : Accepted L a) :
    IsLenientVersion a := by
  obtain ⟨p, hp, hw, -, -⟩ := h
  exact ⟨p, hp, hw⟩

theorem lenient_matchString (a : GoString) (h : IsLenientVersion a) :
    versionRegex.matchString a = true := by
  obtain ⟨p, rfl, hw⟩ := h
  obtain ⟨t, ht⟩ := versionRegex_matches p hw (List.replicate 1 none)
  unfold Regex.matchString
  rw [findFrom_some_iff]
  refine ⟨0, Nat.zero_le _, ?_⟩
  rw [Nat.add_zero, List.drop_zero]
  exact List.ne_nil_of_mem ht

theorem not_accepted_of_no_match (L : PreRules) (a : GoString)
    (h : versionRegex.matchString a = false) : ¬ Accepted L a := by
  intro hacc
  rw [lenient_matchString a (accepted_lenient L a hacc)] at h
  exact absurd h (by simp)

/-- C14, as stated, fails for truncated versions: `1.2` is not of the form
MAJOR.MINOR.PATCH, yet `semverLessThan` does not panic on it but reads it as `1.2.0` and
returns an ordering. -/
theorem semverLessThan_truncated :
    regexpFullVersion.matchString (str "1.2") = false
    ∧ (∀ L : PreRules, newVersion L (str "1.2") = some ⟨1, 2, 0, [], []⟩)
    ∧ (∀ L : PreRules, semverLessThan L (str "1.2") (str "1.10.0") = some true)
    ∧ (∀ L : PreRules, semverLessThan L (str "1.10.0") (str "1.2") = some false) :=
  ⟨by decide, fun _ => rfl, fun _ => rfl, fun _ => rfl⟩

/-- C14, amended: `semverLessThan a b` panics exactly when `a` or `b` is not a version
that the lenient parser accepts.  The accepted versions are the strings
`[v]MAJOR[.MINOR[.PATCH]][-PRE][+META]`: an optional `v`, one to three decimal numbers
separated by dots, each at most `2^64 - 1`, an optional pre-release part after `-` and an
optional metadata part after `+`, both of them identifiers of the bytes `0-9A-Za-z-`
separated by dots that pass the checks of the package.  Every other string, such as
`^1.2.0`, `1.x`, `1.2.3.4`, `1.2.3 - 2.0.0` and `v`, makes the call panic; no ordering is
returned for it. -/
theorem semverLessThan_panics (L : PreRules) (a b : GoString) :
    semverLessThan L a b = none ↔ ¬ Accepted L a ∨ ¬ Accepted L b := by
  unfold semverLessThan
  constructor
  · intro h
    by_contra hn
    rw [not_or, not_not, not_not] at hn
    obtain ⟨va, ha⟩ := newVersion_of_accepted L a hn.1
    obtain ⟨vb, hb⟩ := newVersion_of_accepted L b hn.2
    rw [ha, hb] at h
    exact absurd h (by simp)
  · intro h
    cases ha : newVersion L a with
    | none => rfl
    | some va =>
      cases hb : newVersion L b with
      | none => rfl
      | some vb =>
        rcases h with h | h
        · exact absurd (newVersion_accepted L a va ha) h
        · exact absurd (newVersion_accepted L b vb hb) h

/-- C14, amended, at concrete inputs: the ranges `^1.2.0`, `1.x` and `1.2.3 - 2.0.0`, the
text `1.2.3.4` with four numbers, the text `v` and the version
`18446744073709551616.0.0`, whose major number does not fit in 64 bits, are not accepted,
on either side of the comparison, and the call panics; the truncated version `1.2` and
the version `v1.2.3-beta.1+build.5` are accepted and the call returns. -/
theorem semverLessThan_panics_witness :
    (¬ Accepted sampleRules (str "^1.2.0")
      ∧ semverLessThan sampleRules (str "^1.2.0") (str "1.0.0") = none)
    ∧ (¬ Accepted sampleRules (str "1.x")
      ∧ semverLessThan sampleRules (str "1.x") (str "1.0.0") = none)
    ∧ (¬ Accepted sampleRules (str "1.2.3.4")
      ∧ semverLessThan sampleRules (str "1.2.3.4") (str "1.0.0") = none)
    ∧ (¬ Accepted sampleRules (str "1.2.3 - 2.0.0")
      ∧ semverLessThan sampleRules (str "1.0.0") (str "1.2.3 - 2.0.0") = none)
    ∧ (¬ Accepted sampleRules (str "v")
      ∧ semverLessThan sampleRules (str "1.0.0") (str "v") = none)
    ∧ (¬ Accepted sampleRules (str "18446744073709551616.0.0")
      ∧ semverLessThan sampleRules (str "18446744073709551616.0.0") (str "1.2") = none)
    ∧ (Accepted sampleRules (str "1.2") ∧ Accepted sampleRules (str "v1.2.3-beta.1+build.5")
      ∧ semverLessThan sampleRules (str "1.2") (str "v1.2.3-beta.1+build.5") ≠ none) := by
  have n1 : ¬ Accepted sampleRules (str "^1.2.0") := not_accepted_of_no_match _ _ (by decide)
  have n2 : ¬ Accepted sampleRules (str "1.x") := not_accepted_of_no_match _ _ (by decide)
  have n3 : ¬ Accepted sampleRules (str "1.2.3.4") := not_accepted_of_no_match _ _ (by decide)
  have n4 : ¬ Accepted sampleRules (str "1.2.3 - 2.0.0") :=
    not_accepted_of_no_match _ _ (by decide)
  have n5 : ¬ Accepted sampleRules (str "v") := not_accepted_of_no_match _ _ (by decide)
  have a1 : Accepted sampleRules (str "1.2") :=
    ⟨⟨false, str "1", some (str "2"), none, none, none⟩, by decide,
      ⟨⟨by decide, by decide⟩, fun x hx => by
          rw [Option.mem_def, Option.some.injEq] at hx
          subst hx
          exact ⟨by decide, by decide⟩,
        fun x hx => by simp at hx, fun h => by simp at h, fun x hx => by simp at hx,
        fun x hx => by simp at hx⟩,
      ⟨by decide, fun x hx => by
          rw [Option.mem_def, Option.some.injEq] at hx
          subst hx
          decide, fun x hx => by simp at hx⟩,
      ⟨fun _ _ => rfl, fun _ _ => rfl⟩⟩
  have a2 : Accepted sampleRules (str "v1.2.3-beta.1+build.5") :=
    ⟨⟨true, str "1", some (str "2"), some (str "3"), some (str "beta.1"),
        some (str "build.5")⟩, by decide,
      ⟨⟨by decide, by decide⟩, fun x hx => by
          rw [Option.mem_def, Option.some.injEq] at hx
          subst hx
          exact ⟨by decide, by decide⟩,
        fun x hx => by
          rw [Option.mem_def, Option.some.injEq] at hx
          subst hx
          exact ⟨by decide, by decide⟩,
        fun h => by simp at h,
        fun x hx => by
          rw [Option.mem_def, Option.some.injEq] at hx
          subst hx
          refine ⟨str "beta", [str "1"], ⟨by decide, by decide⟩, fun q hq => ?_, by decide⟩
          rw [List.mem_singleton] at hq
          subst hq
          exact ⟨by decide, by decide⟩,
        fun x hx => by
          rw [Option.mem_def, Option.some.injEq] at hx
          subst hx
          refine ⟨str "build", [str "5"], ⟨by decide, by decide⟩, fun q hq => ?_, by decide⟩
          rw [List.mem_singleton] at hq
          subst hq
          exact ⟨by decide, by decide⟩⟩,
      ⟨by decide, fun x hx => by
          rw [Option.mem_def, Option.some.injEq] at hx
          subst hx
          decide, fun x hx => by
          rw [Option.mem_def, Option.some.injEq] at hx
          subst hx
          decide⟩,
      ⟨fun _ _ => rfl, fun _ _ => rfl⟩⟩
  have n6 : ¬ Accepted sampleRules (str "18446744073709551616.0.0") :=
    ((semverLessThan_panics sampleRules (str "18446744073709551616.0.0") (str "1.2")).1
      rfl).elim id (fun nb => absurd a1 nb)
  exact ⟨⟨n1, (semverLessThan_panics sampleRules _ _).2 (Or.inl n1)⟩,
    ⟨n2, (semverLessThan_panics sampleRules _ _).2 (Or.inl n2)⟩,
    ⟨n3, (semverLessThan_panics sampleRules _ _).2 (Or.inl n3)⟩,
    ⟨n4, (semverLessThan_panics sampleRules _ _).2 (Or.inr n4)⟩,
    ⟨n5, (semverLessThan_panics sampleRules _ _).2 (Or.inr n5)⟩,
    ⟨n6, (semverLessThan_panics sampleRules _ _).2 (Or.inl n6)⟩,
    a1, a2, fun h => ((semverLessThan_panics sampleRules _ _).1 h).elim
      (fun na => na a1) (fun nb => nb a2)⟩

end EsmUtils
